import Mathlib

/-!
Verification of the Graph-Algorithms repository.

This file is a shallow embedding, in Lean 4, of the data model and the
algorithms of the repository (graph store, union-find, spanning trees,
shortest paths, cycle detection, topological sorting, Kosaraju SCC),
together with theorems that settle the specification claims against it.

Conventions of the embedding:
- C++ `int` is modelled as `Int`.  None of the concrete runs or the
  order-insensitive general theorems below perform arithmetic anywhere
  near the 32-bit boundary, except where a claim is *about* the 32-bit
  boundary, in which case the exact constant `INT32_MAX = 2147483647`
  appears explicitly.
- `std::list` push_back order is `List` append order; `std::map` (ordered
  by key) is an association list kept sorted by key; `std::unordered_set`
  is a `List` with membership-guarded insertion (only membership is ever
  observed); `std::unordered_map<int,int>` whose iteration order is never
  observed is a total function `Int → Int` updated pointwise, with base
  value 0 mirroring `operator[]` default-insertion.
- C++ recursion (DFS, union-find `find`) is modelled with an explicit
  fuel parameter; the fuel bounds used are proved (or chosen concretely)
  large enough that the fuel-exhaustion branch is never taken on the
  inputs a theorem talks about.
-/

namespace GraphLib

/-! ## Edge (src/graph.hpp) -/

/-- Edge of the graph: source vertex `v`, destination vertex `w`, `weight`
(src/graph.hpp, `struct Edge`). -/
structure Edge where
  v : Int
  w : Int
  weight : Int
deriving DecidableEq, Repr

/-- construct an edge with the source and destination vertices reversed
(src/graph.hpp, `Edge::reversed`). -/
def Edge.reversed (e : Edge) : Edge := { v := e.w, w := e.v, weight := e.weight }

/-- return true if this edge is identical to the other edge — identity is by
unordered endpoint pair (src/graph.hpp, `Edge::equal`). -/
def Edge.equal (e other : Edge) : Bool :=
  (e.v == other.v && e.w == other.w) || (e.w == other.v && e.v == other.w)

/-- less comparator, used to sort edges by non-decreasing weight
(src/graph.hpp, `Edge::less`): note the source compares with `<=`. -/
def Edge.less (a b : Edge) : Bool :=
  decide (a.weight ≤ b.weight)

/-- greater comparator, used for the max spanning tree sort and to construct
a min-heap of edges (src/graph.hpp, `Edge::greater::operator()`): note the
source compares with `>=`. -/
def Edge.greater (a b : Edge) : Bool :=
  decide (a.weight ≥ b.weight)

/-- Modelled from the spec: `Edge::make(v, w)` is used by the repository's
test code (directed_cycle_detection.cc) but its definition is not under
src/; per spec §4.1 the weight defaults to 1 for the unweighted algorithm
family. -/
def Edge.make (v w : Int) : Edge := { v := v, w := w, weight := 1 }

/-- deduplicate an edge list: an edge is dropped when an already-kept edge
has the same unordered endpoint pair (src/graph.hpp, `dedup_edges`). -/
def dedup_edges (edges : List Edge) : List Edge :=
  edges.foldl (fun es e => if es.any (fun other => e.equal other) then es else es ++ [e]) []

/-! ## Graph (src/graph.hpp) -/

/-- Adjacency-list graph: `vertices` in insertion order (`std::list<int>`),
`adj_list` an association list sorted by key, mirroring
`std::map<int, std::list<Edge>>` (src/graph.hpp, `class Graph`). -/
structure Graph where
  vertices : List Int
  adj_list : List (Int × List Edge)
deriving Repr

/-- A graph with no vertices and no edges (default-constructed `Graph`). -/
def Graph.empty : Graph := { vertices := [], adj_list := [] }

/-- Lookup of a key in the ordered adjacency map. -/
def mapFind (m : List (Int × List Edge)) (k : Int) : Option (List Edge) :=
  (m.find? (fun p => p.1 == k)).map (fun p => p.2)

/-- `adj_list[k].push_back(e)`: `std::map::operator[]` inserts an empty list
at `k` (keeping keys sorted) when absent, then the edge is appended. -/
def mapPush (m : List (Int × List Edge)) (k : Int) (e : Edge) : List (Int × List Edge) :=
  match m with
  | [] => [(k, [e])]
  | (k', es) :: rest =>
    if k = k' then (k', es ++ [e]) :: rest
    else if k < k' then (k, [e]) :: (k', es) :: rest
    else (k', es) :: mapPush rest k e

/-- add the vertex v if it does not exist (src/graph.hpp,
`Graph::maybe_add_vertex`). -/
def Graph.maybe_add_vertex (g : Graph) (v : Int) : Graph :=
  if g.vertices.contains v then g else { g with vertices := g.vertices ++ [v] }

/-- src/graph.hpp, `Graph::add_vertex`. -/
def Graph.add_vertex (g : Graph) (v : Int) : Graph := g.maybe_add_vertex v

/-- src/graph.hpp, `Graph::add_edge`: append to `adj_list[e.v]`, then
register both endpoints. -/
def Graph.add_edge (g : Graph) (e : Edge) : Graph :=
  let g' := { g with adj_list := mapPush g.adj_list e.v e }
  (g'.maybe_add_vertex e.v).maybe_add_vertex e.w

/-- src/graph.hpp, `Graph::all_vertices`. -/
def Graph.all_vertices (g : Graph) : List Int := g.vertices

/-- src/graph.hpp, `Graph::edges`: outgoing edges of `v`, empty when `v` has
no adjacency entry. -/
def Graph.edges (g : Graph) (v : Int) : List Edge :=
  (mapFind g.adj_list v).getD []

/-- src/graph.hpp, `Graph::all_edges`: concatenation of the per-vertex
adjacency lists in `std::map` (ascending key) order.  The source comment
says "return deduplicated edges" but the body performs no deduplication. -/
def Graph.all_edges (g : Graph) : List Edge :=
  (g.adj_list.map (fun p => p.2)).flatten

/-- Modelled from the spec: the `Graph(vertices)` constructor used by
minimum_spanning_tree.hpp and the test code is not under src/; per spec
§4.1 / §3 it registers the given vertex identities and no edges. -/
def Graph.ofVertices (vs : List Int) : Graph :=
  vs.foldl (fun g v => g.add_vertex v) Graph.empty

/-- Modelled from the spec: `Graph::reversed` (the transpose, used by
strongly_connected_components.hpp) is not under src/; per spec §4.7 it
reverses every edge of the graph. -/
def Graph.reversed (g : Graph) : Graph :=
  g.all_edges.foldl (fun rg e => rg.add_edge e.reversed)
    (Graph.ofVertices g.all_vertices)

/-- Well-formedness of a graph value, as maintained by the
`add_vertex`/`add_edge` construction interface and assumed by the spec's
data model (§3): vertices are pairwise distinct, adjacency keys are sorted
(hence distinct, as in `std::map`), every stored edge sits in the bucket of
its source vertex, and every edge's endpoints are registered vertices. -/
def Graph.WF (g : Graph) : Prop :=
  g.vertices.Nodup ∧
  (g.adj_list.map Prod.fst).Pairwise (· < ·) ∧
  (∀ p ∈ g.adj_list, ∀ e ∈ p.2, e.v = p.1) ∧
  (∀ e ∈ g.all_edges, e.v ∈ g.vertices ∧ e.w ∈ g.vertices)

instance (g : Graph) : Decidable g.WF :=
  inferInstanceAs (Decidable (g.vertices.Nodup ∧
    (g.adj_list.map Prod.fst).Pairwise (· < ·) ∧
    (∀ p ∈ g.adj_list, ∀ e ∈ p.2, e.v = p.1) ∧
    (∀ e ∈ g.all_edges, e.v ∈ g.vertices ∧ e.w ∈ g.vertices)))

/-! ## Reachability -/

/-- One directed edge step: some stored outgoing edge of `a` targets `b`. -/
def EdgeStep (g : Graph) (a b : Int) : Prop :=
  ∃ e ∈ g.all_edges, e.v = a ∧ e.w = b

/-- Directed reachability: reflexive-transitive closure of `EdgeStep`. -/
def Reach (g : Graph) (a b : Int) : Prop :=
  Relation.ReflTransGen (EdgeStep g) a b

/-- The graph has a directed cycle: an edge whose destination reaches back
to its source. -/
def HasCycle (g : Graph) : Prop :=
  ∃ a b, EdgeStep g a b ∧ Reach g b a

/-! ## Dijkstra distance-table initialization (src/shortest_path.hpp) -/

/-- The maximum representable value of the C++ 32-bit `int`. -/
def INT32_MAX : Int := 2147483647

/-- The distance-table initialization of `dijkstra_sssp`
(src/shortest_path.hpp lines 127-133): for every vertex of the graph the
entry is set to `INT32_MAX` (despite the adjacent source comment "do not
use INT32_MAX to avoid integer overflow"), then the source entry is set to
0.  The base value 0 mirrors `std::unordered_map::operator[]`
default-insertion for keys never written. -/
def dijkstra_init_dist (g : Graph) (src : Int) : Int → Int :=
  let d := g.all_vertices.foldl (fun d v => fun x => if x = v then INT32_MAX else d x)
    (fun _ => 0)
  fun x => if x = src then 0 else d x

/-! ## Concrete graphs used as failing inputs / counterexamples -/

/-- Two vertices, one directed edge 0→1 of weight 1. -/
def gEdge01 : Graph := Graph.empty.add_edge { v := 0, w := 1, weight := 1 }

/-- An undirected 0-1 relationship: the two directed edges (0,1,5) and
(1,0,5), inserted the way every caller of this library represents an
undirected edge (spec §3). -/
def gUndirPair : Graph :=
  (Graph.empty.add_edge { v := 0, w := 1, weight := 5 }).add_edge { v := 1, w := 0, weight := 5 }

/-- C2: the claim asserts that `dijkstra_sssp` initializes every non-source
distance entry to a sentinel strictly below the maximum representable
value.  In the code the entry of vertex 1 (source 0, graph 0→1) is
initialized to exactly `INT32_MAX = 2147483647`, the true maximum of the
32-bit `int`, contradicting the claim and the code's own comment. -/
theorem c2_dijkstra_init_is_int32_max :
    dijkstra_init_dist gEdge01 0 1 = INT32_MAX ∧
    ¬ dijkstra_init_dist gEdge01 0 1 < INT32_MAX := by
  constructor
  · rfl
  · decide

/-- C3: the claim asserts the Kruskal sort comparators are strict
(irreflexive).  In the code both `Edge::less` and `Edge::greater` compare
with `<=` / `>=`, so comparing the edge (0,1,5) against itself yields
`true`, not `false`. -/
theorem c3_comparators_not_strict :
    Edge.less { v := 0, w := 1, weight := 5 } { v := 0, w := 1, weight := 5 } = true ∧
    Edge.greater { v := 0, w := 1, weight := 5 } { v := 0, w := 1, weight := 5 } = true := by
  constructor <;> rfl

/-- C8: the claim asserts `all_edges()` returns a deduplicated view.  On
the two-edge undirected graph 0-1 the code returns both directed copies,
which are equal under the unordered-endpoint-pair comparison that
`dedup_edges` uses — `all_edges` performs no deduplication (its own doc
comment "return deduplicated edges" notwithstanding). -/
theorem c8_all_edges_not_deduplicated :
    gUndirPair.all_edges =
      [{ v := 0, w := 1, weight := 5 }, { v := 1, w := 0, weight := 5 }] ∧
    Edge.equal { v := 0, w := 1, weight := 5 } { v := 1, w := 0, weight := 5 } = true ∧
    dedup_edges gUndirPair.all_edges = [{ v := 0, w := 1, weight := 5 }] := by
  refine ⟨?_, rfl, ?_⟩ <;> rfl

/-! ## Union-Find (src union_find.hpp, shipped alongside prim_mst.hpp) -/

/-- Lookup in an `std::unordered_map<int,int>` modelled as an association
list in insertion order (iteration order is never observed). -/
def lookupI (m : List (Int × Int)) (k : Int) : Option Int :=
  (m.find? (fun q => q.1 == k)).map (fun q => q.2)

/-- `m[k] = v`: overwrite the entry when the key is present, append it
otherwise. -/
def setI (m : List (Int × Int)) (k v : Int) : List (Int × Int) :=
  match m with
  | [] => [(k, v)]
  | (k', v') :: rest => if k = k' then (k, v) :: rest else (k', v') :: setI rest k v

/-- union-find with path compression and union by rank (union_find.hpp,
`class UF`): `p` maps a vertex to its parent, `rank` bounds tree height,
`cc_cnt` counts components. -/
structure UF where
  p : List (Int × Int)
  rank : List (Int × Int)
  cc_cnt : Int
deriving Repr

/-- The default-constructed union-find. -/
def UF.empty : UF := { p := [], rank := [], cc_cnt := 0 }

/-- Keys currently registered in the parent map. -/
def UF.dom (uf : UF) : List Int := uf.p.map Prod.fst

/-- `p[id]` as read by `UF::find`: `std::unordered_map::operator[]`
default-inserts the value 0 when the key is missing. -/
def UF.getP (uf : UF) (id : Int) : Int × UF :=
  match lookupI uf.p id with
  | some v => (v, uf)
  | none => (0, { uf with p := uf.p ++ [(id, 0)] })

/-- `rank[id]` as read by `UF::union_vertices`, with the same
default-insertion behaviour. -/
def UF.getRank (uf : UF) (id : Int) : Int × UF :=
  match lookupI uf.rank id with
  | some v => (v, uf)
  | none => (0, { uf with rank := uf.rank ++ [(id, 0)] })

/-- union_find.hpp, `UF::add_vertex`: `p[id] = id; rank[id] = 1; ++cc_cnt;`. -/
def UF.add_vertex (uf : UF) (id : Int) : UF :=
  { p := setI uf.p id id, rank := setI uf.rank id 1, cc_cnt := uf.cc_cnt + 1 }

/-- union_find.hpp, `UF::find`, with path compression:
`p[id] == id ? id : (p[id] = find(p[id]))`.  The C++ recursion has no
explicit bound; here it runs on fuel, and the fuel passed by `UF.find`
is proved sufficient whenever the parent forest is well founded (see
`UF.findAux_spec`), so the fuel-exhaustion branch is never taken there. -/
def UF.findAux : Nat → UF → Int → Int × UF
  | 0, uf, id => (id, uf)
  | fuel + 1, uf, id =>
    let pr := uf.getP id
    if pr.1 = id then (id, pr.2)
    else
      let rec2 := UF.findAux fuel pr.2 pr.1
      (rec2.1, { rec2.2 with p := setI rec2.2.p id rec2.1 })

/-- `UF::find` entry point; `p.length + 3` fuel is sufficient under the
forest invariant. -/
def UF.find (uf : UF) (id : Int) : Int × UF :=
  UF.findAux (uf.p.length + 3) uf id

/-- union_find.hpp, `UF::union_vertices` (union by rank). -/
def UF.union_vertices (uf : UF) (v w : Int) : UF :=
  let fv := uf.find v
  let root_v := fv.1
  let fw := fv.2.find w
  let root_w := fw.1
  if root_v = root_w then fw.2
  else
    let gv := fw.2.getRank root_v
    let rv := gv.1
    let gw := gv.2.getRank root_w
    let rw' := gw.1
    let uf4 := gw.2
    let uf5 :=
      if rv ≤ rw' then
        let uf5 := { uf4 with p := setI uf4.p root_v root_w }
        if rv = rw' then { uf5 with rank := setI uf5.rank root_w (rw' + 1) } else uf5
      else { uf4 with p := setI uf4.p root_w root_v }
    { uf5 with cc_cnt := uf5.cc_cnt - 1 }

/-- union_find.hpp, `UF::is_connected`: `find(v) == find(w)` (the two calls
are evaluated left to right; either order yields the same roots). -/
def UF.is_connected (uf : UF) (v w : Int) : Bool × UF :=
  let fv := uf.find v
  let fw := fv.2.find w
  (fv.1 == fw.1, fw.2)

/-- Modelled from the spec: the `UF(vertices)` constructor used by
minimum_spanning_tree.hpp and directed_cycle_detection.cc is not under
src/; per spec §4.2 (`make(vertex)` registers a singleton set) it
registers every given vertex. -/
def UF.ofVertices (vs : List Int) : UF :=
  vs.foldl UF.add_vertex UF.empty

/-! ### The parent-forest invariant (claim C9) -/

/-- Following one parent pointer; a missing key reads as its own parent
(it is exactly the vertices that were never written that behave as fresh
roots). -/
def UF.parent (uf : UF) (v : Int) : Int :=
  (lookupI uf.p v).getD v

/-- Iterated parent pointers. -/
def UF.parentIter (uf : UF) : Nat → Int → Int
  | 0, v => v
  | k + 1, v => uf.parentIter k (uf.parent v)

/-- `v` is a root: its parent is itself. -/
def UF.Root (uf : UF) (v : Int) : Prop := uf.parent v = v

/-- Following parent pointers from `v` terminates at a root. -/
def UF.Terminates (uf : UF) (v : Int) : Prop := ∃ k, uf.Root (uf.parentIter k v)

/-- The inductive invariant: every parent value is either the
`operator[]` default 0 or a registered key, and every parent chain
terminates at a root. -/
def UF.Inv (uf : UF) : Prop :=
  (∀ q ∈ uf.p, q.2 = 0 ∨ q.2 ∈ uf.dom) ∧ (∀ v, uf.Terminates v)

/-- The operations the claim quantifies over. -/
inductive UFOp where
  | add (id : Int)
  | union (v w : Int)
  | findQ (v : Int)
  | connQ (v w : Int)

/-- One operation applied to the structure (queries mutate it through path
compression). -/
def UF.applyOp (uf : UF) : UFOp → UF
  | .add id => uf.add_vertex id
  | .union v w => uf.union_vertices v w
  | .findQ v => (uf.find v).2
  | .connQ v w => (uf.is_connected v w).2

/-- A sequence of operations run on a fresh instance. -/
def UF.run (ops : List UFOp) : UF :=
  ops.foldl UF.applyOp UF.empty

/-! ### Map lemmas -/

theorem lookupI_nil (y : Int) : lookupI [] y = none := rfl

theorem lookupI_cons (a b y : Int) (rest : List (Int × Int)) :
    lookupI ((a, b) :: rest) y = if a = y then some b else lookupI rest y := by
  by_cases h : a = y
  · have hb : (a == y) = true := by simpa using h
    simp [lookupI, List.find?, hb, h]
  · have hb : (a == y) = false := by simpa using h
    simp [lookupI, List.find?, hb, h]

theorem lookupI_eq_none (m : List (Int × Int)) (y : Int) :
    lookupI m y = none ↔ y ∉ m.map Prod.fst := by
  induction m with
  | nil => simp [lookupI_nil]
  | cons q rest ih =>
    obtain ⟨a, b⟩ := q
    rw [lookupI_cons]
    by_cases h : a = y
    · simp [h]
    · simp [h, ih, Ne.symm h]

theorem lookupI_mem {m : List (Int × Int)} {y v : Int}
    (h : lookupI m y = some v) : (y, v) ∈ m := by
  induction m with
  | nil => simp [lookupI_nil] at h
  | cons q rest ih =>
    obtain ⟨a, b⟩ := q
    rw [lookupI_cons] at h
    by_cases hay : a = y
    · simp [hay] at h
      simp [hay, h]
    · simp [hay] at h
      exact List.mem_cons_of_mem _ (ih h)

theorem setI_nil (k v : Int) : setI [] k v = [(k, v)] := rfl

theorem setI_cons (k v k' v' : Int) (rest : List (Int × Int)) :
    setI ((k', v') :: rest) k v =
      if k = k' then (k, v) :: rest else (k', v') :: setI rest k v := rfl

theorem lookupI_setI (m : List (Int × Int)) (k v y : Int) :
    lookupI (setI m k v) y = if y = k then some v else lookupI m y := by
  induction m with
  | nil =>
    rw [setI_nil, lookupI_cons, lookupI_nil]
    by_cases h : k = y
    · simp [h]
    · simp [h, Ne.symm h]
  | cons q rest ih =>
    obtain ⟨k', v'⟩ := q
    rw [setI_cons]
    by_cases hk : k = k'
    · subst hk
      have hcollapse :
          (if k = k then (k, v) :: rest else (k, v') :: setI rest k v) = (k, v) :: rest :=
        if_pos rfl
      rw [hcollapse, lookupI_cons, lookupI_cons]
      by_cases h : k = y
      · simp [h]
      · simp [h, Ne.symm h]
    · rw [if_neg hk, lookupI_cons, lookupI_cons, ih]
      by_cases h : k' = y
      · have hyk : ¬ y = k := fun hyk => hk ((h.trans hyk).symm)
        simp [h, hyk]
      · simp [h]

theorem mem_setI {m : List (Int × Int)} {k v : Int} {q : Int × Int}
    (h : q ∈ setI m k v) : q = (k, v) ∨ q ∈ m := by
  induction m with
  | nil =>
    rw [setI_nil] at h
    simp at h
    exact Or.inl h
  | cons q' rest ih =>
    obtain ⟨k', v'⟩ := q'
    rw [setI_cons] at h
    by_cases hk : k = k'
    · rw [if_pos hk] at h
      rcases List.mem_cons.mp h with h1 | h1
      · exact Or.inl h1
      · exact Or.inr (List.mem_cons_of_mem _ h1)
    · rw [if_neg hk] at h
      rcases List.mem_cons.mp h with h1 | h1
      · exact Or.inr (by simp [h1])
      · rcases ih h1 with h2 | h2
        · exact Or.inl h2
        · exact Or.inr (List.mem_cons_of_mem _ h2)

theorem mem_dom_setI (m : List (Int × Int)) (k v y : Int) :
    y ∈ (setI m k v).map Prod.fst ↔ y = k ∨ y ∈ m.map Prod.fst := by
  induction m with
  | nil =>
    rw [setI_nil]
    simp [eq_comm]
  | cons q rest ih =>
    obtain ⟨k', v'⟩ := q
    rw [setI_cons]
    by_cases hk : k = k'
    · subst hk
      simp [eq_comm]
    · rw [if_neg hk]
      simp only [List.map_cons, List.mem_cons, ih]
      tauto

theorem lookupI_append_one (m : List (Int × Int)) (x a y : Int) :
    lookupI (m ++ [(x, a)]) y =
      match lookupI m y with
      | some v => some v
      | none => if y = x then some a else none := by
  induction m with
  | nil =>
    rw [List.nil_append, lookupI_nil, lookupI_cons, lookupI_nil]
    by_cases h : y = x
    · simp [h]
    · simp [h, Ne.symm h]
  | cons q rest ih =>
    obtain ⟨k', v'⟩ := q
    rw [List.cons_append, lookupI_cons, lookupI_cons, ih]
    by_cases h : k' = y
    · rw [if_pos h, if_pos h]
    · rw [if_neg h, if_neg h]

/-! ### Parent-chain lemmas -/

theorem UF.parentIter_add (uf : UF) (m k : Nat) (v : Int) :
    uf.parentIter (m + k) v = uf.parentIter m (uf.parentIter k v) := by
  induction k generalizing v with
  | zero => rfl
  | succ k ih =>
    have : m + (k + 1) = (m + k) + 1 := rfl
    rw [this]
    show uf.parentIter (m + k) (uf.parent v) = _
    rw [ih (uf.parent v)]
    rfl

theorem UF.Root.iter_fixed {uf : UF} {r : Int} (h : uf.Root r) (k : Nat) :
    uf.parentIter k r = r := by
  induction k with
  | zero => rfl
  | succ k ih =>
    show uf.parentIter k (uf.parent r) = r
    rw [h]
    exact ih

theorem UF.Terminates.shift {uf : UF} {v : Int}
    (h : uf.Terminates (uf.parent v)) : uf.Terminates v := by
  obtain ⟨k, hk⟩ := h
  exact ⟨k + 1, hk⟩

instance (uf : UF) (v : Int) : Decidable (uf.Root v) := by
  unfold UF.Root; infer_instance

/-- A vertex that is not a root is a registered key of the parent map. -/
theorem UF.mem_dom_of_not_root {uf : UF} {v : Int} (h : ¬ uf.Root v) :
    v ∈ uf.dom := by
  by_contra hv
  have : lookupI uf.p v = none := (lookupI_eq_none _ _).mpr hv
  exact h (by simp [UF.Root, UF.parent, this])

theorem UF.parent_of_mem_dom {uf : UF} {v : Int} (h : v ∈ uf.dom) :
    lookupI uf.p v = some (uf.parent v) := by
  cases hl : lookupI uf.p v with
  | none => exact absurd ((lookupI_eq_none _ _).mp hl) (by simpa [UF.dom] using h)
  | some w => simp [UF.parent, hl]

/-- Distinct-prefix pigeonhole: the minimal number of steps to a root is at
most the number of registered keys. -/
theorem UF.find_le_length {uf : UF} {v : Int} (h : uf.Terminates v) :
    Nat.find h ≤ uf.p.length := by
  set n := Nat.find h with hn
  have hroot : uf.Root (uf.parentIter n v) := Nat.find_spec h
  have hmin : ∀ j, j < n → ¬ uf.Root (uf.parentIter j v) := fun j hj => Nat.find_min h hj
  have hdiff : ∀ i j, i < j → j < n → uf.parentIter i v ≠ uf.parentIter j v := by
    intro i j hij hj heq
    have h1 : n = (n - j) + j := (Nat.sub_add_cancel (le_of_lt hj)).symm
    have hiter : uf.parentIter n v = uf.parentIter ((n - j) + i) v := by
      calc uf.parentIter n v = uf.parentIter ((n - j) + j) v := by rw [← h1]
        _ = uf.parentIter (n - j) (uf.parentIter j v) := UF.parentIter_add uf _ _ v
        _ = uf.parentIter (n - j) (uf.parentIter i v) := by rw [heq]
        _ = uf.parentIter ((n - j) + i) v := (UF.parentIter_add uf _ _ v).symm
    have hlt : (n - j) + i < n := by omega
    exact hmin _ hlt (hiter ▸ hroot)
  have hmem : ∀ i, i < n → uf.parentIter i v ∈ uf.dom :=
    fun i hi => UF.mem_dom_of_not_root (hmin i hi)
  have hcard : n ≤ uf.dom.toFinset.card := by
    have hinj : Set.InjOn (fun i : Fin n => uf.parentIter i.1 v) (Finset.univ : Finset (Fin n)) := by
      intro i _ j _ heq
      rcases lt_trichotomy i.1 j.1 with hlt | heqn | hgt
      · exact absurd heq (hdiff _ _ hlt j.2)
      · exact Fin.ext heqn
      · exact absurd heq.symm (hdiff _ _ hgt i.2)
    have := Finset.card_le_card_of_injOn (fun i : Fin n => uf.parentIter i.1 v)
      (fun i _ => List.mem_toFinset.mpr (hmem i.1 i.2)) hinj
    simpa using this
  have : uf.dom.toFinset.card ≤ uf.dom.length := List.toFinset_card_le _
  have hlen : uf.dom.length = uf.p.length := List.length_map _ _
  omega

theorem UF.terminates_iff_bounded (uf : UF) (v : Int) :
    uf.Terminates v ↔ ∃ k ∈ Finset.range (uf.p.length + 1), uf.Root (uf.parentIter k v) := by
  constructor
  · intro h
    exact ⟨Nat.find h, Finset.mem_range.mpr (Nat.lt_succ_of_le (UF.find_le_length h)),
      Nat.find_spec h⟩
  · rintro ⟨k, _, hk⟩
    exact ⟨k, hk⟩

instance (uf : UF) (v : Int) : Decidable (uf.Terminates v) :=
  decidable_of_iff _ (uf.terminates_iff_bounded v).symm

/-- Minimal number of parent steps to reach a root (0 when the chain does
not terminate; under the invariant it always does). -/
def UF.steps (uf : UF) (v : Int) : Nat :=
  if h : uf.Terminates v then Nat.find h else 0

theorem UF.steps_spec {uf : UF} {v : Int} (h : uf.Terminates v) :
    uf.Root (uf.parentIter (uf.steps v) v) := by
  rw [UF.steps, dif_pos h]
  exact Nat.find_spec h

theorem UF.steps_of_root {uf : UF} {v : Int} (h : uf.Root v) : uf.steps v = 0 := by
  have hT : uf.Terminates v := ⟨0, h⟩
  rw [UF.steps, dif_pos hT]
  exact Nat.find_eq_zero hT |>.mpr h

theorem UF.steps_pos {uf : UF} {v : Int} (hT : uf.Terminates v) (h : ¬ uf.Root v) :
    0 < uf.steps v := by
  rw [UF.steps, dif_pos hT]
  refine Nat.pos_of_ne_zero ?_
  intro hz
  exact absurd ((Nat.find_eq_zero hT).mp hz) h

theorem UF.steps_parent {uf : UF} {v : Int} (hT : uf.Terminates v)
    (hTp : uf.Terminates (uf.parent v)) (h : ¬ uf.Root v) :
    uf.steps (uf.parent v) + 1 = uf.steps v := by
  rw [UF.steps, UF.steps, dif_pos hT, dif_pos hTp]
  have hne : Nat.find hT ≠ 0 := by
    intro hz
    exact h ((Nat.find_eq_zero hT).mp hz)
  obtain ⟨m, hm⟩ := Nat.exists_eq_succ_of_ne_zero hne
  have hrootm : uf.Root (uf.parentIter m (uf.parent v)) := by
    have := Nat.find_spec hT
    rw [hm] at this
    exact this
  have hle : Nat.find hTp ≤ m := Nat.find_le hrootm
  have hge : m ≤ Nat.find hTp := by
    by_contra hlt
    push_neg at hlt
    have : uf.Root (uf.parentIter (Nat.find hTp + 1) v) := Nat.find_spec hTp
    have hlt2 : Nat.find hTp + 1 < Nat.find hT := by omega
    exact Nat.find_min hT hlt2 this
  omega

theorem UF.steps_le_length {uf : UF} {v : Int} (hT : uf.Terminates v) :
    uf.steps v ≤ uf.p.length := by
  rw [UF.steps, dif_pos hT]
  exact UF.find_le_length hT

/-- `parent` after a pointwise write. -/
theorem UF.parent_setI (uf : UF) (x r v : Int) :
    ({ uf with p := setI uf.p x r } : UF).parent v = if v = x then r else uf.parent v := by
  show (lookupI (setI uf.p x r) v).getD v = _
  rw [lookupI_setI]
  by_cases h : v = x
  · simp [h]
  · simp [h, UF.parent]

theorem UF.mem_dom_setI_iff (uf : UF) (x r y : Int) :
    y ∈ ({ uf with p := setI uf.p x r } : UF).dom ↔ y = x ∨ y ∈ uf.dom :=
  mem_dom_setI uf.p x r y

theorem UF.iter_congr {uf uf' : UF} (hpar : ∀ v, uf'.parent v = uf.parent v) :
    ∀ k v, uf'.parentIter k v = uf.parentIter k v := by
  intro k
  induction k with
  | zero => intro v; rfl
  | succ k ih =>
    intro v
    show uf'.parentIter k (uf'.parent v) = uf.parentIter k (uf.parent v)
    rw [hpar v, ih]

theorem UF.terminates_congr {uf uf' : UF} (hpar : ∀ v, uf'.parent v = uf.parent v)
    {v : Int} (h : uf.Terminates v) : uf'.Terminates v := by
  obtain ⟨k, hk⟩ := h
  refine ⟨k, ?_⟩
  show uf'.parent (uf'.parentIter k v) = uf'.parentIter k v
  rw [UF.iter_congr hpar, hpar]
  exact hk

/-- The invariant only reads the parent map. -/
theorem UF.Inv_of_p_eq {uf uf' : UF} (hp : uf'.p = uf.p) (h : uf.Inv) : uf'.Inv := by
  have hpar : ∀ v, uf'.parent v = uf.parent v := by
    intro v
    show (lookupI uf'.p v).getD v = (lookupI uf.p v).getD v
    rw [hp]
  constructor
  · intro q hq
    have : uf'.dom = uf.dom := by show uf'.p.map _ = uf.p.map _; rw [hp]
    rw [this]
    exact h.1 q (hp ▸ hq)
  · intro v
    exact UF.terminates_congr hpar (h.2 v)

/-- Writing `x ↦ r` where `r` is a registered root (or `x` itself)
preserves the invariant. -/
theorem UF.Inv.override {uf : UF} (h : uf.Inv) {x r : Int}
    (hr : (uf.Root r ∧ r ∈ uf.dom) ∨ r = x) :
    UF.Inv { uf with p := setI uf.p x r } := by
  set uf' : UF := { uf with p := setI uf.p x r } with huf'
  have hpar : ∀ v, uf'.parent v = if v = x then r else uf.parent v :=
    fun v => UF.parent_setI uf x r v
  have hdom : ∀ y, y ∈ uf'.dom ↔ y = x ∨ y ∈ uf.dom :=
    fun y => UF.mem_dom_setI_iff uf x r y
  have hrootr' : uf'.Root r := by
    show uf'.parent r = r
    rw [hpar]
    by_cases hrx : r = x
    · simp [hrx]
    · rw [if_neg hrx]
      rcases hr with ⟨hR, _⟩ | hEq
      · exact hR
      · exact absurd hEq hrx
  constructor
  · intro q hq
    rcases mem_setI hq with hq1 | hq1
    · subst hq1
      right
      rcases hr with ⟨_, hrd⟩ | hEq
      · exact (hdom r).mpr (Or.inr hrd)
      · exact (hdom r).mpr (Or.inl hEq)
    · rcases h.1 q hq1 with h0 | hd
      · exact Or.inl h0
      · exact Or.inr ((hdom _).mpr (Or.inr hd))
  · have key : ∀ n v, uf.steps v ≤ n → uf'.Terminates v := by
      intro n
      induction n with
      | zero =>
        intro v hv
        by_cases hvx : v = x
        · have h1 : uf'.parentIter 1 v = r := by
            show uf'.parentIter 0 (uf'.parent v) = r
            rw [show uf'.parentIter 0 (uf'.parent v) = uf'.parent v from rfl, hpar v, if_pos hvx]
          refine ⟨1, ?_⟩
          rw [h1]
          exact hrootr'
        · have hT : uf.Terminates v := h.2 v
          have hz : uf.steps v = 0 := Nat.le_zero.mp hv
          have hR : uf.Root v := by
            by_contra hc
            have := UF.steps_pos hT hc
            omega
          refine ⟨0, ?_⟩
          show uf'.parent v = v
          rw [hpar, if_neg hvx]
          exact hR
      | succ n ih =>
        intro v hv
        by_cases hvx : v = x
        · have h1 : uf'.parentIter 1 v = r := by
            show uf'.parentIter 0 (uf'.parent v) = r
            rw [show uf'.parentIter 0 (uf'.parent v) = uf'.parent v from rfl, hpar v, if_pos hvx]
          refine ⟨1, ?_⟩
          rw [h1]
          exact hrootr'
        · by_cases hR : uf.Root v
          · refine ⟨0, ?_⟩
            show uf'.parent v = v
            rw [hpar, if_neg hvx]
            exact hR
          · have hT : uf.Terminates v := h.2 v
            have hTp : uf.Terminates (uf.parent v) := h.2 _
            have hstep : uf.steps (uf.parent v) + 1 = uf.steps v :=
              UF.steps_parent hT hTp hR
            have hle : uf.steps (uf.parent v) ≤ n := by omega
            have hterm : uf'.Terminates (uf.parent v) := ih _ hle
            have : uf'.parent v = uf.parent v := by rw [hpar, if_neg hvx]
            refine UF.Terminates.shift ?_
            rw [this]
            exact hterm
    exact fun v => key (uf.steps v) v le_rfl

/-- `parent` after appending a fresh default entry. -/
theorem UF.parent_append_fresh (uf : UF) (x : Int) (hx : x ∉ uf.dom) (v : Int) :
    ({ uf with p := uf.p ++ [(x, 0)] } : UF).parent v = if v = x then 0 else uf.parent v := by
  show (lookupI (uf.p ++ [(x, 0)]) v).getD v = _
  rw [lookupI_append_one]
  by_cases hvx : v = x
  · subst hvx
    rw [(lookupI_eq_none _ _).mpr hx]
    simp
  · cases hl : lookupI uf.p v with
    | none => simp [hvx, UF.parent, hl]
    | some w => simp [hvx, UF.parent, hl]

/-- Default-inserting a missing key (`operator[]` on a read) preserves the
invariant. -/
theorem UF.Inv.freshZero {uf : UF} (h : uf.Inv) {x : Int} (hx : x ∉ uf.dom) :
    UF.Inv { uf with p := uf.p ++ [(x, 0)] } := by
  set uf' : UF := { uf with p := uf.p ++ [(x, 0)] } with huf'
  have hpar : ∀ v, uf'.parent v = if v = x then 0 else uf.parent v :=
    UF.parent_append_fresh uf x hx
  have hdom : ∀ y, y ∈ uf'.dom ↔ y = x ∨ y ∈ uf.dom := by
    intro y
    show y ∈ (uf.p ++ [(x, 0)]).map Prod.fst ↔ _
    simp [UF.dom, or_comm]
  refine ⟨?_, ?_⟩
  · intro q hq
    rcases List.mem_append.mp hq with hq1 | hq1
    · rcases h.1 q hq1 with h0 | hd
      · exact Or.inl h0
      · exact Or.inr ((hdom _).mpr (Or.inr hd))
    · have : q = (x, (0 : Int)) := by simpa using hq1
      subst this
      exact Or.inl rfl
  · by_cases hx0 : x = 0
    · -- the inserted entry (0, 0) is a self-parented root: parent is unchanged
      have hsame : ∀ v, uf'.parent v = uf.parent v := by
        intro v
        rw [hpar]
        by_cases hvx : v = x
        · rw [if_pos hvx, hvx, hx0]
          have : uf.parent x = x := by
            show (lookupI uf.p x).getD x = x
            rw [(lookupI_eq_none _ _).mpr hx]
            rfl
          rw [hx0] at this
          exact this.symm
        · rw [if_neg hvx]
      exact fun v => UF.terminates_congr hsame (h.2 v)
    · have key : ∀ n v, v ≠ x → uf.steps v ≤ n → uf'.Terminates v := by
        intro n
        induction n with
        | zero =>
          intro v hvx hv
          have hT : uf.Terminates v := h.2 v
          have hz : uf.steps v = 0 := Nat.le_zero.mp hv
          have hR : uf.Root v := by
            by_contra hc
            have := UF.steps_pos hT hc
            omega
          exact ⟨0, by show uf'.parent v = v; rw [hpar, if_neg hvx]; exact hR⟩
        | succ n ih =>
          intro v hvx hv
          by_cases hR : uf.Root v
          · exact ⟨0, by show uf'.parent v = v; rw [hpar, if_neg hvx]; exact hR⟩
          · have hT : uf.Terminates v := h.2 v
            have hvdom : v ∈ uf.dom := UF.mem_dom_of_not_root hR
            have hlk : lookupI uf.p v = some (uf.parent v) := UF.parent_of_mem_dom hvdom
            have hmem : (v, uf.parent v) ∈ uf.p := lookupI_mem hlk
            have hpv : uf.parent v ≠ x := by
              rcases h.1 _ hmem with h0 | hd
              · have h0' : uf.parent v = 0 := h0
                rw [h0']
                exact Ne.symm hx0
              · intro hc
                rw [hc] at hd
                exact hx hd
            have hstep : uf.steps (uf.parent v) + 1 = uf.steps v :=
              UF.steps_parent hT (h.2 _) hR
            have hterm : uf'.Terminates (uf.parent v) := ih _ hpv (by omega)
            refine UF.Terminates.shift ?_
            rw [show uf'.parent v = uf.parent v from by rw [hpar, if_neg hvx]]
            exact hterm
      intro v
      by_cases hvx : v = x
      · subst hvx
        have hterm0 : uf'.Terminates 0 := key (uf.steps 0) 0 (Ne.symm hx0) le_rfl
        refine UF.Terminates.shift ?_
        rw [show uf'.parent v = 0 from by rw [hpar, if_pos rfl]]
        exact hterm0
      · exact key (uf.steps v) v hvx le_rfl

/-- What a completed `find` guarantees: the invariant is preserved, the
returned value is a registered root of the resulting state, registered
keys are preserved, `rank`/`cc_cnt` are untouched, and registered roots
stay roots. -/
def UF.FindPost (uf uf' : UF) (r : Int) : Prop :=
  uf'.Inv ∧ uf'.Root r ∧ r ∈ uf'.dom ∧ (∀ y ∈ uf.dom, y ∈ uf'.dom) ∧
  uf'.rank = uf.rank ∧ uf'.cc_cnt = uf.cc_cnt ∧
  (∀ y ∈ uf.dom, uf.Root y → uf'.Root y)

theorem UF.root_setI_self {uf2 : UF} (id : Int) {root : Int} (hroot : uf2.Root root) :
    ({ uf2 with p := setI uf2.p id root } : UF).Root root := by
  show ({ uf2 with p := setI uf2.p id root } : UF).parent root = root
  rw [UF.parent_setI]
  by_cases h : root = id
  · rw [if_pos h]
  · rw [if_neg h]
    exact hroot

theorem UF.findAux_spec : ∀ (fuel : Nat) (uf : UF) (id : Int), uf.Inv →
    (uf.getP id).2.steps id + 2 ≤ fuel →
    UF.FindPost uf (UF.findAux fuel uf id).2 (UF.findAux fuel uf id).1 := by
  intro fuel
  induction fuel with
  | zero =>
    intro uf id _ hfuel
    omega
  | succ f ih =>
    intro uf id hI hfuel
    cases hlook : lookupI uf.p id with
    | some w =>
      have hgetP : uf.getP id = (w, uf) := by simp [UF.getP, hlook]
      rw [hgetP] at hfuel
      have hfuel2 : uf.steps id + 2 ≤ f + 1 := hfuel
      have hiddom : id ∈ uf.dom := by
        have := lookupI_mem hlook
        exact List.mem_map.mpr ⟨(id, w), this, rfl⟩
      have hparid : uf.parent id = w := by simp [UF.parent, hlook]
      by_cases hw : w = id
      · have heq : UF.findAux (f + 1) uf id = (id, uf) := by
          simp [UF.findAux, hgetP, hw]
        rw [heq]
        refine ⟨hI, ?_, hiddom, fun y hy => hy, rfl, rfl, fun y _ hy => hy⟩
        show uf.parent id = id
        rw [hparid, hw]
      · have hnroot : ¬ uf.Root id := by
          intro hc
          exact hw (by rw [← hparid]; exact hc)
        have hTid : uf.Terminates id := hI.2 id
        have hstep : uf.steps w + 1 = uf.steps id := by
          have := UF.steps_parent hTid (hI.2 _) hnroot
          rwa [hparid] at this
        have hpos : 0 < uf.steps id := UF.steps_pos hTid hnroot
        have hinner : (uf.getP w).2.steps w + 2 ≤ f := by
          cases hlook2 : lookupI uf.p w with
          | some u =>
            have : uf.getP w = (u, uf) := by simp [UF.getP, hlook2]
            rw [this]
            show uf.steps w + 2 ≤ f
            omega
          | none =>
            have hwnd : w ∉ uf.dom := (lookupI_eq_none _ _).mp hlook2
            have hmem : (id, w) ∈ uf.p := lookupI_mem hlook
            have hw0 : w = 0 := by
              rcases hI.1 _ hmem with h0 | hd
              · exact h0
              · exact absurd hd hwnd
            have hgp : uf.getP w = (0, { uf with p := uf.p ++ [(w, 0)] }) := by
              simp [UF.getP, hlook2]
            rw [hgp]
            have hrootw : ({ uf with p := uf.p ++ [(w, 0)] } : UF).Root w := by
              show ({ uf with p := uf.p ++ [(w, 0)] } : UF).parent w = w
              rw [UF.parent_append_fresh uf w hwnd, if_pos rfl]
              exact hw0.symm
            show ({ uf with p := uf.p ++ [(w, 0)] } : UF).steps w + 2 ≤ f
            rw [UF.steps_of_root hrootw]
            omega
        have hrec := ih uf w hI hinner
        obtain ⟨hInv2, hRoot2, hrd2, hmono2, hrank2, hcc2, hpres2⟩ := hrec
        have heq : UF.findAux (f + 1) uf id =
            ((UF.findAux f uf w).1,
              { (UF.findAux f uf w).2 with
                p := setI (UF.findAux f uf w).2.p id (UF.findAux f uf w).1 }) := by
          simp [UF.findAux, hgetP, hw]
        rw [heq]
        refine ⟨hInv2.override (Or.inl ⟨hRoot2, hrd2⟩), UF.root_setI_self id hRoot2,
          ?_, ?_, hrank2, hcc2, ?_⟩
        · exact (UF.mem_dom_setI_iff _ _ _ _).mpr (Or.inr hrd2)
        · intro y hy
          exact (UF.mem_dom_setI_iff _ _ _ _).mpr (Or.inr (hmono2 y hy))
        · intro y hy hRy
          have hynid : y ≠ id := by
            intro hc
            rw [hc] at hRy
            exact hnroot hRy
          have hR2y : (UF.findAux f uf w).2.Root y := hpres2 y hy hRy
          show ({ (UF.findAux f uf w).2 with
            p := setI (UF.findAux f uf w).2.p id (UF.findAux f uf w).1 } : UF).parent y = y
          rw [UF.parent_setI, if_neg hynid]
          exact hR2y
    | none =>
      have hidnd : id ∉ uf.dom := (lookupI_eq_none _ _).mp hlook
      have hgetP : uf.getP id = (0, { uf with p := uf.p ++ [(id, 0)] }) := by
        simp [UF.getP, hlook]
      rw [hgetP] at hfuel
      set ufA : UF := { uf with p := uf.p ++ [(id, 0)] } with hufA
      have hfuel2 : ufA.steps id + 2 ≤ f + 1 := hfuel
      have hInvA : ufA.Inv := hI.freshZero hidnd
      have hparidA : ufA.parent id = 0 := by
        rw [show ufA.parent id = _ from UF.parent_append_fresh uf id hidnd id, if_pos rfl]
      have hiddomA : id ∈ ufA.dom := by
        show id ∈ (uf.p ++ [(id, 0)]).map Prod.fst
        simp
      have hmonoA : ∀ y ∈ uf.dom, y ∈ ufA.dom := by
        intro y hy
        show y ∈ (uf.p ++ [(id, 0)]).map Prod.fst
        rcases List.mem_map.mp hy with ⟨q, hq, hqy⟩
        exact List.mem_map.mpr ⟨q, List.mem_append_left _ hq, hqy⟩
      have hpresA : ∀ y ∈ uf.dom, uf.Root y → ufA.Root y := by
        intro y hy hRy
        have hynid : y ≠ id := fun hc => hidnd (hc ▸ hy)
        show ufA.parent y = y
        rw [UF.parent_append_fresh uf id hidnd, if_neg hynid]
        exact hRy
      by_cases hid0 : (0 : Int) = id
      · have heq : UF.findAux (f + 1) uf id = (id, ufA) := by
          simp [UF.findAux, hgetP, hid0]
        rw [heq]
        refine ⟨hInvA, ?_, hiddomA, hmonoA, rfl, rfl, hpresA⟩
        show ufA.parent id = id
        rw [hparidA]
        exact hid0
      · have hnrootA : ¬ ufA.Root id := by
          intro hc
          rw [UF.Root, hparidA] at hc
          exact hid0 hc
        have hTidA : ufA.Terminates id := hInvA.2 id
        have hstepA : ufA.steps 0 + 1 = ufA.steps id := by
          have := UF.steps_parent hTidA (hInvA.2 _) hnrootA
          rwa [hparidA] at this
        have hposA : 0 < ufA.steps id := UF.steps_pos hTidA hnrootA
        have hinner : (ufA.getP 0).2.steps 0 + 2 ≤ f := by
          cases hlook2 : lookupI ufA.p 0 with
          | some u =>
            have : ufA.getP 0 = (u, ufA) := by simp [UF.getP, hlook2]
            rw [this]
            show ufA.steps 0 + 2 ≤ f
            omega
          | none =>
            have h0nd : (0 : Int) ∉ ufA.dom := (lookupI_eq_none _ _).mp hlook2
            have hgp : ufA.getP 0 = (0, { ufA with p := ufA.p ++ [(0, 0)] }) := by
              simp [UF.getP, hlook2]
            rw [hgp]
            have hroot0 : ({ ufA with p := ufA.p ++ [(0, 0)] } : UF).Root 0 := by
              show ({ ufA with p := ufA.p ++ [(0, 0)] } : UF).parent 0 = 0
              rw [UF.parent_append_fresh ufA 0 h0nd, if_pos rfl]
            show ({ ufA with p := ufA.p ++ [(0, 0)] } : UF).steps 0 + 2 ≤ f
            rw [UF.steps_of_root hroot0]
            omega
        have hrec := ih ufA 0 hInvA hinner
        obtain ⟨hInv2, hRoot2, hrd2, hmono2, hrank2, hcc2, hpres2⟩ := hrec
        have heq : UF.findAux (f + 1) uf id =
            ((UF.findAux f ufA 0).1,
              { (UF.findAux f ufA 0).2 with
                p := setI (UF.findAux f ufA 0).2.p id (UF.findAux f ufA 0).1 }) := by
          simp [UF.findAux, hgetP, hid0]
        rw [heq]
        refine ⟨hInv2.override (Or.inl ⟨hRoot2, hrd2⟩), UF.root_setI_self id hRoot2,
          ?_, ?_, ?_, hcc2, ?_⟩
        · exact (UF.mem_dom_setI_iff _ _ _ _).mpr (Or.inr hrd2)
        · intro y hy
          exact (UF.mem_dom_setI_iff _ _ _ _).mpr (Or.inr (hmono2 y (hmonoA y hy)))
        · rw [hrank2]
        · intro y hy hRy
          have hynid : y ≠ id := fun hc => hidnd (hc ▸ hy)
          have hR2y : (UF.findAux f ufA 0).2.Root y :=
            hpres2 y (hmonoA y hy) (hpresA y hy hRy)
          show ({ (UF.findAux f ufA 0).2 with
            p := setI (UF.findAux f ufA 0).2.p id (UF.findAux f ufA 0).1 } : UF).parent y = y
          rw [UF.parent_setI, if_neg hynid]
          exact hR2y

/-- The fuel `UF.find` passes to `UF.findAux` is sufficient under the
invariant. -/
theorem UF.find_spec (uf : UF) (id : Int) (hI : uf.Inv) :
    UF.FindPost uf (uf.find id).2 (uf.find id).1 := by
  have hfuel : (uf.getP id).2.steps id + 2 ≤ uf.p.length + 3 := by
    cases hlook : lookupI uf.p id with
    | some w =>
      have hgetP : uf.getP id = (w, uf) := by simp [UF.getP, hlook]
      rw [hgetP]
      have h1 := UF.steps_le_length (hI.2 id)
      show uf.steps id + 2 ≤ _
      omega
    | none =>
      have hidnd := (lookupI_eq_none _ _).mp hlook
      have hgetP : uf.getP id = (0, { uf with p := uf.p ++ [(id, 0)] }) := by
        simp [UF.getP, hlook]
      rw [hgetP]
      have hInvA := hI.freshZero hidnd
      have h1 := UF.steps_le_length (hInvA.2 id)
      show ({ uf with p := uf.p ++ [(id, 0)] } : UF).steps id + 2 ≤ _
      have hlen : ({ uf with p := uf.p ++ [(id, 0)] } : UF).p.length = uf.p.length + 1 := by
        simp
      omega
  exact UF.findAux_spec _ uf id hI hfuel

theorem UF.Root_of_p_eq {uf uf' : UF} (hp : uf'.p = uf.p) {y : Int}
    (h : uf.Root y) : uf'.Root y := by
  show (lookupI uf'.p y).getD y = y
  rw [hp]
  exact h

theorem UF.dom_eq_of_p_eq {uf uf' : UF} (hp : uf'.p = uf.p) : uf'.dom = uf.dom := by
  show uf'.p.map _ = uf.p.map _
  rw [hp]

theorem UF.getRank_p (uf : UF) (id : Int) : (uf.getRank id).2.p = uf.p := by
  unfold UF.getRank
  cases hl : lookupI uf.rank id <;> simp [hl]

theorem UF.Inv.add_vertex_inv {uf : UF} (h : uf.Inv) (id : Int) :
    (uf.add_vertex id).Inv := by
  have h1 : UF.Inv { uf with p := setI uf.p id id } := h.override (Or.inr rfl)
  exact UF.Inv_of_p_eq (by rfl) h1

theorem UF.Inv.union_vertices_inv {uf : UF} (h : uf.Inv) (v w : Int) :
    (uf.union_vertices v w).Inv := by
  have s1 := UF.find_spec uf v h
  obtain ⟨hI1, hR1, hD1, hM1, _, _, _⟩ := s1
  have s2 := UF.find_spec (uf.find v).2 w hI1
  obtain ⟨hI2, hR2, hD2, hM2, _, _, hP2⟩ := s2
  unfold UF.union_vertices
  by_cases hroots : (uf.find v).1 = ((uf.find v).2.find w).1
  · simpa [hroots] using hI2
  · simp only [if_neg hroots]
    -- the two getRank reads leave the parent map unchanged
    have hp4 : ((((uf.find v).2.find w).2.getRank (uf.find v).1).2.getRank
        ((uf.find v).2.find w).1).2.p = ((uf.find v).2.find w).2.p := by
      rw [UF.getRank_p, UF.getRank_p]
    have hI4 : (((((uf.find v).2.find w).2.getRank (uf.find v).1).2.getRank
        ((uf.find v).2.find w).1).2).Inv := UF.Inv_of_p_eq hp4 hI2
    have hR4w : (((((uf.find v).2.find w).2.getRank (uf.find v).1).2.getRank
        ((uf.find v).2.find w).1).2).Root ((uf.find v).2.find w).1 :=
      UF.Root_of_p_eq hp4 hR2
    have hD4w : ((uf.find v).2.find w).1 ∈ (((((uf.find v).2.find w).2.getRank
        (uf.find v).1).2.getRank ((uf.find v).2.find w).1).2).dom := by
      rw [UF.dom_eq_of_p_eq hp4]
      exact hD2
    have hR4v : (((((uf.find v).2.find w).2.getRank (uf.find v).1).2.getRank
        ((uf.find v).2.find w).1).2).Root (uf.find v).1 :=
      UF.Root_of_p_eq hp4 (hP2 _ hD1 hR1)
    have hD4v : (uf.find v).1 ∈ (((((uf.find v).2.find w).2.getRank
        (uf.find v).1).2.getRank ((uf.find v).2.find w).1).2).dom := by
      rw [UF.dom_eq_of_p_eq hp4]
      exact hM2 _ hD1
    set uf4 : UF := ((((uf.find v).2.find w).2.getRank (uf.find v).1).2.getRank
        ((uf.find v).2.find w).1).2 with huf4
    by_cases hrk : ((((uf.find v).2.find w).2.getRank (uf.find v).1).1 ≤
        ((((uf.find v).2.find w).2.getRank (uf.find v).1).2.getRank
          ((uf.find v).2.find w).1).1)
    · simp only [if_pos hrk]
      have h5 : UF.Inv { uf4 with p := setI uf4.p (uf.find v).1 ((uf.find v).2.find w).1 } :=
        hI4.override (Or.inl ⟨hR4w, hD4w⟩)
      by_cases heqr : ((((uf.find v).2.find w).2.getRank (uf.find v).1).1 =
          ((((uf.find v).2.find w).2.getRank (uf.find v).1).2.getRank
            ((uf.find v).2.find w).1).1)
      · simp only [if_pos heqr]
        exact UF.Inv_of_p_eq (by rfl) h5
      · simp only [if_neg heqr]
        exact UF.Inv_of_p_eq (by rfl) h5
    · simp only [if_neg hrk]
      have h5 : UF.Inv { uf4 with p := setI uf4.p ((uf.find v).2.find w).1 (uf.find v).1 } :=
        hI4.override (Or.inl ⟨hR4v, hD4v⟩)
      exact UF.Inv_of_p_eq (by rfl) h5

theorem UF.Inv.is_connected_inv {uf : UF} (h : uf.Inv) (v w : Int) :
    (uf.is_connected v w).2.Inv := by
  have s1 := UF.find_spec uf v h
  have s2 := UF.find_spec (uf.find v).2 w s1.1
  exact s2.1

theorem UF.Inv.applyOp_inv {uf : UF} (h : uf.Inv) (op : UFOp) :
    (uf.applyOp op).Inv := by
  cases op with
  | add id => exact h.add_vertex_inv id
  | union v w => exact h.union_vertices_inv v w
  | findQ v => exact (UF.find_spec uf v h).1
  | connQ v w => exact h.is_connected_inv v w

theorem UF.Inv_empty : UF.empty.Inv := by
  constructor
  · intro q hq
    simp [UF.empty] at hq
  · intro v
    exact ⟨0, by show (lookupI UF.empty.p v).getD v = v; simp [UF.empty, lookupI_nil]⟩

theorem UF.run_inv (ops : List UFOp) : (UF.run ops).Inv := by
  have key : ∀ (l : List UFOp) (uf : UF), uf.Inv → (l.foldl UF.applyOp uf).Inv := by
    intro l
    induction l with
    | nil => intro uf h; exact h
    | cons op rest ih =>
      intro uf h
      exact ih _ (h.applyOp_inv op)
  exact key ops UF.empty UF.Inv_empty

/-- C9: after any sequence of `add_vertex`, `union_vertices`, `find` and
`is_connected` operations on a fresh union-find instance, following parent
pointers from any vertex terminates at a root whose parent is itself (the
parent mapping contains no cycle), and consequently `find` terminates: the
bounded recursion of the embedding returns an actual root. -/
theorem c9_uf_parent_chains_terminate (ops : List UFOp) :
    (∀ v, (UF.run ops).Terminates v) ∧
    (∀ v, ((UF.run ops).find v).2.Root ((UF.run ops).find v).1) := by
  have h := UF.run_inv ops
  exact ⟨h.2, fun v => (UF.find_spec _ v h).2.1⟩

/-! ### Graph construction lemmas -/

theorem Graph.adj_maybe_add_vertex (g : Graph) (v : Int) :
    (g.maybe_add_vertex v).adj_list = g.adj_list := by
  unfold Graph.maybe_add_vertex
  split <;> rfl

theorem Graph.mem_vertices_maybe_add (g : Graph) (v x : Int) :
    x ∈ (g.maybe_add_vertex v).vertices ↔ x ∈ g.vertices ∨ x = v := by
  unfold Graph.maybe_add_vertex
  by_cases h : g.vertices.contains v
  · rw [if_pos h]
    have hv : v ∈ g.vertices := by simpa using h
    constructor
    · exact Or.inl
    · rintro (hx | rfl)
      · exact hx
      · exact hv
  · rw [if_neg h]
    simp

theorem Graph.mem_vertices_add_edge (g : Graph) (e : Edge) (x : Int) :
    x ∈ (g.add_edge e).vertices ↔ x ∈ g.vertices ∨ x = e.v ∨ x = e.w := by
  unfold Graph.add_edge
  rw [Graph.mem_vertices_maybe_add, Graph.mem_vertices_maybe_add]
  tauto

theorem Graph.mem_vertices_foldl_add_vertex (vs : List Int) :
    ∀ (g : Graph) (x : Int),
      x ∈ (vs.foldl Graph.add_vertex g).vertices ↔ x ∈ g.vertices ∨ x ∈ vs := by
  induction vs with
  | nil => intro g x; simp
  | cons v rest ih =>
    intro g x
    rw [List.foldl_cons, ih]
    show (x ∈ (g.maybe_add_vertex v).vertices ∨ _) ↔ _
    rw [Graph.mem_vertices_maybe_add]
    simp
    tauto

theorem Graph.mem_vertices_ofVertices (vs : List Int) (x : Int) :
    x ∈ (Graph.ofVertices vs).vertices ↔ x ∈ vs := by
  unfold Graph.ofVertices
  rw [Graph.mem_vertices_foldl_add_vertex]
  simp [Graph.empty]

theorem Graph.adj_foldl_add_vertex (vs : List Int) :
    ∀ g : Graph, (vs.foldl Graph.add_vertex g).adj_list = g.adj_list := by
  induction vs with
  | nil => intro g; rfl
  | cons v rest ih =>
    intro g
    rw [List.foldl_cons, ih]
    exact Graph.adj_maybe_add_vertex g v

theorem Graph.all_edges_ofVertices (vs : List Int) :
    (Graph.ofVertices vs).all_edges = [] := by
  unfold Graph.ofVertices Graph.all_edges
  rw [Graph.adj_foldl_add_vertex]
  rfl

theorem mapPush_cons (k : Int) (e : Edge) (k' : Int) (es : List Edge)
    (rest : List (Int × List Edge)) :
    mapPush ((k', es) :: rest) k e =
      if k = k' then (k', es ++ [e]) :: rest
      else if k < k' then (k, [e]) :: (k', es) :: rest
      else (k', es) :: mapPush rest k e := rfl

theorem mem_flatten_mapPush (m : List (Int × List Edge)) (k : Int) (e x : Edge) :
    x ∈ ((mapPush m k e).map (fun p => p.2)).flatten ↔
      x ∈ (m.map (fun p => p.2)).flatten ∨ x = e := by
  induction m with
  | nil => simp [mapPush]
  | cons q rest ih =>
    obtain ⟨k', es⟩ := q
    rw [mapPush_cons]
    by_cases h1 : k = k'
    · rw [if_pos h1]
      clear ih
      simp only [List.map_cons, List.flatten_cons, List.mem_append, List.mem_singleton]
      tauto
    · by_cases h2 : k < k'
      · rw [if_neg h1, if_pos h2]
        clear ih
        simp only [List.map_cons, List.flatten_cons, List.mem_append, List.mem_singleton]
        tauto
      · rw [if_neg h1, if_neg h2]
        simp only [List.map_cons, List.flatten_cons, List.mem_append, ih]
        tauto

theorem Graph.mem_all_edges_add_edge (g : Graph) (e x : Edge) :
    x ∈ (g.add_edge e).all_edges ↔ x ∈ g.all_edges ∨ x = e := by
  unfold Graph.add_edge Graph.all_edges
  rw [Graph.adj_maybe_add_vertex, Graph.adj_maybe_add_vertex]
  exact mem_flatten_mapPush g.adj_list e.v e x

theorem mem_dedup_subset {l : List Edge} {x : Edge} (h : x ∈ dedup_edges l) : x ∈ l := by
  unfold dedup_edges at h
  have key : ∀ (l : List Edge) (acc : List Edge),
      x ∈ l.foldl
        (fun es e => if es.any (fun other => e.equal other) then es else es ++ [e]) acc →
      x ∈ acc ∨ x ∈ l := by
    intro l
    induction l with
    | nil => intro acc h; exact Or.inl h
    | cons a rest ih =>
      intro acc h
      rw [List.foldl_cons] at h
      rcases ih _ h with h1 | h1
      · by_cases hc : acc.any (fun other => a.equal other)
        · rw [if_pos hc] at h1
          exact Or.inl h1
        · rw [if_neg hc] at h1
          rcases List.mem_append.mp h1 with h2 | h2
          · exact Or.inl h2
          · simp at h2
            exact Or.inr (by simp [h2])
      · exact Or.inr (List.mem_cons_of_mem _ h1)
  rcases key l [] h with h1 | h1
  · simp at h1
  · exact h1

/-! ## Spanning trees (src/minimum_spanning_tree.hpp, src/prim_mst.hpp) -/

/-- One merge step of a merge sort driven by the source's comparator:
the element of the second list is taken first exactly when `comp`
says so, as in the standard-library merge.  Note the source comparators
are non-strict (claim C3), which makes the order among equal-weight
edges implementation-defined in C++; no theorem below depends on the
order of equal-weight edges. -/
def mergeByAux (comp : Edge → Edge → Bool) : Nat → List Edge → List Edge → List Edge
  | 0, l1, l2 => l1 ++ l2
  | _ + 1, [], l2 => l2
  | _ + 1, e1 :: t1, [] => e1 :: t1
  | f + 1, e1 :: t1, e2 :: t2 =>
    if comp e2 e1 then e2 :: mergeByAux comp f (e1 :: t1) t2
    else e1 :: mergeByAux comp f t1 (e2 :: t2)

/-- The merge, with enough fuel to run to completion. -/
def mergeBy (comp : Edge → Edge → Bool) (l1 l2 : List Edge) : List Edge :=
  mergeByAux comp (l1.length + l2.length) l1 l2

/-- Model of `std::list::sort(comp)` (a merge sort): repeatedly merge each
element into the sorted tail. -/
def listSort (comp : Edge → Edge → Bool) (l : List Edge) : List Edge :=
  l.foldr (fun e acc => mergeBy comp [e] acc) []

theorem mem_mergeByAux (comp : Edge → Edge → Bool) :
    ∀ (f : Nat) (l1 l2 : List Edge) (x : Edge),
      x ∈ mergeByAux comp f l1 l2 ↔ x ∈ l1 ∨ x ∈ l2 := by
  intro f
  induction f with
  | zero => intro l1 l2 x; simp [mergeByAux]
  | succ f ih =>
    intro l1 l2 x
    match l1, l2 with
    | [], l2 => simp [mergeByAux]
    | e1 :: t1, [] => simp [mergeByAux]
    | e1 :: t1, e2 :: t2 =>
      rw [show mergeByAux comp (f + 1) (e1 :: t1) (e2 :: t2) =
        if comp e2 e1 then e2 :: mergeByAux comp f (e1 :: t1) t2
        else e1 :: mergeByAux comp f t1 (e2 :: t2) from rfl]
      by_cases h : comp e2 e1
      · rw [if_pos h]
        simp only [List.mem_cons, ih]
        tauto
      · rw [if_neg h]
        simp only [List.mem_cons, ih]
        tauto

theorem mem_mergeBy (comp : Edge → Edge → Bool) (l1 l2 : List Edge) (x : Edge) :
    x ∈ mergeBy comp l1 l2 ↔ x ∈ l1 ∨ x ∈ l2 :=
  mem_mergeByAux comp _ l1 l2 x

theorem mem_listSort (comp : Edge → Edge → Bool) (l : List Edge) (x : Edge) :
    x ∈ listSort comp l ↔ x ∈ l := by
  induction l with
  | nil => simp [listSort]
  | cons e t ih =>
    unfold listSort at ih ⊢
    rw [List.foldr_cons, mem_mergeBy]
    simp [ih]

/-- The loop body shared verbatim by `kruskal_min_span_tree` and
`kruskal_max_span_tree` (src/minimum_spanning_tree.hpp lines 29-38 and
53-62): accept the edge into the tree (in both directions) iff its
endpoints are not yet connected in the helper union-find, then union
them. -/
def kruskal_step (st : UF × Graph) (e : Edge) : UF × Graph :=
  let conn := st.1.is_connected e.v e.w
  if conn.1 then (conn.2, st.2)
  else (conn.2.union_vertices e.v e.w, (st.2.add_edge e).add_edge e.reversed)

/-- src/minimum_spanning_tree.hpp, `kruskal_min_span_tree`: deduplicate and
sort all edges by the (non-strict) `Edge::less`, then scan them. -/
def kruskal_min_span_tree (g : Graph) : Graph :=
  let all_edges := listSort Edge.less (dedup_edges g.all_edges)
  (all_edges.foldl kruskal_step
    (UF.ofVertices g.all_vertices, Graph.ofVertices g.all_vertices)).2

/-- src/minimum_spanning_tree.hpp, `kruskal_max_span_tree`: identical scan,
sorted by the (non-strict) `Edge::greater`. -/
def kruskal_max_span_tree (g : Graph) : Graph :=
  let all_edges := listSort Edge.greater (dedup_edges g.all_edges)
  (all_edges.foldl kruskal_step
    (UF.ofVertices g.all_vertices, Graph.ofVertices g.all_vertices)).2

/-- Pop of the `std::priority_queue<Edge, vector<Edge>, Edge::greater>`
min-heap: the first edge of minimal weight is removed.  (The C++ heap's
order among equal-weight edges is implementation-defined — all theorems
below are insensitive to it.) -/
def popMinEdge : List Edge → Option (Edge × List Edge)
  | [] => none
  | e :: rest =>
    match popMinEdge rest with
    | none => some (e, [])
    | some (m, rem) =>
      if e.weight ≤ m.weight then some (e, rest) else some (m, e :: rem)

/-- The main loop of `prim_min_span_tree` (src/prim_mst.hpp lines 42-61):
pop the cheapest frontier edge; if its destination is unvisited, add the
edge (both directions) to the tree, mark the destination visited, add the
edge weight to the process-wide `total_cost` accumulator (threaded here as
explicit state), and push the destination's outgoing edges.  The C++ loop
runs until the queue is empty; every iteration pops one element and at
most `all_edges` are ever pushed beyond the initial frontier, so the fuel
passed by `prim_min_span_tree` is never exhausted. -/
def prim_loop (g : Graph) : Nat → List Edge → List Int → Graph → Int → Graph × Int
  | 0, _, _, mst, tc => (mst, tc)
  | fuel + 1, pq, visited, mst, tc =>
    match popMinEdge pq with
    | none => (mst, tc)
    | some (e, pq') =>
      if visited.contains e.w then prim_loop g fuel pq' visited mst tc
      else
        prim_loop g fuel (pq' ++ g.edges e.w) (visited ++ [e.w])
          ((mst.add_edge e).add_edge e.reversed) (tc + e.weight)

/-- src/prim_mst.hpp, `prim_min_span_tree`.  The source asserts that the
vertex list is nonempty and reads the process-wide mutable accumulator
`total_cost` declared in def.h (not under src/); modelled from the spec
(§9: "a mutable global accumulator observed alongside Prim's tree-building
logic"), that global is threaded through as an explicit in/out value. -/
def prim_min_span_tree (g : Graph) (total_cost : Int) : Graph × Int :=
  match g.all_vertices with
  | [] => (Graph.empty, total_cost)
  | src :: _ =>
    prim_loop g (2 * g.all_edges.length + 2) (g.edges src) [src]
      (Graph.ofVertices g.all_vertices) total_cost

theorem Graph.mem_edges_sub_all_edges (g : Graph) (v : Int) {x : Edge}
    (h : x ∈ g.edges v) : x ∈ g.all_edges := by
  unfold Graph.edges at h
  cases hf : mapFind g.adj_list v with
  | none => rw [hf] at h; simp at h
  | some es =>
    rw [hf] at h
    simp at h
    unfold mapFind at hf
    obtain ⟨q, hq, hqes⟩ := Option.map_eq_some'.mp hf
    have hqmem : q ∈ g.adj_list := List.mem_of_find?_eq_some hq
    unfold Graph.all_edges
    rw [List.mem_flatten]
    exact ⟨q.2, List.mem_map.mpr ⟨q, hqmem, rfl⟩, by rw [hqes]; exact h⟩

/-! ## Undirected reachability and the spanning-forest facts (claim C5) -/

theorem Edge.reversed_reversed (e : Edge) : e.reversed.reversed = e := rfl

/-- One undirected step: a stored edge joins `a` and `b` in either
direction. -/
def SymStep (g : Graph) (a b : Int) : Prop :=
  EdgeStep g a b ∨ EdgeStep g b a

/-- Undirected reachability. -/
def ReachSym (g : Graph) (a b : Int) : Prop :=
  Relation.ReflTransGen (SymStep g) a b

/-- A graph is connected when every two registered vertices are joined by
an undirected path (spec §4.9 precondition). -/
def GraphConnected (g : Graph) : Prop :=
  ∀ a ∈ g.vertices, ∀ b ∈ g.vertices, ReachSym g a b

theorem reflTransGen_closed {α : Type} {r : α → α → Prop} {P : α → Prop}
    (hP : ∀ a b, r a b → P a → P b) {a b : α}
    (h : Relation.ReflTransGen r a b) (ha : P a) : P b := by
  induction h with
  | refl => exact ha
  | tail _ h2 ih => exact hP _ _ h2 ih

/-- Every edge of `h` is an edge of `g` up to reversal, so undirected
steps of `h` are undirected steps of `g`. -/
theorem symStep_of_sub {h g : Graph}
    (hsub : ∀ x ∈ h.all_edges, x ∈ g.all_edges ∨ x.reversed ∈ g.all_edges) :
    ∀ a b, SymStep h a b → SymStep g a b := by
  rintro a b (⟨e, he, hv, hw⟩ | ⟨e, he, hv, hw⟩)
  · rcases hsub e he with hg | hg
    · exact Or.inl ⟨e, hg, hv, hw⟩
    · exact Or.inr ⟨e.reversed, hg, by simp [Edge.reversed, hw], by simp [Edge.reversed, hv]⟩
  · rcases hsub e he with hg | hg
    · exact Or.inr ⟨e, hg, hv, hw⟩
    · exact Or.inl ⟨e.reversed, hg, by simp [Edge.reversed, hw], by simp [Edge.reversed, hv]⟩

theorem reachSym_of_sub {h g : Graph}
    (hsub : ∀ x ∈ h.all_edges, x ∈ g.all_edges ∨ x.reversed ∈ g.all_edges)
    {a b : Int} (hr : ReachSym h a b) : ReachSym g a b :=
  Relation.ReflTransGen.mono (symStep_of_sub hsub) hr

/-- Invariant carried through the Kruskal scan: the tree under
construction spans exactly the input vertices and only uses input edges
(in either direction). -/
def MstInv (g : Graph) (h : Graph) : Prop :=
  (∀ x, x ∈ h.vertices ↔ x ∈ g.vertices) ∧
  (∀ x ∈ h.all_edges, x ∈ g.all_edges ∨ x.reversed ∈ g.all_edges)

theorem MstInv.add_edge {g h : Graph} (hinv : MstInv g h) (hwf : g.WF) {e : Edge}
    (he : e ∈ g.all_edges) :
    MstInv g ((h.add_edge e).add_edge e.reversed) := by
  obtain ⟨hV, hE⟩ := hinv
  have hend := hwf.2.2.2 e he
  constructor
  · intro x
    rw [Graph.mem_vertices_add_edge, Graph.mem_vertices_add_edge, hV]
    constructor
    · rintro ((hx | rfl | rfl) | rfl | rfl)
      exacts [hx, hend.1, hend.2, hend.2, hend.1]
    · exact fun hx => Or.inl (Or.inl hx)
  · intro x hx
    rw [Graph.mem_all_edges_add_edge, Graph.mem_all_edges_add_edge] at hx
    rcases hx with (hx | rfl) | rfl
    · exact hE x hx
    · exact Or.inl he
    · exact Or.inr (by rw [Edge.reversed_reversed]; exact he)

theorem kruskal_fold_inv (g : Graph) (hwf : g.WF) :
    ∀ (l : List Edge), (∀ e ∈ l, e ∈ g.all_edges) →
    ∀ (st : UF × Graph), MstInv g st.2 →
    MstInv g (l.foldl kruskal_step st).2 := by
  intro l
  induction l with
  | nil => intro _ st h; exact h
  | cons e rest ih =>
    intro hl st hst
    rw [List.foldl_cons]
    refine ih (fun x hx => hl x (List.mem_cons_of_mem _ hx)) _ ?_
    unfold kruskal_step
    by_cases hc : (st.1.is_connected e.v e.w).1
    · rw [if_pos hc]
      exact hst
    · rw [if_neg hc]
      exact hst.add_edge hwf (hl e (List.mem_cons_self _ _))

theorem mstInv_ofVertices (g : Graph) : MstInv g (Graph.ofVertices g.all_vertices) := by
  constructor
  · intro x
    rw [Graph.mem_vertices_ofVertices]
    rfl
  · intro x hx
    rw [Graph.all_edges_ofVertices] at hx
    simp at hx

theorem kruskal_min_inv (g : Graph) (hwf : g.WF) : MstInv g (kruskal_min_span_tree g) := by
  unfold kruskal_min_span_tree
  refine kruskal_fold_inv g hwf _ ?_ _ (mstInv_ofVertices g)
  intro e he
  rw [mem_listSort] at he
  exact mem_dedup_subset he

theorem kruskal_max_inv (g : Graph) (hwf : g.WF) : MstInv g (kruskal_max_span_tree g) := by
  unfold kruskal_max_span_tree
  refine kruskal_fold_inv g hwf _ ?_ _ (mstInv_ofVertices g)
  intro e he
  rw [mem_listSort] at he
  exact mem_dedup_subset he

theorem popMinEdge_mem :
    ∀ (pq : List Edge) (e : Edge) (rem : List Edge),
      popMinEdge pq = some (e, rem) → e ∈ pq ∧ ∀ x ∈ rem, x ∈ pq := by
  intro pq
  induction pq with
  | nil => intro e rem h; simp [popMinEdge] at h
  | cons a rest ih =>
    intro e rem h
    rw [show popMinEdge (a :: rest) =
      match popMinEdge rest with
      | none => some (a, [])
      | some (m, rm) =>
        if a.weight ≤ m.weight then some (a, rest) else some (m, a :: rm) from rfl] at h
    cases hrec : popMinEdge rest with
    | none =>
      rw [hrec] at h
      have h' : some (a, ([] : List Edge)) = some (e, rem) := h
      simp at h'
      obtain ⟨rfl, rfl⟩ := h'
      exact ⟨List.mem_cons_self _ _, by intro x hx; simp at hx⟩
    | some p =>
      obtain ⟨m, rm⟩ := p
      rw [hrec] at h
      have h' : (if a.weight ≤ m.weight then some (a, rest) else some (m, a :: rm)) =
          some (e, rem) := h
      by_cases hw : a.weight ≤ m.weight
      · rw [if_pos hw] at h'
        simp at h'
        obtain ⟨rfl, rfl⟩ := h'
        exact ⟨List.mem_cons_self _ _, fun x hx => List.mem_cons_of_mem _ hx⟩
      · rw [if_neg hw] at h'
        simp at h'
        obtain ⟨rfl, rfl⟩ := h'
        obtain ⟨hm, hrm⟩ := ih m rm hrec
        refine ⟨List.mem_cons_of_mem _ hm, ?_⟩
        intro x hx
        rcases List.mem_cons.mp hx with rfl | hx
        · exact List.mem_cons_self _ _
        · exact List.mem_cons_of_mem _ (hrm x hx)

theorem prim_loop_inv (g : Graph) (hwf : g.WF) :
    ∀ (fuel : Nat) (pq : List Edge) (visited : List Int) (mst : Graph) (tc : Int),
      (∀ x ∈ pq, x ∈ g.all_edges) → MstInv g mst →
      MstInv g (prim_loop g fuel pq visited mst tc).1 := by
  intro fuel
  induction fuel with
  | zero => intro pq visited mst tc _ hmst; exact hmst
  | succ f ih =>
    intro pq visited mst tc hpq hmst
    rw [show prim_loop g (f + 1) pq visited mst tc =
      match popMinEdge pq with
      | none => (mst, tc)
      | some (e, pq') =>
        if visited.contains e.w then prim_loop g f pq' visited mst tc
        else
          prim_loop g f (pq' ++ g.edges e.w) (visited ++ [e.w])
            ((mst.add_edge e).add_edge e.reversed) (tc + e.weight) from rfl]
    cases hpop : popMinEdge pq with
    | none => exact hmst
    | some p =>
      obtain ⟨e, pq'⟩ := p
      obtain ⟨hepq, hrem⟩ := popMinEdge_mem pq e pq' hpop
      show MstInv g ((if visited.contains e.w then prim_loop g f pq' visited mst tc
        else prim_loop g f (pq' ++ g.edges e.w) (visited ++ [e.w])
          ((mst.add_edge e).add_edge e.reversed) (tc + e.weight))).1
      by_cases hvis : visited.contains e.w
      · rw [if_pos hvis]
        exact ih pq' visited mst tc (fun x hx => hpq x (hrem x hx)) hmst
      · rw [if_neg hvis]
        refine ih _ _ _ _ ?_ (hmst.add_edge hwf (hpq e hepq))
        intro x hx
        rcases List.mem_append.mp hx with hx | hx
        · exact hpq x (hrem x hx)
        · exact Graph.mem_edges_sub_all_edges g e.w hx

theorem prim_inv (g : Graph) (hwf : g.WF) (hne : g.all_vertices ≠ []) (c : Int) :
    MstInv g (prim_min_span_tree g c).1 := by
  unfold prim_min_span_tree
  cases hv : g.all_vertices with
  | nil => exact absurd hv hne
  | cons src rest =>
    refine prim_loop_inv g hwf _ _ _ _ _ ?_ ?_
    · intro x hx
      exact Graph.mem_edges_sub_all_edges g src hx
    · rw [← hv]
      exact mstInv_ofVertices g

/-- Destructured view of an undirected step, convenient for case
analysis over a concrete edge list. -/
theorem symStep_cases {g : Graph} {a b : Int} (h : SymStep g a b) :
    ∃ e ∈ g.all_edges, (e.v = a ∧ e.w = b) ∨ (e.v = b ∧ e.w = a) := by
  rcases h with ⟨e, he, hv, hw⟩ | ⟨e, he, hv, hw⟩
  · exact ⟨e, he, Or.inl ⟨hv, hw⟩⟩
  · exact ⟨e, he, Or.inr ⟨hv, hw⟩⟩

/-- A graph whose every edge joins `{0, 1}` internally cannot connect 0
to 2. -/
theorem not_reachSym_01 {g : Graph}
    (hstep : ∀ a b, SymStep g a b → (a = 0 ∨ a = 1) → (b = 0 ∨ b = 1)) :
    ¬ ReachSym g 0 2 := by
  intro h
  have h2 := reflTransGen_closed hstep h (Or.inl rfl)
  rcases h2 with h2 | h2 <;> exact absurd h2 (by decide)

/-- Undirected weighted triangle 0-1 (weight 1), 1-2 (weight 2),
0-2 (weight 4), built the way callers of this library represent an
undirected graph. -/
def gT : Graph :=
  [Edge.mk 0 1 1, Edge.mk 1 0 1, Edge.mk 1 2 2, Edge.mk 2 1 2,
    Edge.mk 0 2 4, Edge.mk 2 0 4].foldl Graph.add_edge Graph.empty

/-- Disconnected undirected graph: components {0,1} and {2,3}. -/
def g5 : Graph :=
  [Edge.mk 0 1 1, Edge.mk 1 0 1, Edge.mk 2 3 1, Edge.mk 3 2 1].foldl
    Graph.add_edge Graph.empty

theorem g5_not_connected : ¬ ReachSym g5 0 2 := by
  refine not_reachSym_01 ?_
  intro a b hs hp
  obtain ⟨e, he, hcase⟩ := symStep_cases hs
  have hle : g5.all_edges =
      [Edge.mk 0 1 1, Edge.mk 1 0 1, Edge.mk 2 3 1, Edge.mk 3 2 1] := rfl
  rw [hle] at he
  fin_cases he <;> rcases hcase with ⟨rfl, rfl⟩ | ⟨rfl, rfl⟩ <;> revert hp <;> decide

/-- C5 (counterexample): on the disconnected input `g5`
(0-1 and 2-3 only, so 0 cannot reach 2), `kruskal_min_span_tree` returns a
plain `Graph` — the two-component spanning forest — with no `Disconnected`
error or status of any kind, and that returned graph still does not
connect 0 to 2; the claim that an explicit `Disconnected` status is
reported is false. -/
theorem c5_counterexample_silent_forest :
    ¬ ReachSym g5 0 2 ∧
    kruskal_min_span_tree g5 =
      { vertices := [0, 1, 2, 3],
        adj_list := [(0, [Edge.mk 0 1 1]), (1, [Edge.mk 1 0 1]),
                     (2, [Edge.mk 2 3 1]), (3, [Edge.mk 3 2 1])] } ∧
    ¬ ReachSym (kruskal_min_span_tree g5) 0 2 := by
  refine ⟨g5_not_connected, rfl, ?_⟩
  refine not_reachSym_01 ?_
  intro a b hs hp
  obtain ⟨e, he, hcase⟩ := symStep_cases hs
  have hle : (kruskal_min_span_tree g5).all_edges =
      [Edge.mk 0 1 1, Edge.mk 1 0 1, Edge.mk 2 3 1, Edge.mk 3 2 1] := rfl
  rw [hle] at he
  fin_cases he <;> rcases hcase with ⟨rfl, rfl⟩ | ⟨rfl, rfl⟩ <;> revert hp <;> decide

/-- C5 (amended): on an input graph that is not connected, each
spanning-tree operation returns its result as a plain `Graph` with no
`Disconnected` error or status — silently a spanning *forest*: the result
spans the input's vertices but leaves the disconnected pair disconnected,
so it is not a tree. -/
theorem c5_amended_spanning_forest_no_status (g : Graph) (hwf : g.WF) (u v : Int)
    (hu : u ∈ g.vertices) (hv : v ∈ g.vertices) (hnr : ¬ ReachSym g u v) (c : Int) :
    (u ∈ (kruskal_min_span_tree g).vertices ∧ v ∈ (kruskal_min_span_tree g).vertices ∧
      ¬ ReachSym (kruskal_min_span_tree g) u v) ∧
    (u ∈ (kruskal_max_span_tree g).vertices ∧ v ∈ (kruskal_max_span_tree g).vertices ∧
      ¬ ReachSym (kruskal_max_span_tree g) u v) ∧
    (u ∈ (prim_min_span_tree g c).1.vertices ∧ v ∈ (prim_min_span_tree g c).1.vertices ∧
      ¬ ReachSym (prim_min_span_tree g c).1 u v) := by
  have hne : g.all_vertices ≠ [] := by
    intro h0
    have hu' : u ∈ g.all_vertices := hu
    rw [h0] at hu'
    simp at hu'
  obtain ⟨hV1, hE1⟩ := kruskal_min_inv g hwf
  obtain ⟨hV2, hE2⟩ := kruskal_max_inv g hwf
  obtain ⟨hV3, hE3⟩ := prim_inv g hwf hne c
  exact ⟨⟨(hV1 u).mpr hu, (hV1 v).mpr hv, fun h => hnr (reachSym_of_sub hE1 h)⟩,
    ⟨(hV2 u).mpr hu, (hV2 v).mpr hv, fun h => hnr (reachSym_of_sub hE2 h)⟩,
    ⟨(hV3 u).mpr hu, (hV3 v).mpr hv, fun h => hnr (reachSym_of_sub hE3 h)⟩⟩

theorem c5_amended_spanning_forest_no_status_witness :
    ¬ ReachSym (kruskal_min_span_tree g5) 0 2 ∧
    ¬ ReachSym (kruskal_max_span_tree g5) 0 2 ∧
    ¬ ReachSym (prim_min_span_tree g5 0).1 0 2 := by
  have h := c5_amended_spanning_forest_no_status g5 (by decide) 0 2 (by decide) (by decide)
    g5_not_connected 0
  exact ⟨h.1.2.2, h.2.1.2.2, h.2.2.2.2⟩

/-- C10: the claim asserts `prim_min_span_tree` is a pure function with no
effect on state outside the call.  In the code (src/prim_mst.hpp line 55)
every accepted edge's weight is added to the process-wide accumulator
`total_cost` from def.h, modelled here as threaded in/out state: a call on
the triangle `gT` moves the accumulator from 0 to 3, and a second,
identical call moves it from 3 to 6 — consecutive invocations on the same
graph observably change surrounding state. -/
theorem c10_prim_mutates_global_total_cost :
    (prim_min_span_tree gT 0).2 = 3 ∧ (prim_min_span_tree gT 3).2 = 6 ∧
    (3 : Int) ≠ 0 ∧ (6 : Int) ≠ 3 := by
  exact ⟨rfl, rfl, by decide, by decide⟩

/-! ## Bellman-Ford (src/shortest_path.hpp lines 194-234, claim C4) -/

/-- The distance table of `bellman_ford_sssp` after initialization
(every vertex at `INT32_MAX / 2`, the source at 0) and `|V| - 1` passes of
relaxation over every vertex's outgoing edges, in vertex order.  The base
value 0 mirrors `operator[]` default-insertion for keys outside the vertex
set.  (For the empty graph the C++ loop bound `size() - 1` wraps around an
unsigned type; the claims only concern nonempty graphs, where the `|V| - 1`
iteration count below is exact.)  The `parent` map the source also
maintains feeds only the out-of-scope path printing and is not part of the
returned value. -/
def bellman_ford_dist (g : Graph) (src : Int) : Int → Int :=
  let dist1 := g.all_vertices.foldl
    (fun d v => fun x => if x = v then INT32_MAX / 2 else d x) (fun _ => 0)
  let dist2 := fun x => if x = src then 0 else dist1 x
  let pass := fun (d : Int → Int) =>
    g.all_vertices.foldl (fun d v =>
      (g.edges v).foldl (fun d e =>
        if d e.w > d v + e.weight then
          fun x => if x = e.w then d v + e.weight else d x
        else d) d) d
  (List.range (g.all_vertices.length - 1)).foldl (fun d _ => pass d) dist2

/-- src/shortest_path.hpp, `bellman_ford_sssp`: after the relaxation
passes, return false when the destination still holds the sentinel
(unreachable), return false when one more scan over all edges finds an
improvement (negative-weight cycle), and true otherwise (the path is then
printed by the out-of-scope helper). -/
def bellman_ford_sssp (g : Graph) (src dst : Int) : Bool :=
  let dist_to := bellman_ford_dist g src
  if dist_to dst = INT32_MAX / 2 then false
  else if g.all_edges.any (fun e => decide (dist_to e.w > dist_to e.v + e.weight)) then false
  else true

/-- Two vertices, the negative cycle 0→1→0 (both weights -1), reachable
from source 0. -/
def gNeg : Graph :=
  (Graph.empty.add_edge (Edge.mk 0 1 (-1))).add_edge (Edge.mk 1 0 (-1))

/-- Two isolated vertices 0 and 1: no path from 0 to 1. -/
def gUnreach : Graph :=
  (Graph.empty.add_vertex 0).add_vertex 1

/-- C4 (counterexample): `bellman_ford_sssp` returns the very same value
`false` on a graph whose negative cycle it detects (`gNeg`, final
relaxation pass still improves) and on a graph where the destination is
simply unreachable (`gUnreach`); the boolean result is the function's
entire output, so the claimed `NegativeCycle` condition distinguishable
from the `Unreachable` outcome does not exist. -/
theorem c4_counterexample_same_false :
    bellman_ford_sssp gNeg 0 1 = false ∧
    bellman_ford_sssp gUnreach 0 1 = false ∧
    bellman_ford_sssp gNeg 0 1 = bellman_ford_sssp gUnreach 0 1 := by
  exact ⟨rfl, rfl, rfl⟩

/-- C4 (amended): `bellman_ford_sssp` reports a negative-weight cycle (a
final relaxation scan that still finds an improvement) by returning
`false` — the same value it returns for an unreachable destination, so the
two failure modes are distinguished from success but not from each other;
no distance table is returned in any case, the boolean being the entire
result. -/
theorem c4_amended_negcycle_unreachable_conflated (g : Graph) (src dst : Int) :
    (bellman_ford_dist g src dst = INT32_MAX / 2 →
      bellman_ford_sssp g src dst = false) ∧
    ((∃ e ∈ g.all_edges,
        bellman_ford_dist g src e.w > bellman_ford_dist g src e.v + e.weight) →
      bellman_ford_sssp g src dst = false) := by
  constructor
  · intro h
    unfold bellman_ford_sssp
    rw [if_pos h]
  · intro h
    unfold bellman_ford_sssp
    by_cases h1 : bellman_ford_dist g src dst = INT32_MAX / 2
    · rw [if_pos h1]
    · rw [if_neg h1]
      have hany : g.all_edges.any (fun e =>
          decide (bellman_ford_dist g src e.w >
            bellman_ford_dist g src e.v + e.weight)) = true := by
        obtain ⟨e, he, hlt⟩ := h
        exact List.any_eq_true.mpr ⟨e, he, by simpa using hlt⟩
      rw [if_pos hany]

theorem c4_amended_negcycle_unreachable_conflated_witness :
    bellman_ford_sssp gUnreach 0 1 = false ∧ bellman_ford_sssp gNeg 0 1 = false := by
  constructor
  · exact (c4_amended_negcycle_unreachable_conflated gUnreach 0 1).1 (by decide)
  · exact (c4_amended_negcycle_unreachable_conflated gNeg 0 1).2 (by decide)

/-! ## Depth-first searches (src/topological_sorting.cc, src/unnamed/part_000,
src/directed_cycle_detection.cc) -/

/-- `std::unordered_set<int>::insert` — only membership is ever observed. -/
def visInsert (v : Int) (vis : List Int) : List Int :=
  if v ∈ vis then vis else vis ++ [v]

/-- The postorder-recording DFS of topological_sorting.cc (lines 30-41),
also used by Kosaraju's pass 1: mark `v` visited, recurse into unvisited
edge targets in adjacency order, then append `v` to the postorder.  State
is (postorder, visited).  The C++ recursion depth is bounded by the number
of vertices; callers pass fuel `|V| + 1`. -/
def dfsPost (g : Graph) : Nat → Int → List Int × List Int → List Int × List Int
  | 0, _, st => st
  | fuel + 1, v, st =>
    let st1 := (st.1, visInsert v st.2)
    let st2 := (g.edges v).foldl
      (fun s e => if e.w ∈ s.2 then s else dfsPost g fuel e.w s) st1
    (st2.1 ++ [v], st2.2)

/-- The driver loop shared by `dfs_topological_sorting` (lines 50-55) and
`kosaraju_scc` pass 1 (strongly_connected_components.hpp lines 40-44): run
the postorder DFS from every not-yet-visited vertex in vertex order. -/
def dfsPostAll (g : Graph) : List Int × List Int :=
  g.all_vertices.foldl
    (fun s v => if v ∈ s.2 then s else dfsPost g (g.all_vertices.length + 1) v s)
    ([], [])

/-- `cc[cc_id].push_back(v)` on the `std::unordered_map<int, std::list<int>>`
component table. -/
def ccPush (m : List (Int × List Int)) (k : Int) (v : Int) : List (Int × List Int) :=
  match m with
  | [] => [(k, [v])]
  | (k', l) :: rest =>
    if k = k' then (k', l ++ [v]) :: rest else (k', l) :: ccPush rest k v

/-- The component-labelling DFS of connected_components.hpp (lines 13-24),
used by Kosaraju's pass 2: mark `v` visited, record it under `cc_id`,
recurse into unvisited edge targets.  State is (component table, visited). -/
def dfsCC (g : Graph) (cc_id : Int) :
    Nat → Int → List (Int × List Int) × List Int → List (Int × List Int) × List Int
  | 0, _, st => st
  | fuel + 1, v, st =>
    let st1 := (ccPush st.1 cc_id v, visInsert v st.2)
    (g.edges v).foldl
      (fun s e => if e.w ∈ s.2 then s else dfsCC g cc_id fuel e.w s) st1

/-- src/strongly_connected_components.hpp, `kosaraju_scc` (lines 37-61):
pass 1 records the DFS postorder of the original graph; the transposed
graph `rg` is then computed but — as in the source — never used: pass 2
runs the component-labelling DFS over the *original* graph `g`, in reverse
pass-1 postorder, and the component id `cc_id`, initialized to 0, is —
again as in the source — never incremented. -/
def kosaraju_scc (g : Graph) : List (Int × List Int) :=
  let postorder := (dfsPostAll g).1
  let reversed_postorder := postorder.reverse
  let _rg := g.reversed
  let cc_id : Int := 0
  (reversed_postorder.foldl
    (fun s v => if v ∈ s.2 then s
      else dfsCC g cc_id (g.all_vertices.length + 1) v s)
    ([], [])).1

/-- State of the back-edge-detecting DFS of directed_cycle_detection.cc:
the visited set, the ancestor (on-stack) set, and the parent map (the
parent map feeds only the out-of-scope cycle printing). -/
structure DetSt where
  visited : List Int
  ancestors : List Int
  parent : List (Int × Int)
deriving Repr

/-- The cycle-detecting DFS of directed_cycle_detection.cc (lines 20-65):
mark `v` visited and on-stack; for each outgoing edge, recurse on an
unvisited target (recording the parent), report a cycle when the target is
on-stack (back edge), ignore it otherwise; un-stack `v` on normal exit.
`true` propagates out immediately, skipping the rest of the loop and the
un-stacking, as the C++ `return true` does. -/
def dfsDetect (g : Graph) : Nat → Int → DetSt → Bool × DetSt
  | 0, _, st => (false, st)
  | fuel + 1, v, st =>
    let st1 : DetSt :=
      { st with visited := visInsert v st.visited, ancestors := visInsert v st.ancestors }
    let r := (g.edges v).foldl
      (fun (acc : Bool × DetSt) e =>
        if acc.1 then acc
        else if e.w ∈ acc.2.visited then
          if e.w ∈ acc.2.ancestors then (true, acc.2) else (false, acc.2)
        else
          dfsDetect g fuel e.w { acc.2 with parent := setI acc.2.parent e.w v })
      (false, st1)
    if r.1 then r
    else (false, { r.2 with ancestors := r.2.ancestors.erase v })

/-- src/directed_cycle_detection.cc, `dfs_detect_cycle` (lines 67-83): run
the detecting DFS from every unvisited vertex, with fresh ancestor and
parent containers per root; report a cycle as soon as one DFS does. -/
def dfs_detect_cycle (g : Graph) : Bool :=
  (g.all_vertices.foldl
    (fun (acc : Bool × List Int) v =>
      if acc.1 then acc
      else if v ∈ acc.2 then acc
      else
        let r := dfsDetect g (g.all_vertices.length + 1) v
          { visited := acc.2, ancestors := [], parent := [] }
        (r.1, r.2.visited))
    (false, [])).1

/-- src/directed_cycle_detection.cc, `uf_detect_cycle` (lines 89-98): scan
all (directed!) edges; report a cycle the first time an edge's endpoints
are already connected in the union-find, otherwise union them. -/
def uf_detect_cycle (g : Graph) : Bool :=
  (g.all_edges.foldl
    (fun (acc : Bool × UF) e =>
      if acc.1 then acc
      else
        let conn := acc.2.is_connected e.v e.w
        if conn.1 then (true, conn.2)
        else (false, conn.2.union_vertices e.v e.w))
    (false, UF.ofVertices g.all_vertices)).1

/-! ## Claims C1 and C6 -/

/-- Two isolated vertices, no edges at all. -/
def gC1 : Graph := (Graph.empty.add_vertex 0).add_vertex 1

theorem gC1_no_reach : ¬ Reach gC1 0 1 ∧ ¬ Reach gC1 1 0 := by
  have hstep : ∀ a b, ¬ EdgeStep gC1 a b := by
    rintro a b ⟨e, he, _, _⟩
    have : gC1.all_edges = [] := rfl
    rw [this] at he
    simp at he
  constructor
  · intro h
    have h2 := reflTransGen_closed (P := fun x => x = 0)
      (fun a b hab _ => absurd hab (hstep a b)) h rfl
    exact absurd h2 (by decide)
  · intro h
    have h2 := reflTransGen_closed (P := fun x => x = 1)
      (fun a b hab _ => absurd hab (hstep a b)) h rfl
    exact absurd h2 (by decide)

/-- C1: the claim asserts `kosaraju_scc` groups two vertices together iff
they reach each other.  On the edgeless two-vertex graph the code places 0
and 1 in the same group (group 0), although neither reaches the other: in
the source, pass 2 runs the DFS over the original graph `g` instead of
the computed-but-unused transpose `rg`, and `cc_id` is never incremented,
so every pass-2 DFS tree is appended to the single group 0. -/
theorem c1_kosaraju_groups_unrelated_vertices :
    kosaraju_scc gC1 = [(0, [1, 0])] ∧ ¬ Reach gC1 0 1 ∧ ¬ Reach gC1 1 0 :=
  ⟨rfl, gC1_no_reach.1, gC1_no_reach.2⟩

/-- The diamond DAG 0→1, 0→2, 1→2: no directed cycle, but its underlying
undirected edge set closes a loop. -/
def gDAG : Graph :=
  [Edge.mk 0 1 1, Edge.mk 0 2 1, Edge.mk 1 2 1].foldl Graph.add_edge Graph.empty

theorem gDAG_acyclic : ¬ HasCycle gDAG := by
  have hlt : ∀ x y, EdgeStep gDAG x y → x < y := by
    rintro x y ⟨e, he, hv, hw⟩
    have hle : gDAG.all_edges = [Edge.mk 0 1 1, Edge.mk 0 2 1, Edge.mk 1 2 1] := rfl
    rw [hle] at he
    subst hv
    subst hw
    fin_cases he <;> decide
  rintro ⟨a, b, hstep, hreach⟩
  have hle : b ≤ a := reflTransGen_closed (P := fun z => b ≤ z)
    (fun x y hxy hbx => le_of_lt (lt_of_le_of_lt hbx (hlt x y hxy))) hreach le_rfl
  exact absurd (hlt a b hstep) (not_lt.mpr hle)

/-- C6: the claim asserts both cycle-detection entry points of
directed_cycle_detection.cc return true iff the graph has a directed
cycle.  On the acyclic diamond 0→1, 0→2, 1→2 the Union-Find-based
`uf_detect_cycle` returns true (the undirected shortcut sees the edge 1→2
close an undirected loop), while the DFS back-edge test correctly returns
false — exactly the invalidity of union-find on digraphs that the
repository's own readme ("cannot use Union-Find to detect cycle in
directed graph") and the spec (§4.4) record. -/
theorem c6_uf_detect_cycle_false_positive :
    uf_detect_cycle gDAG = true ∧ dfs_detect_cycle gDAG = false ∧ ¬ HasCycle gDAG :=
  ⟨rfl, rfl, gDAG_acyclic⟩

/-! ## Topological sorting (src/topological_sorting.cc, claim C7) -/

/-- src/topological_sorting.cc, `dfs_topological_sorting` (lines 43-59):
empty result when the cycle check fires, otherwise the reversed DFS
postorder over all vertices. -/
def dfs_topological_sorting (g : Graph) : List Int :=
  if dfs_detect_cycle g then []
  else (dfsPostAll g).1.reverse

/-- The indegree table of `bfs_topological_sorting` (lines 85-91): zero for
every vertex, then incremented once per stored edge into its target. -/
def kahn_indegree (g : Graph) : Int → Int :=
  let d0 := g.all_vertices.foldl (fun d v => fun x => if x = v then 0 else d x)
    (fun _ => 0)
  g.all_edges.foldl (fun d e => fun x => if x = e.w then d e.w + 1 else d x) d0

/-- The Kahn working loop (lines 99-110): pop the queue front, append it
to the order, decrement each successor's indegree, enqueueing those that
reach zero.  Each vertex is enqueued at most once, so the `|V| + 1` fuel
passed by `bfs_topological_sorting` outlasts the C++ `while` loop. -/
def kahn_loop (g : Graph) : Nat → List Int → (Int → Int) → List Int → List Int
  | 0, _, _, order => order
  | fuel + 1, q, indeg, order =>
    match q with
    | [] => order
    | v :: q' =>
      let res := (g.edges v).foldl
        (fun (st : (Int → Int) × List Int) e =>
          let d' := fun x => if x = e.w then st.1 e.w - 1 else st.1 x
          if d' e.w = 0 then (d', st.2 ++ [e.w]) else (d', st.2))
        (indeg, q')
      kahn_loop g fuel res.2 res.1 (order ++ [v])

/-- src/topological_sorting.cc, `bfs_topological_sorting` (lines 76-113):
empty result when the cycle check fires; otherwise Kahn's algorithm.  The
seed queue collects the zero-indegree vertices; C++ iterates the
`std::unordered_map` in unspecified hash order over exactly the vertex
set, modelled here in vertex insertion order (the claims proved are
insensitive to the order of the seeds). -/
def bfs_topological_sorting (g : Graph) : List Int :=
  if dfs_detect_cycle g then []
  else
    let indeg := kahn_indegree g
    let q0 := g.all_vertices.filter (fun v => indeg v == 0)
    kahn_loop g (g.all_vertices.length + 1) q0 indeg []

/-- A sequence is a topological order of `g`: it lists exactly the
vertices, each once, and every stored edge's source strictly precedes its
destination. -/
def TopoOrder (g : Graph) (l : List Int) : Prop :=
  (∀ x, x ∈ l ↔ x ∈ g.vertices) ∧ l.Nodup ∧
  ∀ a b, EdgeStep g a b → l.indexOf a < l.indexOf b

/-! ### Helper lemmas for the C7 proofs -/

theorem mapFind_eq_of_mem :
    ∀ {m : List (Int × List Edge)}, (m.map Prod.fst).Nodup →
    ∀ {v : Int} {es : List Edge}, (v, es) ∈ m → mapFind m v = some es := by
  intro m
  induction m with
  | nil => intro _ v es h; simp at h
  | cons q rest ih =>
    obtain ⟨k, l⟩ := q
    intro hnd v es h
    have hnd' : (k :: rest.map Prod.fst).Nodup := by simpa using hnd
    by_cases hkv : k = v
    · subst hkv
      rcases List.mem_cons.mp h with h1 | h1
      · have hes : es = l := by
          have := congrArg Prod.snd h1
          simpa using this
        subst hes
        unfold mapFind
        simp [List.find?]
      · exfalso
        have hmem : k ∈ rest.map Prod.fst := List.mem_map.mpr ⟨(k, es), h1, rfl⟩
        exact (List.nodup_cons.mp hnd').1 hmem
    · rcases List.mem_cons.mp h with h1 | h1
      · exfalso
        have := congrArg Prod.fst h1
        simp at this
        exact hkv this.symm
      · have hrest : (rest.map Prod.fst).Nodup := (List.nodup_cons.mp hnd').2
        have hres := ih hrest h1
        unfold mapFind at hres ⊢
        have hb : (k == v) = false := by simpa using hkv
        simp [List.find?, hb]
        simpa using hres

/-- Under well-formedness, the adjacency bucket of `v` contains exactly
the stored edges with source `v`. -/
theorem Graph.mem_edges_iff {g : Graph} (hwf : g.WF) (v : Int) (e : Edge) :
    e ∈ g.edges v ↔ e ∈ g.all_edges ∧ e.v = v := by
  constructor
  · intro h
    refine ⟨Graph.mem_edges_sub_all_edges g v h, ?_⟩
    unfold Graph.edges at h
    cases hf : mapFind g.adj_list v with
    | none => rw [hf] at h; simp at h
    | some es =>
      rw [hf] at h
      simp at h
      unfold mapFind at hf
      obtain ⟨q, hq, hqes⟩ := Option.map_eq_some'.mp hf
      have hq1 : q.1 = v := by simpa using List.find?_some hq
      have hqmem : q ∈ g.adj_list := List.mem_of_find?_eq_some hq
      have := hwf.2.2.1 q hqmem e (by rw [hqes]; exact h)
      rw [this, hq1]
  · rintro ⟨hall, hv⟩
    unfold Graph.all_edges at hall
    rw [List.mem_flatten] at hall
    obtain ⟨es, hes, hees⟩ := hall
    obtain ⟨q, hq, rfl⟩ := List.mem_map.mp hes
    have hsrc := hwf.2.2.1 q hq e hees
    have hkeys : (g.adj_list.map Prod.fst).Nodup :=
      hwf.2.1.imp (fun hab => ne_of_lt hab)
    have hqv : q = (v, q.2) := by
      have : q.1 = v := by rw [← hsrc, hv]
      exact Prod.ext this rfl
    have hfind : mapFind g.adj_list v = some q.2 :=
      mapFind_eq_of_mem hkeys (hqv ▸ hq)
    unfold Graph.edges
    rw [hfind]
    exact hees

/-- Edges with a given source, seen through `EdgeStep`. -/
theorem edgeStep_iff_edges {g : Graph} (hwf : g.WF) (a b : Int) :
    EdgeStep g a b ↔ ∃ e ∈ g.edges a, e.w = b := by
  constructor
  · rintro ⟨e, he, hv, hw⟩
    exact ⟨e, (Graph.mem_edges_iff hwf a e).mpr ⟨he, hv⟩, hw⟩
  · rintro ⟨e, he, hw⟩
    have := (Graph.mem_edges_iff hwf a e).mp he
    exact ⟨e, this.1, this.2, hw⟩

/-- Count of vertices not yet visited; the DFS recursion measure. -/
def unvisCount (g : Graph) (vis : List Int) : Nat :=
  (g.all_vertices.filter (fun x => decide (x ∉ vis))).length

theorem filter_length_mono {l : List Int} {p q : Int → Bool}
    (hmono : ∀ x ∈ l, p x = true → q x = true) :
    (l.filter p).length ≤ (l.filter q).length := by
  induction l with
  | nil => simp
  | cons a t ih =>
    have ht := ih (fun x hx => hmono x (List.mem_cons_of_mem _ hx))
    by_cases hp : p a = true
    · have hq := hmono a (List.mem_cons_self _ _) hp
      simp [List.filter, hp, hq]
      omega
    · have hp' : p a = false := by simpa using hp
      cases hq : q a <;> simp [List.filter, hp', hq] <;> omega

theorem filter_length_strict {l : List Int} {p q : Int → Bool}
    (hmono : ∀ x ∈ l, p x = true → q x = true)
    {v : Int} (hv : v ∈ l) (hqv : q v = true) (hpv : p v = false) :
    (l.filter p).length < (l.filter q).length := by
  induction l with
  | nil => simp at hv
  | cons a t ih =>
    have htmono : ∀ x ∈ t, p x = true → q x = true :=
      fun x hx => hmono x (List.mem_cons_of_mem _ hx)
    rcases List.mem_cons.mp hv with rfl | hvt
    · have hle := filter_length_mono htmono
      simp [List.filter, hpv, hqv]
      omega
    · have hlt := ih htmono hvt
      by_cases hp : p a = true
      · have hq := hmono a (List.mem_cons_self _ _) hp
        simp [List.filter, hp, hq]
        omega
      · have hp' : p a = false := by simpa using hp
        cases hq : q a <;> simp [List.filter, hp', hq] <;> omega

/-- Growing the visited set strictly decreases the measure when the new
vertex is a graph vertex. -/
theorem unvisCount_lt {g : Graph} {vis vis' : List Int}
    (hsub : ∀ x, x ∈ vis → x ∈ vis') {v : Int} (hvg : v ∈ g.all_vertices)
    (hvold : v ∉ vis) (hvnew : v ∈ vis') :
    unvisCount g vis' < unvisCount g vis := by
  refine filter_length_strict ?_ hvg ?_ ?_
  · intro x _ hx
    simp at hx ⊢
    exact fun hmem => hx (hsub x hmem)
  · simpa using hvold
  · simpa using hvnew

theorem unvisCount_le {g : Graph} {vis vis' : List Int}
    (hsub : ∀ x, x ∈ vis → x ∈ vis') :
    unvisCount g vis' ≤ unvisCount g vis := by
  refine filter_length_mono ?_
  intro x _ hx
  simp at hx ⊢
  exact fun hmem => hx (hsub x hmem)

theorem mem_visInsert (v x : Int) (vis : List Int) :
    x ∈ visInsert v vis ↔ x ∈ vis ∨ x = v := by
  unfold visInsert
  by_cases h : v ∈ vis
  · rw [if_pos h]
    constructor
    · exact Or.inl
    · rintro (hx | rfl)
      · exact hx
      · exact h
  · rw [if_neg h]
    simp

/-- Pairwise order turned into a strict index comparison. -/
theorem pairwise_indexOf_lt {l : List Int} {R : Int → Int → Prop}
    (hp : l.Pairwise R) {a b : Int} (ha : a ∈ l) (hb : b ∈ l) (hne : a ≠ b)
    (hR : ¬ R b a) : l.indexOf a < l.indexOf b := by
  have hia : l.indexOf a < l.length := List.indexOf_lt_length.mpr ha
  have hib : l.indexOf b < l.length := List.indexOf_lt_length.mpr hb
  rcases lt_trichotomy (l.indexOf a) (l.indexOf b) with h | h | h
  · exact h
  · exfalso
    apply hne
    have h1 : l.get ⟨l.indexOf a, hia⟩ = a := List.indexOf_get hia
    have h2 : l.get ⟨l.indexOf b, hib⟩ = b := List.indexOf_get hib
    rw [← h1, ← h2]
    congr 1
    exact Fin.ext h
  · exfalso
    apply hR
    have h1 : l.get ⟨l.indexOf a, hia⟩ = a := List.indexOf_get hia
    have h2 : l.get ⟨l.indexOf b, hib⟩ = b := List.indexOf_get hib
    have := List.pairwise_iff_get.mp hp ⟨l.indexOf b, hib⟩ ⟨l.indexOf a, hia⟩ h
    rw [h1, h2] at this
    exact this

theorem edgeStep_ne_of_acyclic {g : Graph} (hnc : ¬ HasCycle g) {a b : Int}
    (h : EdgeStep g a b) : a ≠ b := by
  rintro rfl
  exact hnc ⟨a, a, h, Relation.ReflTransGen.refl⟩

/-! ### The postorder DFS invariant (for C7) -/

/-- Invariant of the postorder DFS, relative to the ghost list `A` of
currently open (on-stack) vertices.  State `st` is (postorder, visited):
visited is exactly finished-or-open, finished vertices are distinct and
within the graph, an earlier-finished vertex has an edge to a
later-finished one only when the target reaches back to it (the target was
then an open ancestor), and every finished vertex has all its edge targets
visited. -/
structure DfsInv (g : Graph) (A : List Int) (st : List Int × List Int) : Prop where
  vis_iff : ∀ x, x ∈ st.2 ↔ x ∈ st.1 ∨ x ∈ A
  disj : ∀ x ∈ st.1, x ∉ A
  nd : st.1.Nodup
  pg : st.1.Pairwise (fun x y => EdgeStep g x y → Reach g y x)
  closed : ∀ a ∈ st.1, ∀ b, EdgeStep g a b → b ∈ st.2
  vis_sub : ∀ x ∈ st.2, x ∈ g.all_vertices

/-- Mid-frame invariant while the edges of the open vertex `v` are being
scanned: the frame invariant relative to `A ++ [v]`, plus the finished
prefix decomposition relative to the state `st` at frame entry. -/
def FrameInv (g : Graph) (A : List Int) (v : Int) (st s : List Int × List Int) : Prop :=
  DfsInv g (A ++ [v]) s ∧ v ∈ s.2 ∧
  ∃ Δ, s.1 = st.1 ++ Δ ∧ (∀ x ∈ Δ, Reach g v x) ∧ (∀ x ∈ Δ, x ∉ st.2)

theorem FrameInv.vis_mono {g : Graph} {A : List Int} {v : Int}
    {st s : List Int × List Int} (hst : DfsInv g A st) (hs : FrameInv g A v st s) :
    ∀ x ∈ st.2, x ∈ s.2 := by
  obtain ⟨hinv, _, Δ, hΔ, _, _⟩ := hs
  intro x hx
  rcases (hst.vis_iff x).mp hx with h1 | h1
  · exact (hinv.vis_iff x).mpr (Or.inl (by rw [hΔ]; exact List.mem_append_left _ h1))
  · exact (hinv.vis_iff x).mpr (Or.inr (List.mem_append_left _ h1))

theorem dfsPost_spec (g : Graph) (hwf : g.WF) :
    ∀ (fuel : Nat) (v : Int) (st : List Int × List Int) (A : List Int),
      DfsInv g A st → v ∉ st.2 → v ∈ g.all_vertices →
      (∀ a ∈ A, Reach g a v) → unvisCount g st.2 < fuel →
      DfsInv g A (dfsPost g fuel v st) ∧
      ∃ Δ, (dfsPost g fuel v st).1 = st.1 ++ Δ ∧ v ∈ Δ ∧
        (∀ x ∈ Δ, Reach g v x) ∧ (∀ x ∈ Δ, x ∉ st.2) := by
  intro fuel
  induction fuel with
  | zero =>
    intro v st A _ _ _ _ hfuel
    omega
  | succ f ihf =>
    intro v st A hinv hv hvg hanc hfuel
    have hvA : v ∉ A := fun hvA => hv ((hinv.vis_iff v).mpr (Or.inr hvA))
    -- the state after marking v visited
    have hframe0 : FrameInv g A v st (st.1, visInsert v st.2) := by
      refine ⟨⟨?_, ?_, hinv.nd, hinv.pg, ?_, ?_⟩, ?_, [], by simp, by simp, by simp⟩
      · intro x
        show x ∈ visInsert v st.2 ↔ x ∈ st.1 ∨ x ∈ A ++ [v]
        rw [mem_visInsert, hinv.vis_iff]
        simp [or_assoc]
      · intro x hx
        have h1 := hinv.disj x hx
        have h2 : x ≠ v := by
          intro hxv
          exact hv (hxv ▸ (hinv.vis_iff x).mpr (Or.inl hx))
        simp [h1, h2]
      · intro a ha b hb
        show b ∈ visInsert v st.2
        rw [mem_visInsert]
        exact Or.inl (hinv.closed a ha b hb)
      · intro x hx
        rw [show ((st.1, visInsert v st.2) : List Int × List Int).2 = visInsert v st.2
          from rfl, mem_visInsert] at hx
        rcases hx with hx | rfl
        · exact hinv.vis_sub x hx
        · exact hvg
      · show v ∈ visInsert v st.2
        rw [mem_visInsert]
        exact Or.inr rfl
    -- scanning the edges preserves the mid-frame invariant and visits
    -- every scanned target
    have inner : ∀ (es : List Edge), (∀ e ∈ es, e ∈ g.edges v) →
        ∀ s : List Int × List Int, FrameInv g A v st s →
        FrameInv g A v st
          (es.foldl (fun s e => if e.w ∈ s.2 then s else dfsPost g f e.w s) s) ∧
        (∀ x ∈ s.2,
          x ∈ (es.foldl (fun s e => if e.w ∈ s.2 then s else dfsPost g f e.w s) s).2) ∧
        (∀ e ∈ es,
          e.w ∈ (es.foldl (fun s e => if e.w ∈ s.2 then s else dfsPost g f e.w s) s).2) := by
      intro es
      induction es with
      | nil =>
        intro _ s hs
        exact ⟨hs, fun x hx => hx, by simp⟩
      | cons e es' ihes =>
        intro hes s hs
        have hee : e ∈ g.edges v := hes e (List.mem_cons_self _ _)
        have hestep : EdgeStep g v e.w := (edgeStep_iff_edges hwf v e.w).mpr ⟨e, hee, rfl⟩
        rw [List.foldl_cons]
        by_cases hew : e.w ∈ s.2
        · rw [if_pos hew]
          obtain ⟨hfr, hmono, htg⟩ :=
            ihes (fun x hx => hes x (List.mem_cons_of_mem _ hx)) s hs
          exact ⟨hfr, hmono, by
            intro e' he'
            rcases List.mem_cons.mp he' with rfl | he'
            · exact hmono _ hew
            · exact htg e' he'⟩
        · rw [if_neg hew]
          obtain ⟨hsinv, hvs, Δ, hΔ, hΔr, hΔn⟩ := hs
          have hewg : e.w ∈ g.all_vertices := by
            have := hwf.2.2.2 e (Graph.mem_edges_sub_all_edges g v hee)
            exact this.2
          have hanc' : ∀ a ∈ A ++ [v], Reach g a e.w := by
            intro a ha
            rcases List.mem_append.mp ha with ha | ha
            · exact Relation.ReflTransGen.tail (hanc a ha) hestep
            · have : a = v := by simpa using ha
              subst this
              exact Relation.ReflTransGen.single hestep
          have hfuel' : unvisCount g s.2 < f := by
            have hsub : ∀ x ∈ st.2, x ∈ s.2 :=
              FrameInv.vis_mono hinv ⟨hsinv, hvs, Δ, hΔ, hΔr, hΔn⟩
            have hstrict : unvisCount g s.2 < unvisCount g st.2 :=
              unvisCount_lt hsub hvg hv hvs
            omega
          obtain ⟨hinv', Δe, hΔe, hewΔ, hΔer, hΔen⟩ :=
            ihf e.w s (A ++ [v]) hsinv hew hewg hanc' hfuel'
          have hframe' : FrameInv g A v st (dfsPost g f e.w s) := by
            refine ⟨hinv', ?_, Δ ++ Δe, ?_, ?_, ?_⟩
            · rcases (hsinv.vis_iff v).mp hvs with h1 | h1
              · exact (hinv'.vis_iff v).mpr (Or.inl (by rw [hΔe]; exact List.mem_append_left _ h1))
              · exact (hinv'.vis_iff v).mpr (Or.inr h1)
            · rw [hΔe, hΔ, List.append_assoc]
            · intro x hx
              rcases List.mem_append.mp hx with hx | hx
              · exact hΔr x hx
              · exact Relation.ReflTransGen.trans
                  (Relation.ReflTransGen.single hestep) (hΔer x hx)
            · intro x hx
              rcases List.mem_append.mp hx with hx | hx
              · exact hΔn x hx
              · intro hxst
                exact hΔen x hx (FrameInv.vis_mono hinv ⟨hsinv, hvs, Δ, hΔ, hΔr, hΔn⟩ x hxst)
          have hmono1 : ∀ x ∈ s.2, x ∈ (dfsPost g f e.w s).2 := by
            intro x hx
            rcases (hsinv.vis_iff x).mp hx with h1 | h1
            · exact (hinv'.vis_iff x).mpr (Or.inl (by rw [hΔe]; exact List.mem_append_left _ h1))
            · exact (hinv'.vis_iff x).mpr (Or.inr h1)
          obtain ⟨hfr, hmono2, htg⟩ :=
            ihes (fun x hx => hes x (List.mem_cons_of_mem _ hx)) _ hframe'
          refine ⟨hfr, fun x hx => hmono2 x (hmono1 x hx), ?_⟩
          intro e' he'
          rcases List.mem_cons.mp he' with rfl | he'
          · refine hmono2 _ ?_
            exact (hinv'.vis_iff e'.w).mpr (Or.inl (by rw [hΔe]; exact List.mem_append_right _ hewΔ))
          · exact htg e' he'
    obtain ⟨⟨hfinv, hfvs, Δ, hΔ, hΔr, hΔn⟩, _, htargets⟩ :=
      inner (g.edges v) (fun e he => he) _ hframe0
    set st2 := (g.edges v).foldl
      (fun s e => if e.w ∈ s.2 then s else dfsPost g f e.w s) (st.1, visInsert v st.2)
      with hst2
    have hres : dfsPost g (f + 1) v st = (st2.1 ++ [v], st2.2) := rfl
    rw [hres]
    have hvnotin : v ∉ st2.1 := by
      intro hvin
      exact hfinv.disj v hvin (List.mem_append_right _ (by simp))
    constructor
    · refine ⟨?_, ?_, ?_, ?_, ?_, ?_⟩
      · intro x
        show x ∈ st2.2 ↔ x ∈ st2.1 ++ [v] ∨ x ∈ A
        rw [hfinv.vis_iff]
        simp
        tauto
      · intro x hx
        rcases List.mem_append.mp hx with hx | hx
        · have := hfinv.disj x hx
          intro hxA
          exact this (List.mem_append_left _ hxA)
        · have : x = v := by simpa using hx
          subst this
          exact hvA
      · rw [List.nodup_append]
        exact ⟨hfinv.nd, List.nodup_singleton v, by
          intro x hx
          simp
          intro hxv
          exact hvnotin (hxv ▸ hx)⟩
      · rw [List.pairwise_append]
        refine ⟨hfinv.pg, List.pairwise_singleton _ _, ?_⟩
        intro x hx y hy hxy
        have hyv : y = v := by simpa using hy
        subst hyv
        rw [hΔ] at hx
        rcases List.mem_append.mp hx with hx | hx
        · exact absurd (hinv.closed x hx y hxy) hv
        · exact hΔr x hx
      · intro a ha b hb
        rcases List.mem_append.mp ha with ha | ha
        · exact hfinv.closed a ha b hb
        · have : a = v := by simpa using ha
          subst this
          obtain ⟨e, he, hew⟩ := (edgeStep_iff_edges hwf a b).mp hb
          exact hew ▸ htargets e he
      · exact hfinv.vis_sub
    · refine ⟨Δ ++ [v], ?_, ?_, ?_, ?_⟩
      · show st2.1 ++ [v] = st.1 ++ (Δ ++ [v])
        rw [hΔ, List.append_assoc]
      · exact List.mem_append_right _ (by simp)
      · intro x hx
        rcases List.mem_append.mp hx with hx | hx
        · exact hΔr x hx
        · have : x = v := by simpa using hx
          subst this
          exact Relation.ReflTransGen.refl
      · intro x hx
        rcases List.mem_append.mp hx with hx | hx
        · exact hΔn x hx
        · have : x = v := by simpa using hx
          subst this
          exact hv

theorem unvisCount_le_length (g : Graph) (vis : List Int) :
    unvisCount g vis ≤ g.all_vertices.length :=
  List.length_filter_le _ _

/-- The DFS driver visits every vertex and leaves the invariant with an
empty open set: the recorded postorder lists exactly the graph's
vertices. -/
theorem dfsPostAll_spec (g : Graph) (hwf : g.WF) :
    DfsInv g [] (dfsPostAll g) ∧ ∀ x ∈ g.all_vertices, x ∈ (dfsPostAll g).1 := by
  have base : DfsInv g [] ([], []) := by
    refine ⟨by simp, by simp, List.nodup_nil, List.Pairwise.nil, by simp, by simp⟩
  have key : ∀ (vs : List Int), (∀ v ∈ vs, v ∈ g.all_vertices) →
      ∀ s, DfsInv g [] s →
      DfsInv g []
        (vs.foldl (fun s v => if v ∈ s.2 then s
          else dfsPost g (g.all_vertices.length + 1) v s) s) ∧
      (∀ x ∈ s.2,
        x ∈ (vs.foldl (fun s v => if v ∈ s.2 then s
          else dfsPost g (g.all_vertices.length + 1) v s) s).2) ∧
      (∀ v ∈ vs,
        v ∈ (vs.foldl (fun s v => if v ∈ s.2 then s
          else dfsPost g (g.all_vertices.length + 1) v s) s).2) := by
    intro vs
    induction vs with
    | nil => intro _ s hs; exact ⟨hs, fun x hx => hx, by simp⟩
    | cons v vs' ih =>
      intro hvs s hs
      rw [List.foldl_cons]
      by_cases hv : v ∈ s.2
      · rw [if_pos hv]
        obtain ⟨h1, h2, h3⟩ := ih (fun x hx => hvs x (List.mem_cons_of_mem _ hx)) s hs
        refine ⟨h1, h2, ?_⟩
        intro x hx
        rcases List.mem_cons.mp hx with rfl | hx
        · exact h2 x hv
        · exact h3 x hx
      · rw [if_neg hv]
        have hvg : v ∈ g.all_vertices := hvs v (List.mem_cons_self _ _)
        have hfuel : unvisCount g s.2 < g.all_vertices.length + 1 :=
          Nat.lt_succ_of_le (unvisCount_le_length g s.2)
        obtain ⟨hinv', Δ, hΔ, hvΔ, _, _⟩ :=
          dfsPost_spec g hwf (g.all_vertices.length + 1) v s [] hs hv hvg (by simp) hfuel
        have hmono : ∀ x ∈ s.2, x ∈ (dfsPost g (g.all_vertices.length + 1) v s).2 := by
          intro x hx
          rcases (hs.vis_iff x).mp hx with h1 | h1
          · exact (hinv'.vis_iff x).mpr (Or.inl (by rw [hΔ]; exact List.mem_append_left _ h1))
          · simp at h1
        obtain ⟨h1, h2, h3⟩ := ih (fun x hx => hvs x (List.mem_cons_of_mem _ hx)) _ hinv'
        refine ⟨h1, fun x hx => h2 x (hmono x hx), ?_⟩
        intro x hx
        rcases List.mem_cons.mp hx with rfl | hx
        · refine h2 x ?_
          exact (hinv'.vis_iff x).mpr (Or.inl (by rw [hΔ]; exact List.mem_append_right _ hvΔ))
        · exact h3 x hx
  obtain ⟨h1, _, h3⟩ := key g.all_vertices (fun v hv => hv) ([], []) base
  refine ⟨h1, ?_⟩
  intro x hx
  have := h3 x hx
  rcases (h1.vis_iff x).mp this with h | h
  · exact h
  · simp at h

/-- Acyclic case of the DFS-postorder topological sort: once the cycle
check passes, the reversed postorder is a topological order. -/
theorem dfs_topo_acyclic {g : Graph} (hwf : g.WF) (hnc : ¬ HasCycle g)
    (hdet : dfs_detect_cycle g = false) :
    TopoOrder g (dfs_topological_sorting g) := by
  have hres : dfs_topological_sorting g = (dfsPostAll g).1.reverse := by
    simp [dfs_topological_sorting, hdet]
  obtain ⟨hinv, htotal⟩ := dfsPostAll_spec g hwf
  have hmempost : ∀ x, x ∈ (dfsPostAll g).1 ↔ x ∈ g.vertices := by
    intro x
    constructor
    · intro hx
      exact hinv.vis_sub x ((hinv.vis_iff x).mpr (Or.inl hx))
    · exact htotal x
  have hpw : (dfsPostAll g).1.Pairwise (fun x y => ¬ EdgeStep g x y) := by
    refine hinv.pg.imp ?_
    intro x y hxy hstep
    exact hnc ⟨x, y, hstep, hxy hstep⟩
  rw [hres]
  refine ⟨?_, ?_, ?_⟩
  · intro x
    rw [List.mem_reverse]
    exact hmempost x
  · exact List.nodup_reverse.mpr hinv.nd
  · intro a b hstep
    have hrev : (dfsPostAll g).1.reverse.Pairwise (fun x y => ¬ EdgeStep g y x) := by
      rw [List.pairwise_reverse]
      exact hpw
    obtain ⟨e, he, hv, hw⟩ := hstep
    have ha : a ∈ (dfsPostAll g).1.reverse := by
      rw [List.mem_reverse, hmempost]
      exact hv ▸ (hwf.2.2.2 e he).1
    have hb : b ∈ (dfsPostAll g).1.reverse := by
      rw [List.mem_reverse, hmempost]
      exact hw ▸ (hwf.2.2.2 e he).2
    exact pairwise_indexOf_lt hrev ha hb
      (edgeStep_ne_of_acyclic hnc ⟨e, he, hv, hw⟩)
      (fun hn => hn ⟨e, he, hv, hw⟩)

/-! ### Soundness of the back-edge DFS (for C7): `true` certifies a cycle -/

/-- The edge-scanning step of `dfsDetect`, named for the proofs below;
`dfsDetect g (f+1) v st` folds exactly this function over `g.edges v`. -/
def detStep (g : Graph) (f : Nat) (v : Int) (acc : Bool × DetSt) (e : Edge) : Bool × DetSt :=
  if acc.1 then acc
  else if e.w ∈ acc.2.visited then
    if e.w ∈ acc.2.ancestors then (true, acc.2) else (false, acc.2)
  else dfsDetect g f e.w { acc.2 with parent := setI acc.2.parent e.w v }

theorem dfsDetect_succ (g : Graph) (f : Nat) (v : Int) (st : DetSt) :
    dfsDetect g (f + 1) v st =
      (let r := (g.edges v).foldl (detStep g f v)
        (false, { st with visited := visInsert v st.visited,
                          ancestors := visInsert v st.ancestors })
       if r.1 then r
       else (false, { r.2 with ancestors := r.2.ancestors.erase v })) := rfl

/-- What a completed call of the detecting DFS guarantees: a `true` result
certifies a directed cycle; a `false` result restores the ancestor list
exactly, only grows the visited set, and keeps ancestors visited. -/
def DetPost (g : Graph) (st : DetSt) (r : Bool × DetSt) : Prop :=
  (r.1 = true → HasCycle g) ∧
  (r.1 = false →
    r.2.ancestors = st.ancestors ∧
    (∀ x ∈ st.visited, x ∈ r.2.visited) ∧
    (∀ x ∈ r.2.ancestors, x ∈ r.2.visited))

theorem dfsDetect_spec (g : Graph) (hwf : g.WF) :
    ∀ (fuel : Nat) (v : Int) (st : DetSt),
      (∀ x ∈ st.ancestors, x ∈ st.visited) →
      v ∉ st.ancestors →
      (∀ a ∈ st.ancestors, Reach g a v) →
      DetPost g st (dfsDetect g fuel v st) := by
  intro fuel
  induction fuel with
  | zero =>
    intro v st hsub _ _
    exact ⟨by intro h; simp [dfsDetect] at h, fun _ => ⟨rfl, fun x hx => hx, hsub⟩⟩
  | succ f ihf =>
    intro v st hsub hvanc hanc
    set st1 : DetSt :=
      { st with visited := visInsert v st.visited, ancestors := visInsert v st.ancestors }
      with hst1
    have hanc1 : st1.ancestors = st.ancestors ++ [v] := by
      show visInsert v st.ancestors = _
      unfold visInsert
      rw [if_neg hvanc]
    have hvis1 : ∀ x ∈ st.visited, x ∈ st1.visited := by
      intro x hx
      show x ∈ visInsert v st.visited
      rw [mem_visInsert]
      exact Or.inl hx
    have hsub1 : ∀ x ∈ st1.ancestors, x ∈ st1.visited := by
      intro x hx
      rw [hanc1] at hx
      show x ∈ visInsert v st.visited
      rw [mem_visInsert]
      rcases List.mem_append.mp hx with hx | hx
      · exact Or.inl (hsub x hx)
      · exact Or.inr (by simpa using hx)
    -- invariant carried through the edge scan
    have inner : ∀ (es : List Edge), (∀ e ∈ es, e ∈ g.edges v) →
        ∀ (acc : Bool × DetSt),
        (acc.1 = true → HasCycle g) →
        (acc.1 = false →
          acc.2.ancestors = st.ancestors ++ [v] ∧
          (∀ x ∈ st1.visited, x ∈ acc.2.visited) ∧
          (∀ x ∈ acc.2.ancestors, x ∈ acc.2.visited)) →
        ((es.foldl (detStep g f v) acc).1 = true → HasCycle g) ∧
        ((es.foldl (detStep g f v) acc).1 = false →
          (es.foldl (detStep g f v) acc).2.ancestors = st.ancestors ++ [v] ∧
          (∀ x ∈ st1.visited, x ∈ (es.foldl (detStep g f v) acc).2.visited) ∧
          (∀ x ∈ (es.foldl (detStep g f v) acc).2.ancestors,
            x ∈ (es.foldl (detStep g f v) acc).2.visited)) := by
      intro es
      induction es with
      | nil => intro _ acc h1 h2; exact ⟨h1, h2⟩
      | cons e es' ihes =>
        intro hes acc h1 h2
        have hee : e ∈ g.edges v := hes e (List.mem_cons_self _ _)
        have hestep : EdgeStep g v e.w := (edgeStep_iff_edges hwf v e.w).mpr ⟨e, hee, rfl⟩
        have hes' : ∀ x ∈ es', x ∈ g.edges v := fun x hx => hes x (List.mem_cons_of_mem _ hx)
        rw [List.foldl_cons]
        by_cases hacc : acc.1 = true
        · rw [show detStep g f v acc e = acc from by unfold detStep; rw [if_pos hacc]]
          exact ihes hes' acc h1 h2
        · have haccf : acc.1 = false := by simpa using hacc
          obtain ⟨hanc2, hvmono2, hsub2⟩ := h2 haccf
          by_cases hw1 : e.w ∈ acc.2.visited
          · by_cases hw2 : e.w ∈ acc.2.ancestors
            · -- back edge: a cycle exists
              rw [show detStep g f v acc e = (true, acc.2) from by
                unfold detStep
                rw [if_neg (by simp [haccf]), if_pos hw1, if_pos hw2]]
              have hcyc : HasCycle g := by
                rw [hanc2] at hw2
                rcases List.mem_append.mp hw2 with hwin | hwin
                · exact ⟨v, e.w, hestep, hanc e.w hwin⟩
                · have hwv : e.w = v := by simpa using hwin
                  exact ⟨v, e.w, hestep, hwv ▸ Relation.ReflTransGen.refl⟩
              exact ihes hes' (true, acc.2) (fun _ => hcyc)
                (by intro hfalse; simp at hfalse)
            · rw [show detStep g f v acc e = (false, acc.2) from by
                unfold detStep
                rw [if_neg (by simp [haccf]), if_pos hw1, if_neg hw2]]
              exact ihes hes' (false, acc.2) (by intro hc; simp at hc)
                (fun _ => ⟨hanc2, hvmono2, hsub2⟩)
          · -- unvisited target: recurse
            rw [show detStep g f v acc e =
                dfsDetect g f e.w { acc.2 with parent := setI acc.2.parent e.w v } from by
              unfold detStep
              rw [if_neg (by simp [haccf]), if_neg hw1]]
            set stp : DetSt := { acc.2 with parent := setI acc.2.parent e.w v } with hstp
            have hsubp : ∀ x ∈ stp.ancestors, x ∈ stp.visited := hsub2
            have hwanc : e.w ∉ stp.ancestors := fun hc => hw1 (hsub2 e.w hc)
            have hancp : ∀ a ∈ stp.ancestors, Reach g a e.w := by
              intro a ha
              have ha' : a ∈ st.ancestors ++ [v] := hanc2 ▸ ha
              rcases List.mem_append.mp ha' with ha' | ha'
              · exact Relation.ReflTransGen.tail (hanc a ha') hestep
              · have hav : a = v := by simpa using ha'
                exact hav ▸ Relation.ReflTransGen.single hestep
            obtain ⟨htrue, hfalse⟩ := ihf e.w stp hsubp hwanc hancp
            by_cases hres : (dfsDetect g f e.w stp).1 = true
            · exact ihes hes' _ (fun _ => htrue hres)
                (by intro hf; rw [hres] at hf; simp at hf)
            · have hresf : (dfsDetect g f e.w stp).1 = false := by simpa using hres
              obtain ⟨ha3, hv3, hs3⟩ := hfalse hresf
              refine ihes hes' _ (fun hc => absurd hc hres) (fun _ => ⟨?_, ?_, ?_⟩)
              · rw [ha3]
                exact hanc2
              · intro x hx
                exact hv3 x (hvmono2 x hx)
              · intro x hx
                rw [ha3] at hx
                exact hv3 x (hsub2 x (hanc2 ▸ hx))
    obtain ⟨htrue, hfalse⟩ := inner (g.edges v) (fun e he => he) (false, st1)
      (by intro hc; simp at hc)
      (fun _ => ⟨hanc1, fun x hx => hx, hsub1⟩)
    by_cases hr : ((g.edges v).foldl (detStep g f v) (false, st1)).1 = true
    · have heq : dfsDetect g (f + 1) v st =
          (g.edges v).foldl (detStep g f v) (false, st1) := by
        rw [dfsDetect_succ]
        simp [hr]
      rw [heq]
      exact ⟨fun _ => htrue hr, fun hf => absurd hf (by simp [hr])⟩
    · have hrf : ((g.edges v).foldl (detStep g f v) (false, st1)).1 = false := by
        simpa using hr
      obtain ⟨ha2, hv2, hs2⟩ := hfalse hrf
      have heq : dfsDetect g (f + 1) v st =
          (false, { ((g.edges v).foldl (detStep g f v) (false, st1)).2 with
            ancestors := (((g.edges v).foldl (detStep g f v)
              (false, st1)).2.ancestors).erase v }) := by
        rw [dfsDetect_succ]
        simp [hrf]
      rw [heq]
      constructor
      · intro hcontra
        simp at hcontra
      · intro _
        refine ⟨?_, ?_, ?_⟩
        · show (((g.edges v).foldl (detStep g f v) (false, st1)).2.ancestors).erase v
            = st.ancestors
          rw [ha2, List.erase_append_right _ hvanc]
          simp
        · intro x hx
          exact hv2 x (hvis1 x hx)
        · intro x hx
          have hx' : x ∈ ((g.edges v).foldl (detStep g f v) (false, st1)).2.ancestors := by
            have hsubl := List.erase_subset (l := ((g.edges v).foldl (detStep g f v)
              (false, st1)).2.ancestors) (a := v)
            exact hsubl hx
          exact hs2 x hx'

/-- Soundness of the cycle check: a `true` verdict certifies a directed
cycle. -/
theorem dfs_detect_cycle_sound (g : Graph) (hwf : g.WF) :
    dfs_detect_cycle g = true → HasCycle g := by
  have key : ∀ (vs : List Int) (acc : Bool × List Int), (acc.1 = true → HasCycle g) →
      (vs.foldl (fun (acc : Bool × List Int) v =>
        if acc.1 then acc
        else if v ∈ acc.2 then acc
        else
          let r := dfsDetect g (g.all_vertices.length + 1) v
            { visited := acc.2, ancestors := [], parent := [] }
          (r.1, r.2.visited)) acc).1 = true → HasCycle g := by
    intro vs
    induction vs with
    | nil => intro acc h1 h2; exact h1 h2
    | cons v vs' ih =>
      intro acc h1
      rw [List.foldl_cons]
      by_cases hacc : acc.1 = true
      · rw [show (if acc.1 then acc
          else if v ∈ acc.2 then acc
          else
            let r := dfsDetect g (g.all_vertices.length + 1) v
              { visited := acc.2, ancestors := [], parent := [] }
            (r.1, r.2.visited)) = acc from by rw [if_pos hacc]]
        exact ih acc h1
      · have haccf : acc.1 = false := by simpa using hacc
        by_cases hvv : v ∈ acc.2
        · rw [show (if acc.1 then acc
            else if v ∈ acc.2 then acc
            else
              let r := dfsDetect g (g.all_vertices.length + 1) v
                { visited := acc.2, ancestors := [], parent := [] }
              (r.1, r.2.visited)) = acc from by
            rw [if_neg (by simp [haccf]), if_pos hvv]]
          exact ih acc h1
        · rw [show (if acc.1 then acc
            else if v ∈ acc.2 then acc
            else
              let r := dfsDetect g (g.all_vertices.length + 1) v
                { visited := acc.2, ancestors := [], parent := [] }
              (r.1, r.2.visited)) =
            ((dfsDetect g (g.all_vertices.length + 1) v
                { visited := acc.2, ancestors := [], parent := [] }).1,
             (dfsDetect g (g.all_vertices.length + 1) v
                { visited := acc.2, ancestors := [], parent := [] }).2.visited) from by
            rw [if_neg (by simp [haccf]), if_neg hvv]]
          have hpost := dfsDetect_spec g hwf (g.all_vertices.length + 1) v
            { visited := acc.2, ancestors := [], parent := [] }
            (by intro x hx; simp at hx) (by simp) (by intro a ha; simp at ha)
          exact ih _ (fun hc => hpost.1 hc)
  intro h
  exact key g.all_vertices (false, []) (by intro hc; simp at hc) h

/-! ### Completeness of the back-edge DFS (for C7): a cycle forces `true` -/

/-- Once the edge scan of `dfsDetect` has turned `true`, it stays `true`. -/
theorem detStep_keep_true (g : Graph) (f : Nat) (v : Int) :
    ∀ (l : List Edge) (a : Bool × DetSt), a.1 = true →
      (l.foldl (detStep g f v) a).1 = true := by
  intro l
  induction l with
  | nil => intro a ha; exact ha
  | cons x xs ihx =>
    intro a ha
    rw [List.foldl_cons, show detStep g f v a x = a from by unfold detStep; rw [if_pos ha]]
    exact ihx a ha

/-- Combined frame facts of a `false`-returning detecting-DFS call with
enough fuel: the root ends visited, and every vertex first visited inside
the frame has each of its edge targets visited by frame end, with no
target among the outer ancestors and none equal to the frame root — the
run found no back edge into the open path. -/
theorem dfsDetect_BC (g : Graph) (hwf : g.WF) :
    ∀ (fuel : Nat) (v : Int) (st : DetSt),
      (∀ x ∈ st.ancestors, x ∈ st.visited) →
      (∀ a ∈ st.ancestors, Reach g a v) →
      v ∉ st.visited → v ∈ g.all_vertices →
      unvisCount g st.visited < fuel →
      (dfsDetect g fuel v st).1 = false →
      v ∈ (dfsDetect g fuel v st).2.visited ∧
      (∀ u ∈ (dfsDetect g fuel v st).2.visited, u ∉ st.visited →
        ∀ y, EdgeStep g u y →
          y ∈ (dfsDetect g fuel v st).2.visited ∧ y ∉ st.ancestors ∧ y ≠ v) := by
  intro fuel
  induction fuel with
  | zero =>
    intro v st _ _ _ _ hfuel
    omega
  | succ f ihf =>
    intro v st hsub hanc hv hvg hfuel hres
    have hvanc : v ∉ st.ancestors := fun hc => hv (hsub v hc)
    set st1 : DetSt :=
      { st with visited := visInsert v st.visited, ancestors := visInsert v st.ancestors }
      with hst1
    have hanc1 : st1.ancestors = st.ancestors ++ [v] := by
      show visInsert v st.ancestors = _
      unfold visInsert
      rw [if_neg hvanc]
    have hvis1mem : ∀ x, x ∈ st1.visited ↔ x ∈ st.visited ∨ x = v := by
      intro x
      show x ∈ visInsert v st.visited ↔ _
      rw [mem_visInsert]
    have hsub1 : ∀ x ∈ st1.ancestors, x ∈ st1.visited := by
      intro x hx
      rw [hanc1] at hx
      rw [hvis1mem]
      rcases List.mem_append.mp hx with hx | hx
      · exact Or.inl (hsub x hx)
      · exact Or.inr (by simpa using hx)
    -- invariant carried through the edge scan, on the false path
    have inner : ∀ (es : List Edge), (∀ e ∈ es, e ∈ g.edges v) →
        ∀ (acc : Bool × DetSt),
        (acc.1 = false →
          acc.2.ancestors = st.ancestors ++ [v] ∧
          (∀ x ∈ st1.visited, x ∈ acc.2.visited) ∧
          (∀ x ∈ acc.2.ancestors, x ∈ acc.2.visited) ∧
          (∀ u ∈ acc.2.visited, u ∉ st1.visited → ∀ y, EdgeStep g u y →
            y ∈ acc.2.visited ∧ y ∉ st.ancestors ∧ y ≠ v)) →
        ((es.foldl (detStep g f v) acc).1 = false →
          (∀ x ∈ acc.2.visited, x ∈ (es.foldl (detStep g f v) acc).2.visited) ∧
          (∀ u ∈ (es.foldl (detStep g f v) acc).2.visited, u ∉ st1.visited →
            ∀ y, EdgeStep g u y →
              y ∈ (es.foldl (detStep g f v) acc).2.visited ∧
                y ∉ st.ancestors ∧ y ≠ v) ∧
          (∀ e ∈ es, e.w ∈ (es.foldl (detStep g f v) acc).2.visited ∧
            e.w ∉ st.ancestors ∧ e.w ≠ v)) := by
      intro es
      induction es with
      | nil =>
        intro _ acc h2 hresf
        obtain ⟨_, _, _, a4⟩ := h2 hresf
        exact ⟨fun x hx => hx, a4, by simp⟩
      | cons e es' ihes =>
        intro hes acc h2
        have hee : e ∈ g.edges v := hes e (List.mem_cons_self _ _)
        have hestep : EdgeStep g v e.w := (edgeStep_iff_edges hwf v e.w).mpr ⟨e, hee, rfl⟩
        have hes' : ∀ x ∈ es', x ∈ g.edges v := fun x hx => hes x (List.mem_cons_of_mem _ hx)
        rw [List.foldl_cons]
        by_cases hacc : acc.1 = true
        · rw [show detStep g f v acc e = acc from by unfold detStep; rw [if_pos hacc]]
          intro hresf
          rw [detStep_keep_true g f v es' acc hacc] at hresf
          simp at hresf
        · have haccf : acc.1 = false := by simpa using hacc
          obtain ⟨a1, a2, a3, a4⟩ := h2 haccf
          by_cases hw1 : e.w ∈ acc.2.visited
          · by_cases hw2 : e.w ∈ acc.2.ancestors
            · -- back edge: the scan result is true, contradicting `false`
              rw [show detStep g f v acc e = (true, acc.2) from by
                unfold detStep
                rw [if_neg (by simp [haccf]), if_pos hw1, if_pos hw2]]
              intro hresf
              rw [detStep_keep_true g f v es' (true, acc.2) rfl] at hresf
              simp at hresf
            · rw [show detStep g f v acc e = (false, acc.2) from by
                unfold detStep
                rw [if_neg (by simp [haccf]), if_pos hw1, if_neg hw2]]
              intro hresf
              obtain ⟨b1, b2, b3⟩ := ihes hes' (false, acc.2)
                (fun _ => ⟨a1, a2, a3, a4⟩) hresf
              refine ⟨b1, b2, ?_⟩
              intro e' he'
              rcases List.mem_cons.mp he' with rfl | he'
              · have hwa : e'.w ∉ st.ancestors ++ [v] := a1 ▸ hw2
                exact ⟨b1 e'.w hw1, fun hc => hwa (List.mem_append_left _ hc),
                  fun hc => hwa (List.mem_append_right _ (by simp [hc]))⟩
              · exact b3 e' he'
          · -- recurse into an unvisited target
            rw [show detStep g f v acc e =
                dfsDetect g f e.w { acc.2 with parent := setI acc.2.parent e.w v } from by
              unfold detStep
              rw [if_neg (by simp [haccf]), if_neg hw1]]
            intro hresf
            set stp : DetSt := { acc.2 with parent := setI acc.2.parent e.w v } with hstp
            by_cases hsubres : (dfsDetect g f e.w stp).1 = true
            · rw [detStep_keep_true g f v es' _ hsubres] at hresf
              simp at hresf
            · have hsubf : (dfsDetect g f e.w stp).1 = false := by simpa using hsubres
              have hsubp : ∀ x ∈ stp.ancestors, x ∈ stp.visited := a3
              have hwancp : e.w ∉ stp.ancestors := fun hc => hw1 (a3 e.w hc)
              have hancp : ∀ a ∈ stp.ancestors, Reach g a e.w := by
                intro a ha
                have ha' : a ∈ st.ancestors ++ [v] := a1 ▸ ha
                rcases List.mem_append.mp ha' with ha' | ha'
                · exact Relation.ReflTransGen.tail (hanc a ha') hestep
                · have hav : a = v := by simpa using ha'
                  exact hav ▸ Relation.ReflTransGen.single hestep
              have hwg : e.w ∈ g.all_vertices := by
                have := hwf.2.2.2 e (Graph.mem_edges_sub_all_edges g v hee)
                exact this.2
              have hfuelp : unvisCount g stp.visited < f := by
                have hmono : ∀ x, x ∈ st.visited → x ∈ stp.visited := by
                  intro x hx
                  exact a2 x ((hvis1mem x).mpr (Or.inl hx))
                have hvstp : v ∈ stp.visited := a2 v ((hvis1mem v).mpr (Or.inr rfl))
                have hlt := unvisCount_lt hmono hvg hv hvstp
                omega
              obtain ⟨hroot, hdeep⟩ := ihf e.w stp hsubp hancp hw1 hwg hfuelp hsubf
              have hpost := dfsDetect_spec g hwf f e.w stp hsubp hwancp hancp
              obtain ⟨hancr, hmonor, hsubr⟩ := hpost.2 hsubf
              have hnext : (false, (dfsDetect g f e.w stp).2).1 = false →
                  (dfsDetect g f e.w stp).2.ancestors = st.ancestors ++ [v] ∧
                  (∀ x ∈ st1.visited, x ∈ (dfsDetect g f e.w stp).2.visited) ∧
                  (∀ x ∈ (dfsDetect g f e.w stp).2.ancestors,
                    x ∈ (dfsDetect g f e.w stp).2.visited) ∧
                  (∀ u ∈ (dfsDetect g f e.w stp).2.visited, u ∉ st1.visited →
                    ∀ y, EdgeStep g u y →
                      y ∈ (dfsDetect g f e.w stp).2.visited ∧
                        y ∉ st.ancestors ∧ y ≠ v) := by
                intro _
                refine ⟨by rw [hancr]; exact a1, ?_, hsubr, ?_⟩
                · intro x hx
                  exact hmonor x (a2 x hx)
                · intro u hu hu1 y hy
                  by_cases huacc : u ∈ acc.2.visited
                  · obtain ⟨c1, c2, c3⟩ := a4 u huacc hu1 y hy
                    exact ⟨hmonor y c1, c2, c3⟩
                  · obtain ⟨c1, c2, c3⟩ := hdeep u hu huacc y hy
                    have c2' : y ∉ acc.2.ancestors := c2
                    have hya : y ∉ st.ancestors ++ [v] := a1 ▸ c2'
                    exact ⟨c1, fun hc => hya (List.mem_append_left _ hc),
                      fun hc => hya (List.mem_append_right _ (by simp [hc]))⟩
              have hstep2 : dfsDetect g f e.w stp =
                  (false, (dfsDetect g f e.w stp).2) := by
                rw [← hsubf]
              obtain ⟨b1, b2, b3⟩ := ihes hes' (false, (dfsDetect g f e.w stp).2) hnext
                (by rw [← hstep2]; exact hresf)
              rw [hstep2]
              refine ⟨?_, b2, ?_⟩
              · intro x hx
                exact b1 x (hmonor x hx)
              · intro e' he'
                rcases List.mem_cons.mp he' with rfl | he'
                · have hwa : e'.w ∉ st.ancestors ++ [v] := by
                    rw [← a1]
                    exact fun hc => hw1 (a3 e'.w hc)
                  exact ⟨b1 e'.w hroot, fun hc => hwa (List.mem_append_left _ hc),
                    fun hc => hwa (List.mem_append_right _ (by simp [hc]))⟩
                · exact b3 e' he'
    by_cases hrt : ((g.edges v).foldl (detStep g f v) (false, st1)).1 = true
    · exfalso
      have heq : dfsDetect g (f + 1) v st =
          (g.edges v).foldl (detStep g f v) (false, st1) := by
        rw [dfsDetect_succ]
        simp [hrt]
      rw [heq, hrt] at hres
      simp at hres
    · have hrff : ((g.edges v).foldl (detStep g f v) (false, st1)).1 = false := by
        simpa using hrt
      obtain ⟨b1, b2, b3⟩ := inner (g.edges v) (fun e he => he) (false, st1)
        (fun _ => ⟨hanc1, fun x hx => hx, hsub1, fun u hu hu1 => absurd hu hu1⟩) hrff
      have heq : dfsDetect g (f + 1) v st =
          (false, { ((g.edges v).foldl (detStep g f v) (false, st1)).2 with
            ancestors := (((g.edges v).foldl (detStep g f v)
              (false, st1)).2.ancestors).erase v }) := by
        rw [dfsDetect_succ]
        simp [hrff]
      rw [heq]
      constructor
      · show v ∈ ((g.edges v).foldl (detStep g f v) (false, st1)).2.visited
        exact b1 v ((hvis1mem v).mpr (Or.inr rfl))
      · intro u hu hust y hy
        by_cases huv : u = v
        · subst huv
          obtain ⟨e2, he2, hew2⟩ := (edgeStep_iff_edges hwf u y).mp hy
          obtain ⟨c1, c2, c3⟩ := b3 e2 he2
          exact ⟨hew2 ▸ c1, hew2 ▸ c2, hew2 ▸ c3⟩
        · have hu1 : u ∉ st1.visited := by
            rw [hvis1mem]
            push_neg
            exact ⟨hust, huv⟩
          exact b2 u hu hu1 y hy

/-! ### Extracting a closed walk from `HasCycle` (for C7) -/

theorem edgeStep_target_mem {g : Graph} (hwf : g.WF) {a b : Int}
    (h : EdgeStep g a b) : b ∈ g.all_vertices := by
  obtain ⟨e, he, _, hw⟩ := h
  have := hwf.2.2.2 e he
  rw [← hw]
  exact this.2

/-- A vertex list forming a closed walk: every member has a predecessor in
the list through a stored edge, and reaches that predecessor using only
edges whose targets stay in the list. -/
def OnCycle (g : Graph) (C : List Int) : Prop :=
  ∀ v ∈ C, ∃ u ∈ C, EdgeStep g u v ∧
    Relation.ReflTransGen (fun a b => EdgeStep g a b ∧ b ∈ C) v u

theorem chain_reach_last (g : Graph) (C : List Int) :
    ∀ (l : List Int) (x : Int), List.Chain (EdgeStep g) x l →
      (∀ y ∈ x :: l, y ∈ C) → ∀ v ∈ x :: l,
      Relation.ReflTransGen (fun a b => EdgeStep g a b ∧ b ∈ C) v
        (List.getLast (x :: l) (List.cons_ne_nil x l)) := by
  intro l
  induction l with
  | nil =>
    intro x _ _ v hv
    have hvx : v = x := by simpa using hv
    subst hvx
    exact Relation.ReflTransGen.refl
  | cons y l' ih =>
    intro x hch hC v hv
    rw [List.chain_cons] at hch
    have hC' : ∀ z ∈ y :: l', z ∈ C := fun z hz => hC z (List.mem_cons_of_mem _ hz)
    have hlast : List.getLast (x :: y :: l') (List.cons_ne_nil x (y :: l')) =
        List.getLast (y :: l') (List.cons_ne_nil y l') := by
      rw [List.getLast_cons (List.cons_ne_nil y l')]
    rw [hlast]
    rcases List.mem_cons.mp hv with rfl | hv
    · exact Relation.ReflTransGen.head ⟨hch.1, hC y (by simp)⟩
        (ih y hch.2 hC' y (by simp))
    · exact ih y hch.2 hC' v hv

theorem chain_pred (g : Graph) (C : List Int) :
    ∀ (l : List Int) (x : Int), List.Chain (EdgeStep g) x l →
      (∀ y ∈ x :: l, y ∈ C) → ∀ v ∈ l,
      ∃ u ∈ x :: l, EdgeStep g u v ∧
        Relation.ReflTransGen (fun a b => EdgeStep g a b ∧ b ∈ C) x u := by
  intro l
  induction l with
  | nil =>
    intro x _ _ v hv
    simp at hv
  | cons y l' ih =>
    intro x hch hC v hv
    rw [List.chain_cons] at hch
    have hC' : ∀ z ∈ y :: l', z ∈ C := fun z hz => hC z (List.mem_cons_of_mem _ hz)
    rcases List.mem_cons.mp hv with rfl | hv
    · exact ⟨x, by simp, hch.1, Relation.ReflTransGen.refl⟩
    · obtain ⟨u, hu, hue, hur⟩ := ih y hch.2 hC' v hv
      exact ⟨u, List.mem_cons_of_mem _ hu, hue,
        Relation.ReflTransGen.head ⟨hch.1, hC y (by simp)⟩ hur⟩

theorem chain_targets_mem {g : Graph} (hwf : g.WF) :
    ∀ (l : List Int) (x : Int), List.Chain (EdgeStep g) x l →
      ∀ y ∈ l, y ∈ g.all_vertices := by
  intro l
  induction l with
  | nil =>
    intro x _ y hy
    simp at hy
  | cons z l' ih =>
    intro x hch y hy
    rw [List.chain_cons] at hch
    rcases List.mem_cons.mp hy with rfl | hy
    · exact edgeStep_target_mem hwf hch.1
    · exact ih z hch.2 y hy

/-- Every directed cycle yields a closed walk, as a nonempty vertex list
within the graph. -/
theorem hasCycle_onCycle {g : Graph} (hwf : g.WF) (h : HasCycle g) :
    ∃ C : List Int, C ≠ [] ∧ (∀ x ∈ C, x ∈ g.all_vertices) ∧ OnCycle g C := by
  obtain ⟨a, b, hab, hba⟩ := h
  obtain ⟨l, hch, hlast⟩ := List.exists_chain_of_relationReflTransGen hba
  refine ⟨b :: l, List.cons_ne_nil _ _, ?_, ?_⟩
  · intro x hx
    rcases List.mem_cons.mp hx with rfl | hx
    · exact edgeStep_target_mem hwf hab
    · exact chain_targets_mem hwf l b hch x hx
  · intro v hv
    have hCmem : ∀ y ∈ b :: l, y ∈ b :: l := fun y hy => hy
    rcases List.mem_cons.mp hv with rfl | hvl
    · refine ⟨List.getLast (v :: l) (List.cons_ne_nil v l), List.getLast_mem _, ?_, ?_⟩
      · rw [hlast]
        exact hab
      · exact chain_reach_last g (v :: l) l v hch hCmem v (by simp)
    · obtain ⟨u, hu, hue, hur⟩ := chain_pred g (b :: l) l b hch hCmem v hvl
      refine ⟨u, hu, hue, ?_⟩
      have h1 := chain_reach_last g (b :: l) l b hch hCmem v (List.mem_cons_of_mem _ hvl)
      have h2 : EdgeStep g (List.getLast (b :: l) (List.cons_ne_nil b l)) b := by
        rw [hlast]
        exact hab
      exact Relation.ReflTransGen.trans h1
        (Relation.ReflTransGen.head ⟨h2, by simp⟩ hur)

/-- A `false`-returning detecting-DFS frame that starts with every
closed-walk vertex unvisited leaves every one of them unvisited: touching
the walk would force a back edge and a `true` verdict. -/
theorem dfsDetect_fresh (g : Graph) (hwf : g.WF) {C : List Int} (hOnC : OnCycle g C) :
    ∀ (fuel : Nat) (v : Int) (st : DetSt),
      (∀ x ∈ st.ancestors, x ∈ st.visited) →
      (∀ a ∈ st.ancestors, Reach g a v) →
      v ∉ st.visited → v ∈ g.all_vertices →
      unvisCount g st.visited < fuel →
      (∀ c ∈ C, c ∉ st.visited) →
      (dfsDetect g fuel v st).1 = false →
      ∀ c ∈ C, c ∉ (dfsDetect g fuel v st).2.visited := by
  intro fuel
  induction fuel with
  | zero =>
    intro v st _ _ _ _ hfuel
    omega
  | succ f ihf =>
    intro v st hsub hanc hv hvg hfuel hC hres
    by_cases hvC : v ∈ C
    · -- the root is on the closed walk: the whole walk gets visited and
      -- the edge closing it back to the root is a back edge
      exfalso
      obtain ⟨hroot, hBC⟩ := dfsDetect_BC g hwf (f + 1) v st hsub hanc hv hvg hfuel hres
      obtain ⟨u, huC, hedge, hreach⟩ := hOnC v hvC
      have hPu : u ∈ (dfsDetect g (f + 1) v st).2.visited ∧ u ∉ st.visited := by
        refine reflTransGen_closed
          (P := fun z => z ∈ (dfsDetect g (f + 1) v st).2.visited ∧ z ∉ st.visited)
          ?_ hreach ⟨hroot, hv⟩
        intro x y hxy hx
        obtain ⟨c1, _, _⟩ := hBC x hx.1 hx.2 y hxy.1
        exact ⟨c1, hC y hxy.2⟩
      obtain ⟨_, _, hne⟩ := hBC u hPu.1 hPu.2 v hedge
      exact hne rfl
    · -- the root is off the walk: no sub-call may touch it either
      have hvanc : v ∉ st.ancestors := fun hc => hv (hsub v hc)
      set st1 : DetSt :=
        { st with visited := visInsert v st.visited, ancestors := visInsert v st.ancestors }
        with hst1
      have hanc1 : st1.ancestors = st.ancestors ++ [v] := by
        show visInsert v st.ancestors = _
        unfold visInsert
        rw [if_neg hvanc]
      have hvis1mem : ∀ x, x ∈ st1.visited ↔ x ∈ st.visited ∨ x = v := by
        intro x
        show x ∈ visInsert v st.visited ↔ _
        rw [mem_visInsert]
      have hsub1 : ∀ x ∈ st1.ancestors, x ∈ st1.visited := by
        intro x hx
        rw [hanc1] at hx
        rw [hvis1mem]
        rcases List.mem_append.mp hx with hx | hx
        · exact Or.inl (hsub x hx)
        · exact Or.inr (by simpa using hx)
      have hC1 : ∀ c ∈ C, c ∉ st1.visited := by
        intro c hc
        rw [hvis1mem]
        push_neg
        exact ⟨hC c hc, fun hcv => hvC (hcv ▸ hc)⟩
      have inner : ∀ (es : List Edge), (∀ e ∈ es, e ∈ g.edges v) →
          ∀ (acc : Bool × DetSt),
          (acc.1 = false →
            acc.2.ancestors = st.ancestors ++ [v] ∧
            (∀ x ∈ st1.visited, x ∈ acc.2.visited) ∧
            (∀ x ∈ acc.2.ancestors, x ∈ acc.2.visited) ∧
            (∀ c ∈ C, c ∉ acc.2.visited)) →
          ((es.foldl (detStep g f v) acc).1 = false →
            ∀ c ∈ C, c ∉ (es.foldl (detStep g f v) acc).2.visited) := by
        intro es
        induction es with
        | nil =>
          intro _ acc h2 hresf
          exact (h2 hresf).2.2.2
        | cons e es' ihes =>
          intro hes acc h2
          have hee : e ∈ g.edges v := hes e (List.mem_cons_self _ _)
          have hestep : EdgeStep g v e.w := (edgeStep_iff_edges hwf v e.w).mpr ⟨e, hee, rfl⟩
          have hes' : ∀ x ∈ es', x ∈ g.edges v :=
            fun x hx => hes x (List.mem_cons_of_mem _ hx)
          rw [List.foldl_cons]
          by_cases hacc : acc.1 = true
          · rw [show detStep g f v acc e = acc from by unfold detStep; rw [if_pos hacc]]
            intro hresf
            rw [detStep_keep_true g f v es' acc hacc] at hresf
            simp at hresf
          · have haccf : acc.1 = false := by simpa using hacc
            obtain ⟨a1, a2, a3, a4⟩ := h2 haccf
            by_cases hw1 : e.w ∈ acc.2.visited
            · by_cases hw2 : e.w ∈ acc.2.ancestors
              · rw [show detStep g f v acc e = (true, acc.2) from by
                  unfold detStep
                  rw [if_neg (by simp [haccf]), if_pos hw1, if_pos hw2]]
                intro hresf
                rw [detStep_keep_true g f v es' (true, acc.2) rfl] at hresf
                simp at hresf
              · rw [show detStep g f v acc e = (false, acc.2) from by
                  unfold detStep
                  rw [if_neg (by simp [haccf]), if_pos hw1, if_neg hw2]]
                exact ihes hes' (false, acc.2) (fun _ => ⟨a1, a2, a3, a4⟩)
            · rw [show detStep g f v acc e =
                  dfsDetect g f e.w { acc.2 with parent := setI acc.2.parent e.w v } from by
                unfold detStep
                rw [if_neg (by simp [haccf]), if_neg hw1]]
              intro hresf
              set stp : DetSt := { acc.2 with parent := setI acc.2.parent e.w v } with hstp
              by_cases hsubres : (dfsDetect g f e.w stp).1 = true
              · rw [detStep_keep_true g f v es' _ hsubres] at hresf
                simp at hresf
              · have hsubf : (dfsDetect g f e.w stp).1 = false := by simpa using hsubres
                have hsubp : ∀ x ∈ stp.ancestors, x ∈ stp.visited := a3
                have hwancp : e.w ∉ stp.ancestors := fun hc => hw1 (a3 e.w hc)
                have hancp : ∀ a ∈ stp.ancestors, Reach g a e.w := by
                  intro a ha
                  have ha' : a ∈ st.ancestors ++ [v] := a1 ▸ ha
                  rcases List.mem_append.mp ha' with ha' | ha'
                  · exact Relation.ReflTransGen.tail (hanc a ha') hestep
                  · have hav : a = v := by simpa using ha'
                    exact hav ▸ Relation.ReflTransGen.single hestep
                have hwg : e.w ∈ g.all_vertices := by
                  have := hwf.2.2.2 e (Graph.mem_edges_sub_all_edges g v hee)
                  exact this.2
                have hfuelp : unvisCount g stp.visited < f := by
                  have hmono : ∀ x, x ∈ st.visited → x ∈ stp.visited := by
                    intro x hx
                    exact a2 x ((hvis1mem x).mpr (Or.inl hx))
                  have hvstp : v ∈ stp.visited := a2 v ((hvis1mem v).mpr (Or.inr rfl))
                  have hlt := unvisCount_lt hmono hvg hv hvstp
                  omega
                have hCsub := ihf e.w stp hsubp hancp hw1 hwg hfuelp a4 hsubf
                have hpost := dfsDetect_spec g hwf f e.w stp hsubp hwancp hancp
                obtain ⟨hancr, hmonor, hsubr⟩ := hpost.2 hsubf
                have hstep2 : dfsDetect g f e.w stp =
                    (false, (dfsDetect g f e.w stp).2) := by
                  rw [← hsubf]
                have hnext : (false, (dfsDetect g f e.w stp).2).1 = false →
                    (dfsDetect g f e.w stp).2.ancestors = st.ancestors ++ [v] ∧
                    (∀ x ∈ st1.visited, x ∈ (dfsDetect g f e.w stp).2.visited) ∧
                    (∀ x ∈ (dfsDetect g f e.w stp).2.ancestors,
                      x ∈ (dfsDetect g f e.w stp).2.visited) ∧
                    (∀ c ∈ C, c ∉ (dfsDetect g f e.w stp).2.visited) := by
                  intro _
                  refine ⟨by rw [hancr]; exact a1, ?_, hsubr, hCsub⟩
                  intro x hx
                  exact hmonor x (a2 x hx)
                have := ihes hes' (false, (dfsDetect g f e.w stp).2) hnext
                  (by rw [← hstep2]; exact hresf)
                rw [hstep2]
                exact this
      by_cases hrt : ((g.edges v).foldl (detStep g f v) (false, st1)).1 = true
      · exfalso
        have heq : dfsDetect g (f + 1) v st =
            (g.edges v).foldl (detStep g f v) (false, st1) := by
          rw [dfsDetect_succ]
          simp [hrt]
        rw [heq, hrt] at hres
        simp at hres
      · have hrff : ((g.edges v).foldl (detStep g f v) (false, st1)).1 = false := by
          simpa using hrt
        have hCfin := inner (g.edges v) (fun e he => he) (false, st1)
          (fun _ => ⟨hanc1, fun x hx => hx, hsub1, hC1⟩) hrff
        have heq : dfsDetect g (f + 1) v st =
            (false, { ((g.edges v).foldl (detStep g f v) (false, st1)).2 with
              ancestors := (((g.edges v).foldl (detStep g f v)
                (false, st1)).2.ancestors).erase v }) := by
          rw [dfsDetect_succ]
          simp [hrff]
        rw [heq]
        exact hCfin

/-- The root-scanning step of `dfs_detect_cycle`, named for the proofs
below; `dfs_detect_cycle g` folds exactly this function over the vertex
list. -/
def detDrive (g : Graph) (acc : Bool × List Int) (v : Int) : Bool × List Int :=
  if acc.1 then acc
  else if v ∈ acc.2 then acc
  else
    let r := dfsDetect g (g.all_vertices.length + 1) v
      { visited := acc.2, ancestors := [], parent := [] }
    (r.1, r.2.visited)

theorem dfs_detect_cycle_eq (g : Graph) :
    dfs_detect_cycle g = (g.all_vertices.foldl (detDrive g) (false, [])).1 := rfl

theorem detDrive_keep_true (g : Graph) :
    ∀ (vs : List Int) (acc : Bool × List Int), acc.1 = true →
      (vs.foldl (detDrive g) acc).1 = true := by
  intro vs
  induction vs with
  | nil => intro acc ha; exact ha
  | cons v vs' ih =>
    intro acc ha
    rw [List.foldl_cons, show detDrive g acc v = acc from by
      unfold detDrive; rw [if_pos ha]]
    exact ih acc ha

/-- Once the driver's scan reaches a closed-walk vertex that is still
unvisited, the verdict is `true`: the frame rooted there cannot return
`false` without leaving the walk untouched, yet it visits its root. -/
theorem detDrive_hits_cycle (g : Graph) (hwf : g.WF) {C : List Int} (hOnC : OnCycle g C)
    {b : Int} (hb : b ∈ C) :
    ∀ (vs : List Int) (acc : Bool × List Int), (∀ x ∈ vs, x ∈ g.all_vertices) →
      acc.1 = false → (∀ c ∈ C, c ∉ acc.2) → b ∈ vs →
      (vs.foldl (detDrive g) acc).1 = true := by
  intro vs
  induction vs with
  | nil =>
    intro acc _ _ _ hbv
    simp at hbv
  | cons v vs' ih =>
    intro acc hvs haccf hCd hbv
    rw [List.foldl_cons]
    have hvg : v ∈ g.all_vertices := hvs v (List.mem_cons_self _ _)
    have hvs' : ∀ x ∈ vs', x ∈ g.all_vertices :=
      fun x hx => hvs x (List.mem_cons_of_mem _ hx)
    by_cases hbveq : v = b
    · subst hbveq
      have hvnot : v ∉ acc.2 := hCd v hb
      rw [show detDrive g acc v =
          ((dfsDetect g (g.all_vertices.length + 1) v
            { visited := acc.2, ancestors := [], parent := [] }).1,
           (dfsDetect g (g.all_vertices.length + 1) v
            { visited := acc.2, ancestors := [], parent := [] }).2.visited) from by
        unfold detDrive
        rw [if_neg (by simp [haccf]), if_neg hvnot]]
      by_cases hr : (dfsDetect g (g.all_vertices.length + 1) v
          { visited := acc.2, ancestors := [], parent := [] }).1 = true
      · exact detDrive_keep_true g vs' _ hr
      · exfalso
        have hrf : (dfsDetect g (g.all_vertices.length + 1) v
            { visited := acc.2, ancestors := [], parent := [] }).1 = false := by
          simpa using hr
        have hfuel : unvisCount g acc.2 < g.all_vertices.length + 1 := by
          have := unvisCount_le_length g acc.2
          omega
        have hBC := dfsDetect_BC g hwf (g.all_vertices.length + 1) v
          { visited := acc.2, ancestors := [], parent := [] }
          (by intro x hx; simp at hx) (by intro a ha; simp at ha) hvnot hvg hfuel hrf
        have hFresh := dfsDetect_fresh g hwf hOnC (g.all_vertices.length + 1) v
          { visited := acc.2, ancestors := [], parent := [] }
          (by intro x hx; simp at hx) (by intro a ha; simp at ha) hvnot hvg hfuel hCd hrf
        exact hFresh v hb hBC.1
    · have hbv' : b ∈ vs' := by
        rcases List.mem_cons.mp hbv with h1 | h1
        · exact absurd h1.symm hbveq
        · exact h1
      by_cases hvv : v ∈ acc.2
      · rw [show detDrive g acc v = acc from by
          unfold detDrive
          rw [if_neg (by simp [haccf]), if_pos hvv]]
        exact ih acc hvs' haccf hCd hbv'
      · rw [show detDrive g acc v =
            ((dfsDetect g (g.all_vertices.length + 1) v
              { visited := acc.2, ancestors := [], parent := [] }).1,
             (dfsDetect g (g.all_vertices.length + 1) v
              { visited := acc.2, ancestors := [], parent := [] }).2.visited) from by
          unfold detDrive
          rw [if_neg (by simp [haccf]), if_neg hvv]]
        by_cases hr : (dfsDetect g (g.all_vertices.length + 1) v
            { visited := acc.2, ancestors := [], parent := [] }).1 = true
        · exact detDrive_keep_true g vs' _ hr
        · have hrf : (dfsDetect g (g.all_vertices.length + 1) v
              { visited := acc.2, ancestors := [], parent := [] }).1 = false := by
            simpa using hr
          have hfuel : unvisCount g acc.2 < g.all_vertices.length + 1 := by
            have := unvisCount_le_length g acc.2
            omega
          have hFresh := dfsDetect_fresh g hwf hOnC (g.all_vertices.length + 1) v
            { visited := acc.2, ancestors := [], parent := [] }
            (by intro x hx; simp at hx) (by intro a ha; simp at ha) hvv hvg hfuel hCd hrf
          exact ih _ hvs' hrf hFresh hbv'

/-- Completeness of the cycle check: every directed cycle is reported. -/
theorem dfs_detect_cycle_complete (g : Graph) (hwf : g.WF) (h : HasCycle g) :
    dfs_detect_cycle g = true := by
  obtain ⟨C, hne, hCV, hOnC⟩ := hasCycle_onCycle hwf h
  obtain ⟨b, hb⟩ := List.exists_mem_of_ne_nil C hne
  rw [dfs_detect_cycle_eq]
  exact detDrive_hits_cycle g hwf hOnC hb g.all_vertices (false, [])
    (fun x hx => hx) rfl (by intro c _ hc; simp at hc) (hCV b hb)

/-! ### The Kahn indegree model (for C7) -/

/-- Reference indegree: stored edges into `x` whose source is not yet
removed (not in `S`). -/
def inCount (g : Graph) (S : List Int) (x : Int) : Int :=
  (((g.all_edges).filter (fun e => e.w == x && decide (e.v ∉ S))).length : Int)

theorem inCount_nonneg (g : Graph) (S : List Int) (x : Int) : 0 ≤ inCount g S x :=
  Int.natCast_nonneg _

theorem inCount_zero_sources {g : Graph} {S : List Int} {x : Int}
    (h : inCount g S x = 0) : ∀ a, EdgeStep g a x → a ∈ S := by
  intro a ha
  by_contra hna
  obtain ⟨e, he, hv, hw⟩ := ha
  have hlen : ((g.all_edges).filter (fun e => e.w == x && decide (e.v ∉ S))).length = 0 := by
    have h' : ((((g.all_edges).filter
        (fun e => e.w == x && decide (e.v ∉ S))).length : Int)) = 0 := h
    exact_mod_cast h'
  have hnil := List.length_eq_zero.mp hlen
  have hmem : e ∈ (g.all_edges).filter (fun e => e.w == x && decide (e.v ∉ S)) := by
    rw [List.mem_filter]
    refine ⟨he, ?_⟩
    simp [hw, hv, hna]
  rw [hnil] at hmem
  simp at hmem

theorem filter_split_length (p q : Edge → Bool) :
    ∀ (l : List Edge),
      (l.filter (fun e => p e && q e)).length +
        (l.filter (fun e => p e && !q e)).length = (l.filter p).length := by
  intro l
  induction l with
  | nil => simp
  | cons a t ih =>
    by_cases hp : p a = true
    · by_cases hq : q a = true
      · simp [List.filter_cons, hp, hq]
        omega
      · have hq' : q a = false := by simpa using hq
        simp [List.filter_cons, hp, hq']
        omega
    · have hp' : p a = false := by simpa using hp
      simp [List.filter_cons, hp']
      exact ih

/-- Under well-formedness, filtering all stored edges by source `v` gives
exactly the adjacency bucket of `v`. -/
theorem filter_src_eq :
    ∀ (m : List (Int × List Edge)),
      (∀ p ∈ m, ∀ e ∈ p.2, e.v = p.1) → (m.map Prod.fst).Pairwise (· < ·) →
      ∀ v, ((m.map (fun p => p.2)).flatten.filter (fun e => e.v == v)) =
        (mapFind m v).getD [] := by
  intro m
  induction m with
  | nil =>
    intro _ _ v
    simp [mapFind]
  | cons q m' ih =>
    obtain ⟨k, es⟩ := q
    intro hsrc hpw v
    have hsrc' : ∀ p ∈ m', ∀ e ∈ p.2, e.v = p.1 :=
      fun p hp => hsrc p (List.mem_cons_of_mem _ hp)
    have hpw' : (m'.map Prod.fst).Pairwise (· < ·) := by
      rw [List.map_cons, List.pairwise_cons] at hpw
      exact hpw.2
    have hkey : ∀ k' ∈ m'.map Prod.fst, k < k' := by
      rw [List.map_cons, List.pairwise_cons] at hpw
      exact hpw.1
    have hhd : ∀ e ∈ es, e.v = k := hsrc (k, es) (List.mem_cons_self _ _)
    rw [List.map_cons, List.flatten_cons, List.filter_append]
    by_cases hkv : k = v
    · subst hkv
      have h1 : es.filter (fun e => e.v == k) = es := by
        apply List.filter_eq_self.mpr
        intro e he
        simp [hhd e he]
      have h2 : (m'.map (fun p => p.2)).flatten.filter (fun e => e.v == k) = [] := by
        apply List.filter_eq_nil_iff.mpr
        intro e he
        rw [List.mem_flatten] at he
        obtain ⟨b, hb, heb⟩ := he
        obtain ⟨p, hp, rfl⟩ := List.mem_map.mp hb
        have hev : e.v = p.1 := hsrc' p hp e heb
        have hlt : k < p.1 := hkey p.1 (List.mem_map.mpr ⟨p, hp, rfl⟩)
        simp [hev]
        omega
      rw [h1, h2]
      have hfind : mapFind ((k, es) :: m') k = some es := by
        unfold mapFind
        simp [List.find?]
      rw [hfind]
      simp
    · have h1 : es.filter (fun e => e.v == v) = [] := by
        apply List.filter_eq_nil_iff.mpr
        intro e he
        simp [hhd e he]
        exact hkv
      have hfind : mapFind ((k, es) :: m') v = mapFind m' v := by
        unfold mapFind
        have hb : (k == v) = false := by simpa using hkv
        simp [List.find?, hb]
      rw [h1, hfind, List.nil_append]
      exact ih hsrc' hpw' v

/-- Removing one more (not previously removed) source `v` lowers each
reference indegree by the number of stored `v`-sourced edges into the
vertex. -/
theorem inCount_pop (g : Graph) (hwf : g.WF) (S : List Int) (v : Int) (hv : v ∉ S)
    (x : Int) :
    inCount g (S ++ [v]) x =
      inCount g S x - (((g.edges v).filter (fun e => e.w == x)).length : Int) := by
  have hsplit := filter_split_length (fun e => e.w == x && decide (e.v ∉ S))
    (fun e => e.v == v) g.all_edges
  have hpq : (g.all_edges.filter
      (fun e => (e.w == x && decide (e.v ∉ S)) && (e.v == v))) =
      (g.all_edges.filter (fun e => (e.w == x) && (e.v == v))) := by
    apply List.filter_congr
    intro e _
    by_cases h1 : e.v = v
    · simp [h1, hv]
    · have hb : (e.v == v) = false := by simpa using h1
      simp [hb]
  have hpnq : (g.all_edges.filter
      (fun e => (e.w == x && decide (e.v ∉ S)) && !(e.v == v))) =
      (g.all_edges.filter (fun e => e.w == x && decide (e.v ∉ S ++ [v]))) := by
    apply List.filter_congr
    intro e _
    by_cases h1 : e.v = v
    · simp [h1, List.mem_append]
    · by_cases h2 : e.v ∈ S
      · simp [h1, h2, List.mem_append]
      · simp [h1, h2, List.mem_append]
  have hcnt : (g.all_edges.filter (fun e => (e.w == x) && (e.v == v))) =
      ((g.edges v).filter (fun e => e.w == x)) := by
    have hsrc := filter_src_eq g.adj_list hwf.2.2.1 hwf.2.1 v
    calc (g.all_edges.filter (fun e => (e.w == x) && (e.v == v)))
        = ((g.all_edges.filter (fun e => e.v == v)).filter (fun e => e.w == x)) :=
          (List.filter_filter _ _).symm
      _ = ((g.edges v).filter (fun e => e.w == x)) := by
          show ((((g.adj_list.map (fun p => p.2)).flatten).filter
            (fun e => e.v == v)).filter (fun e => e.w == x)) = _
          rw [hsrc]
          rfl
  unfold inCount
  rw [hpq, hpnq, hcnt] at hsplit
  omega

/-- The code's indegree table equals the reference indegree with nothing
removed. -/
theorem kahn_indegree_eq (g : Graph) (x : Int) :
    kahn_indegree g x = inCount g [] x := by
  have hzero : ∀ (vs : List Int) (d : Int → Int), (∀ y, d y = 0) →
      ∀ y, (vs.foldl (fun d v => fun x => if x = v then 0 else d x) d) y = 0 := by
    intro vs
    induction vs with
    | nil => intro d hd y; exact hd y
    | cons v vs' ih =>
      intro d hd y
      rw [List.foldl_cons]
      refine ih _ ?_ y
      intro z
      by_cases hz : z = v
      · simp [hz]
      · simp [hz, hd z]
  have hadd : ∀ (es : List Edge) (d : Int → Int) (y : Int),
      (es.foldl (fun d e => fun x => if x = e.w then d e.w + 1 else d x) d) y =
        d y + ((es.filter (fun e => e.w == y)).length : Int) := by
    intro es
    induction es with
    | nil =>
      intro d y
      simp
    | cons e es' ih =>
      intro d y
      rw [List.foldl_cons, ih]
      by_cases hy : e.w = y
      · have hb : (e.w == y) = true := by simpa using hy
        rw [List.filter_cons, hb]
        subst hy
        simp
        omega
      · have hb : (e.w == y) = false := by simpa using hy
        rw [List.filter_cons, hb]
        have hyne : ¬ y = e.w := fun h => hy h.symm
        simp [hyne]
  have hdef : kahn_indegree g x =
      (g.all_edges.foldl (fun d e => fun x => if x = e.w then d e.w + 1 else d x)
        (g.all_vertices.foldl (fun d v => fun x => if x = v then 0 else d x)
          (fun _ => 0))) x := rfl
  rw [hdef, hadd]
  have hz := hzero g.all_vertices (fun _ => 0) (fun _ => rfl) x
  rw [hz]
  unfold inCount
  have : (g.all_edges.filter (fun e => e.w == x && decide (e.v ∉ ([] : List Int)))) =
      (g.all_edges.filter (fun e => e.w == x)) := by
    apply List.filter_congr
    intro e _
    simp
  rw [this]
  simp

/-- The edge-processing step of `kahn_loop`, named for the proofs below:
decrement the target's indegree and enqueue it when it reaches zero. -/
def kahnStep (st : (Int → Int) × List Int) (e : Edge) : (Int → Int) × List Int :=
  let d' := fun x => if x = e.w then st.1 e.w - 1 else st.1 x
  if d' e.w = 0 then (d', st.2 ++ [e.w]) else (d', st.2)

theorem kahn_loop_zero (g : Graph) (q : List Int) (indeg : Int → Int)
    (order : List Int) : kahn_loop g 0 q indeg order = order := rfl

theorem kahn_loop_nil (g : Graph) (f : Nat) (indeg : Int → Int) (order : List Int) :
    kahn_loop g (f + 1) [] indeg order = order := rfl

theorem kahn_loop_succ (g : Graph) (f : Nat) (v : Int) (q' : List Int)
    (indeg : Int → Int) (order : List Int) :
    kahn_loop g (f + 1) (v :: q') indeg order =
      kahn_loop g f ((g.edges v).foldl kahnStep (indeg, q')).2
        ((g.edges v).foldl kahnStep (indeg, q')).1 (order ++ [v]) := rfl

/-- What the edge scan of one popped vertex does: each indegree drops by
the number of scanned edges into it; the queue grows by fresh vertices
that had positive indegree; queued vertices end nonpositive; and every
vertex driven from positive to nonpositive was enqueued. -/
theorem kahn_fold_spec :
    ∀ (es : List Edge) (d : Int → Int) (q : List Int),
      (∀ x ∈ q, d x ≤ 0) → q.Nodup →
      (∀ x, (es.foldl kahnStep (d, q)).1 x
          = d x - ((es.filter (fun e => e.w == x)).length : Int)) ∧
      (∃ Δ, (es.foldl kahnStep (d, q)).2 = q ++ Δ ∧
        (∀ x ∈ Δ, 0 < d x) ∧ (∀ x ∈ Δ, ∃ e ∈ es, e.w = x)) ∧
      (∀ x ∈ (es.foldl kahnStep (d, q)).2, (es.foldl kahnStep (d, q)).1 x ≤ 0) ∧
      (es.foldl kahnStep (d, q)).2.Nodup ∧
      (∀ x, 0 < d x → (es.foldl kahnStep (d, q)).1 x ≤ 0 →
        x ∈ (es.foldl kahnStep (d, q)).2) := by
  intro es
  induction es with
  | nil =>
    intro d q h1 h2
    refine ⟨fun x => by simp, ⟨[], by simp, by simp, by simp⟩, h1, h2, ?_⟩
    intro x hx hx2
    have hx2' : d x ≤ 0 := hx2
    omega
  | cons e es' ih =>
    intro d q h1 h2
    rw [List.foldl_cons]
    set d' : Int → Int := fun x => if x = e.w then d e.w - 1 else d x with hd'
    have hd'eq : ∀ x, d' x = if x = e.w then d e.w - 1 else d x := fun x => rfl
    have hd'ew : d' e.w = d e.w - 1 := by rw [hd'eq]; simp
    have hd'le : ∀ x, d' x ≤ d x := by
      intro x
      rw [hd'eq]
      by_cases hx : x = e.w
      · subst hx
        simp
      · simp [hx]
    have hred : kahnStep (d, q) e = if d' e.w = 0 then (d', q ++ [e.w]) else (d', q) := rfl
    by_cases hc : d' e.w = 0
    · rw [hred, if_pos hc]
      have hnew : e.w ∉ q := by
        intro hwq
        have := h1 e.w hwq
        omega
      have h1' : ∀ x ∈ q ++ [e.w], d' x ≤ 0 := by
        intro x hx
        rcases List.mem_append.mp hx with hx | hx
        · exact le_trans (hd'le x) (h1 x hx)
        · have hxw : x = e.w := by simpa using hx
          rw [hxw, hc]
      have h2' : (q ++ [e.w]).Nodup := by
        rw [List.nodup_append]
        exact ⟨h2, List.nodup_singleton _, by
          intro x hx
          simp
          intro hxw
          exact hnew (hxw ▸ hx)⟩
      obtain ⟨a, ⟨Δ', hΔ', hΔpos, hΔtg⟩, c, dd, ee⟩ := ih d' (q ++ [e.w]) h1' h2'
      refine ⟨?_, ⟨e.w :: Δ', ?_, ?_, ?_⟩, c, dd, ?_⟩
      · intro x
        rw [a x, hd'eq]
        by_cases hx : x = e.w
        · subst hx
          rw [List.filter_cons]
          simp
          omega
        · have hb : (e.w == x) = false := by
            simp
            exact fun h => hx h.symm
          rw [List.filter_cons, hb]
          simp [hx]
      · rw [hΔ', List.append_assoc]
        rfl
      · intro x hx
        rcases List.mem_cons.mp hx with rfl | hx
        · omega
        · have := hΔpos x hx
          have := hd'le x
          omega
      · intro x hx
        rcases List.mem_cons.mp hx with rfl | hx
        · exact ⟨e, List.mem_cons_self _ _, rfl⟩
        · obtain ⟨e2, he2, hw2⟩ := hΔtg x hx
          exact ⟨e2, List.mem_cons_of_mem _ he2, hw2⟩
      · intro x hx hx2
        by_cases hxw : x = e.w
        · subst hxw
          rw [hΔ']
          exact List.mem_append_left _ (List.mem_append_right _ (by simp))
        · refine ee x ?_ hx2
          rw [hd'eq]
          simp [hxw]
          exact hx
    · rw [hred, if_neg hc]
      have h1'' : ∀ x ∈ q, d' x ≤ 0 := fun x hx => le_trans (hd'le x) (h1 x hx)
      obtain ⟨a, ⟨Δ', hΔ', hΔpos, hΔtg⟩, c, dd, ee⟩ := ih d' q h1'' h2
      refine ⟨?_, ⟨Δ', hΔ', ?_, ?_⟩, c, dd, ?_⟩
      · intro x
        rw [a x, hd'eq]
        by_cases hx : x = e.w
        · subst hx
          rw [List.filter_cons]
          simp
          omega
        · have hb : (e.w == x) = false := by
            simp
            exact fun h => hx h.symm
          rw [List.filter_cons, hb]
          simp [hx]
      · intro x hx
        have := hΔpos x hx
        have := hd'le x
        omega
      · intro x hx
        obtain ⟨e2, he2, hw2⟩ := hΔtg x hx
        exact ⟨e2, List.mem_cons_of_mem _ he2, hw2⟩
      · intro x hx hx2
        by_cases hxw : x = e.w
        · by_cases hpos : 0 < d' x
          · exact ee x hpos hx2
          · exfalso
            have hda : d' x = d x - 1 := by
              rw [hd'eq, if_pos hxw, hxw]
            have hcx : ¬ d' x = 0 := by
              rw [hxw]
              exact hc
            omega
        · refine ee x ?_ hx2
          rw [hd'eq]
          simp [hxw]
          exact hx

/-- In an acyclic well-formed graph, the remaining vertices cannot all
retain an incoming edge from a remaining source: following such
predecessors forever inside a finite vertex set would close a cycle. -/
theorem acyclic_stuck (g : Graph) (hwf : g.WF) (hnc : ¬ HasCycle g)
    (order : List Int) {x0 : Int} (hx0 : x0 ∈ g.vertices) (hx0o : x0 ∉ order)
    (hall : ∀ u ∈ g.vertices, u ∉ order → 0 < inCount g order u) : False := by
  have hpred : ∀ u, ∃ a, (u ∈ g.vertices ∧ u ∉ order) →
      ((a ∈ g.vertices ∧ a ∉ order) ∧ EdgeStep g a u) := by
    intro u
    by_cases hu : u ∈ g.vertices ∧ u ∉ order
    · have hpos := hall u hu.1 hu.2
      have hne : ((g.all_edges.filter
          (fun e => e.w == u && decide (e.v ∉ order)))) ≠ [] := by
        intro hnil
        unfold inCount at hpos
        rw [hnil] at hpos
        simp at hpos
      obtain ⟨e, he⟩ := List.exists_mem_of_ne_nil _ hne
      rw [List.mem_filter] at he
      obtain ⟨hea, heb⟩ := he
      simp at heb
      exact ⟨e.v, fun _ => ⟨⟨(hwf.2.2.2 e hea).1, heb.2⟩, ⟨e, hea, rfl, heb.1⟩⟩⟩
    · exact ⟨u, fun hc => absurd hc hu⟩
  choose f hf using hpred
  have hstuck : ∀ k, (f^[k] x0 ∈ g.vertices ∧ f^[k] x0 ∉ order) := by
    intro k
    induction k with
    | zero => exact ⟨hx0, hx0o⟩
    | succ n ihn =>
      rw [Function.iterate_succ_apply']
      exact (hf (f^[n] x0) ihn).1
  have hstep : ∀ k, EdgeStep g (f^[k + 1] x0) (f^[k] x0) := by
    intro k
    rw [Function.iterate_succ_apply']
    exact (hf (f^[k] x0) (hstuck k)).2
  have hdown : ∀ a k, Reach g (f^[a + k] x0) (f^[a] x0) := by
    intro a k
    induction k with
    | zero => exact Relation.ReflTransGen.refl
    | succ n ihn =>
      have hx : a + (n + 1) = (a + n) + 1 := rfl
      rw [hx]
      exact Relation.ReflTransGen.head (hstep (a + n)) ihn
  have hcard : (g.vertices.toFinset).card <
      (Finset.univ : Finset (Fin (g.vertices.length + 1))).card := by
    rw [Finset.card_univ, Fintype.card_fin]
    have := g.vertices.toFinset_card_le
    omega
  obtain ⟨i, _, j, _, hij, hmap⟩ := Finset.exists_ne_map_eq_of_card_lt_of_maps_to hcard
    (fun (k : Fin (g.vertices.length + 1)) _ => List.mem_toFinset.mpr (hstuck k.val).1)
  have key : ∀ (a b : Nat), a < b → f^[a] x0 = f^[b] x0 → False := by
    intro a b hab heq
    apply hnc
    refine ⟨f^[a + 1] x0, f^[a] x0, hstep a, ?_⟩
    have hb : b = (a + 1) + (b - a - 1) := by omega
    have hr := hdown (a + 1) (b - a - 1)
    rw [← hb] at hr
    rw [heq]
    exact hr
  rcases lt_or_gt_of_ne (fun hv : i.val = j.val => hij (Fin.ext hv)) with h | h
  · exact key i.val j.val h hmap
  · exact key j.val i.val h hmap.symm

/-- The Kahn working-loop invariant: the indegree table tracks the
reference indegree with the output prefix removed, output and queue are
disjoint graph vertices whose tracked indegree is zero, every other
vertex still has a remaining in-edge, and the output has no edge from a
later to an earlier entry.  With enough fuel the loop then emits a
duplicate-free enumeration of all vertices in edge-respecting order. -/
theorem kahn_loop_spec (g : Graph) (hwf : g.WF) (hnc : ¬ HasCycle g) :
    ∀ (fuel : Nat) (q : List Int) (d : Int → Int) (order : List Int),
      (∀ x, d x = inCount g order x) →
      (order ++ q).Nodup →
      (∀ x ∈ order ++ q, x ∈ g.vertices) →
      (∀ x ∈ order ++ q, inCount g order x = 0) →
      (∀ x ∈ g.vertices, x ∉ order → x ∉ q → 0 < inCount g order x) →
      order.Pairwise (fun x y => ¬ EdgeStep g y x) →
      g.all_vertices.length - order.length < fuel →
      (∀ x, x ∈ kahn_loop g fuel q d order ↔ x ∈ g.vertices) ∧
      (kahn_loop g fuel q d order).Nodup ∧
      (kahn_loop g fuel q d order).Pairwise (fun x y => ¬ EdgeStep g y x) := by
  intro fuel
  induction fuel with
  | zero =>
    intro q d order _ _ _ _ _ _ hfuel
    omega
  | succ f ihf =>
    intro q d order hN1 hN2a hN2b hN3 hN4 hN5 hfuel
    cases q with
    | nil =>
      rw [kahn_loop_nil]
      refine ⟨?_, by simpa using hN2a, hN5⟩
      intro x
      constructor
      · intro hx
        exact hN2b x (List.mem_append_left _ hx)
      · intro hx
        by_contra hxo
        exact acyclic_stuck g hwf hnc order hx hxo
          (fun u hu huo => hN4 u hu huo (by simp))
    | cons v q' =>
      rw [kahn_loop_succ]
      have hvq : v ∈ order ++ v :: q' := List.mem_append_right _ (List.mem_cons_self _ _)
      have hvV : v ∈ g.vertices := hN2b v hvq
      have hsplit := List.nodup_append.mp hN2a
      have hvo : v ∉ order := fun hvo => hsplit.2.2 hvo (List.mem_cons_self _ _)
      have hvz : inCount g order v = 0 := hN3 v hvq
      have hq'sub : ∀ x ∈ q', d x ≤ 0 := by
        intro x hx
        rw [hN1 x]
        have := hN3 x (List.mem_append_right _ (List.mem_cons_of_mem _ hx))
        omega
      have hq'nd : q'.Nodup := (List.nodup_cons.mp hsplit.2.1).2
      have hvq' : v ∉ q' := (List.nodup_cons.mp hsplit.2.1).1
      obtain ⟨fa, ⟨Δ, hΔ, hΔpos, hΔtg⟩, fc, fd, fe⟩ :=
        kahn_fold_spec (g.edges v) d q' hq'sub hq'nd
      set res := (g.edges v).foldl kahnStep (d, q') with hres
      set order' := order ++ [v] with horder'
      have hpop : ∀ x, inCount g order' x =
          inCount g order x - (((g.edges v).filter (fun e => e.w == x)).length : Int) :=
        inCount_pop g hwf order v hvo
      have hN1' : ∀ x, res.1 x = inCount g order' x := by
        intro x
        rw [fa x, hN1 x, hpop x]
      have hord0 : ∀ x ∈ order', inCount g order x = 0 := by
        intro x hx
        rcases List.mem_append.mp hx with hx | hx
        · exact hN3 x (List.mem_append_left _ hx)
        · have hxv : x = v := by simpa using hx
          exact hxv ▸ hvz
      have hord0' : ∀ x ∈ order', inCount g order' x = 0 := by
        intro x hx
        have h1 := hord0 x hx
        have h2 := hpop x
        have h3 := inCount_nonneg g order' x
        omega
      have hq'0' : ∀ x ∈ q', inCount g order' x = 0 := by
        intro x hx
        have h1 := hN3 x (List.mem_append_right _ (List.mem_cons_of_mem _ hx))
        have h2 := hpop x
        have h3 := inCount_nonneg g order' x
        omega
      have hΔ0' : ∀ x ∈ Δ, inCount g order' x = 0 := by
        intro x hx
        have h1 := fc x (by rw [hΔ]; exact List.mem_append_right _ hx)
        rw [hN1' x] at h1
        have h3 := inCount_nonneg g order' x
        omega
      have hN3' : ∀ x ∈ order' ++ res.2, inCount g order' x = 0 := by
        intro x hx
        rcases List.mem_append.mp hx with hx | hx
        · exact hord0' x hx
        · rw [hΔ] at hx
          rcases List.mem_append.mp hx with hx | hx
          · exact hq'0' x hx
          · exact hΔ0' x hx
      have hΔd : ∀ x ∈ Δ, x ∉ order' ∧ x ∉ q' := by
        intro x hx
        have hpos := hΔpos x hx
        constructor
        · intro hxo
          have h1 := hord0 x hxo
          rw [hN1 x] at hpos
          omega
        · intro hxq
          have := hq'sub x hxq
          omega
      have hΔV : ∀ x ∈ Δ, x ∈ g.vertices := by
        intro x hx
        obtain ⟨e, he, hw⟩ := hΔtg x hx
        have := (hwf.2.2.2 e (Graph.mem_edges_sub_all_edges g v he)).2
        exact hw ▸ this
      have hN2a' : (order' ++ res.2).Nodup := by
        rw [hΔ]
        rw [List.nodup_append]
        refine ⟨?_, by rw [hΔ] at fd; exact fd, ?_⟩
        · rw [horder', List.nodup_append]
          refine ⟨hsplit.1, List.nodup_singleton _, ?_⟩
          intro a ha hav
          have : a = v := by simpa using hav
          exact hvo (this ▸ ha)
        · intro a ha hb
          rcases List.mem_append.mp ha with ha | ha
          · rcases List.mem_append.mp hb with hb | hb
            · exact hsplit.2.2 ha (List.mem_cons_of_mem _ hb)
            · exact (hΔd a hb).1 (List.mem_append_left _ ha)
          · have hav : a = v := by simpa using ha
            subst hav
            rcases List.mem_append.mp hb with hb | hb
            · exact hvq' hb
            · exact (hΔd a hb).1 (List.mem_append_right _ (by simp))
      have hN2b' : ∀ x ∈ order' ++ res.2, x ∈ g.vertices := by
        intro x hx
        rcases List.mem_append.mp hx with hx | hx
        · rcases List.mem_append.mp hx with hx | hx
          · exact hN2b x (List.mem_append_left _ hx)
          · have hxv : x = v := by simpa using hx
            exact hxv ▸ hvV
        · rw [hΔ] at hx
          rcases List.mem_append.mp hx with hx | hx
          · exact hN2b x (List.mem_append_right _ (List.mem_cons_of_mem _ hx))
          · exact hΔV x hx
      have hN4' : ∀ x ∈ g.vertices, x ∉ order' → x ∉ res.2 → 0 < inCount g order' x := by
        intro x hxV hxo hxr
        have hxo0 : x ∉ order := fun hc => hxo (List.mem_append_left _ hc)
        have hxv : x ≠ v := fun hc => hxo (List.mem_append_right _ (by simp [hc]))
        have hxq : x ∉ q' := fun hc => hxr (by rw [hΔ]; exact List.mem_append_left _ hc)
        have hold : 0 < inCount g order x := by
          refine hN4 x hxV hxo0 ?_
          intro hc
          rcases List.mem_cons.mp hc with hc | hc
          · exact hxv hc
          · exact hxq hc
        have hnn := inCount_nonneg g order' x
        rcases lt_or_eq_of_le hnn with h | h
        · exact h
        · exfalso
          have hdx : 0 < d x := by
            rw [hN1 x]
            exact hold
          have hr1 : res.1 x ≤ 0 := by
            rw [hN1' x]
            omega
          exact hxr (fe x hdx hr1)
      have hN5' : order'.Pairwise (fun x y => ¬ EdgeStep g y x) := by
        rw [horder', List.pairwise_append]
        refine ⟨hN5, List.pairwise_singleton _ _, ?_⟩
        intro x hxo y hy
        have hyv : y = v := by simpa using hy
        subst hyv
        intro hedge
        have := inCount_zero_sources (hN3 x (List.mem_append_left _ hxo)) y hedge
        exact hvo this
      have hlen : (order ++ v :: q').length ≤ g.vertices.length := by
        calc (order ++ v :: q').length = (order ++ v :: q').toFinset.card :=
              (List.toFinset_card_of_nodup hN2a).symm
          _ ≤ g.vertices.toFinset.card := Finset.card_le_card (by
              intro x hx
              rw [List.mem_toFinset] at hx ⊢
              exact hN2b x hx)
          _ ≤ g.vertices.length := g.vertices.toFinset_card_le
      have hfuel' : g.all_vertices.length - order'.length < f := by
        have hVeq : g.all_vertices.length = g.vertices.length := rfl
        have hol : order'.length = order.length + 1 := by
          rw [horder']
          simp
        rw [List.length_append, List.length_cons] at hlen
        omega
      exact ihf res.2 res.1 order' hN1' hN2a' hN2b' hN3' hN4' hN5' hfuel'

/-- On an acyclic graph (with the cycle pre-check passing), Kahn's
algorithm as coded yields a topological order. -/
theorem bfs_topo_acyclic {g : Graph} (hwf : g.WF) (hnc : ¬ HasCycle g)
    (hdet : dfs_detect_cycle g = false) :
    TopoOrder g (bfs_topological_sorting g) := by
  have hbfs : bfs_topological_sorting g =
      kahn_loop g (g.all_vertices.length + 1)
        (g.all_vertices.filter (fun v => kahn_indegree g v == 0))
        (kahn_indegree g) [] := by
    unfold bfs_topological_sorting
    rw [if_neg (by simp [hdet])]
  rw [hbfs]
  have hN1 : ∀ x, kahn_indegree g x = inCount g [] x := kahn_indegree_eq g
  obtain ⟨hmem, hnd, hpw⟩ := kahn_loop_spec g hwf hnc (g.all_vertices.length + 1)
    (g.all_vertices.filter (fun v => kahn_indegree g v == 0)) (kahn_indegree g) []
    hN1
    (by
      rw [List.nil_append]
      exact List.Nodup.filter _ hwf.1)
    (by
      intro x hx
      rw [List.nil_append] at hx
      exact (List.mem_filter.mp hx).1)
    (by
      intro x hx
      rw [List.nil_append] at hx
      have hc := (List.mem_filter.mp hx).2
      have h0 : kahn_indegree g x = 0 := by simpa using hc
      rw [hN1 x] at h0
      exact h0)
    (by
      intro x hxV _ hxq
      have hcond : ¬ (kahn_indegree g x == 0) = true := by
        intro hc
        exact hxq (List.mem_filter.mpr ⟨hxV, hc⟩)
      have h0 : kahn_indegree g x ≠ 0 := by simpa using hcond
      rw [hN1 x] at h0
      have := inCount_nonneg g [] x
      omega)
    List.Pairwise.nil
    (by omega)
  refine ⟨hmem, hnd, ?_⟩
  intro a b hab
  have haV : a ∈ g.vertices := by
    obtain ⟨e, he, hv, _⟩ := hab
    exact hv ▸ (hwf.2.2.2 e he).1
  have hbV : b ∈ g.vertices := by
    obtain ⟨e, he, _, hw⟩ := hab
    exact hw ▸ (hwf.2.2.2 e he).2
  refine pairwise_indexOf_lt hpw ((hmem a).mpr haV) ((hmem b).mpr hbV)
    (edgeStep_ne_of_acyclic hnc hab) ?_
  exact fun hR => hR hab

/-- A two-vertex directed cycle 0→1→0. -/
def gCyc : Graph :=
  [Edge.mk 0 1 1, Edge.mk 1 0 1].foldl Graph.add_edge Graph.empty

theorem gCyc_hasCycle : HasCycle gCyc := by
  refine ⟨0, 1, ⟨Edge.mk 0 1 1, ?_, rfl, rfl⟩,
    Relation.ReflTransGen.single ⟨Edge.mk 1 0 1, ?_, rfl, rfl⟩⟩
  · decide
  · decide

/-- C7: topological sorting (src/topological_sorting.cc).  For every
well-formed directed graph: when the graph is acyclic, both
`dfs_topological_sorting` and `bfs_topological_sorting` return an order
containing every vertex exactly once in which every stored edge's source
appears before its destination; when the graph contains a directed
cycle, both return the empty sequence. -/
theorem c7_topological_sorting_correct (g : Graph) (hwf : g.WF) :
    (¬ HasCycle g →
      TopoOrder g (dfs_topological_sorting g) ∧
      TopoOrder g (bfs_topological_sorting g)) ∧
    (HasCycle g →
      dfs_topological_sorting g = [] ∧ bfs_topological_sorting g = []) := by
  constructor
  · intro hnc
    have hdet : dfs_detect_cycle g = false := by
      cases hb : dfs_detect_cycle g with
      | false => rfl
      | true => exact absurd (dfs_detect_cycle_sound g hwf hb) hnc
    exact ⟨dfs_topo_acyclic hwf hnc hdet, bfs_topo_acyclic hwf hnc hdet⟩
  · intro hc
    have hdet := dfs_detect_cycle_complete g hwf hc
    constructor
    · unfold dfs_topological_sorting
      rw [if_pos hdet]
    · unfold bfs_topological_sorting
      rw [if_pos hdet]

theorem c7_topological_sorting_correct_witness :
    gDAG.WF ∧ ¬ HasCycle gDAG ∧
    (TopoOrder gDAG (dfs_topological_sorting gDAG) ∧
      TopoOrder gDAG (bfs_topological_sorting gDAG)) ∧
    gCyc.WF ∧ HasCycle gCyc ∧
    (dfs_topological_sorting gCyc = [] ∧ bfs_topological_sorting gCyc = []) :=
  ⟨by decide, gDAG_acyclic,
    (c7_topological_sorting_correct gDAG (by decide)).1 gDAG_acyclic,
    by decide, gCyc_hasCycle,
    (c7_topological_sorting_correct gCyc (by decide)).2 gCyc_hasCycle⟩

end GraphLib
